import Mathlib

/-!
Verification development for the NDash BIND management core.

The JavaScript sources are embedded shallowly: strings become `List Char`,
the regular expressions used by the code become explicit character-level
matchers with the same leftmost-match semantics, and the effectful commit
pipeline becomes explicit state passing over a finite file-system map.
-/

namespace NDash

abbrev Str := List Char

/-- Whitespace class used by the JavaScript regexes (`\s`) and `trim`
restricted to the ASCII characters that occur in configuration text. -/
def isWsChar (c : Char) : Bool :=
  c = ' ' || c = '\t' || c = '\n' || c = '\r' || c = '\x0b' || c = '\x0c'

def isDigitChar (c : Char) : Bool :=
  c = '0' || c = '1' || c = '2' || c = '3' || c = '4' ||
  c = '5' || c = '6' || c = '7' || c = '8' || c = '9'

/-- Word character for the regex `\b` boundary: `[A-Za-z0-9_]`. -/
def isWordChar (c : Char) : Bool :=
  ('a' ≤ c && c ≤ 'z') || ('A' ≤ c && c ≤ 'Z') || isDigitChar c || c = '_'

def lowerChar (c : Char) : Char := c.toLower

/-- Numeric value of a decimal digit string (JS `parseInt` on an all-digit
token; leading zeros allowed). -/
def digitsToNat (ds : Str) : Nat :=
  ds.foldl (fun a c => a * 10 + (c.toNat - '0'.toNat)) 0

def digitChar (n : Nat) : Char := Char.ofNat ('0'.toNat + n)

/-- Fuel-driven helper for `digitsOf`; the fuel only needs to exceed the
number of decimal digits, which `n + 1` always does. -/
def digitsOfAux : Nat → Nat → Str
  | 0, _ => []
  | fuel + 1, n =>
    if n < 10 then [digitChar n]
    else digitsOfAux fuel (n / 10) ++ [digitChar (n % 10)]

/-- Decimal representation without leading zeros (JS `Number.prototype.toString`
for a nonnegative integer). -/
def digitsOf (n : Nat) : Str := digitsOfAux (n + 1) n

def natToStr (n : Nat) : Str := digitsOf n

/-- JS `String.prototype.includes`. -/
def containsSub : Str → Str → Bool
  | [], p => p.isPrefixOf ([] : Str)
  | l@(_ :: t), p => p.isPrefixOf l || containsSub t p

/-! ## Serial handling (`incrementSerial` in bindService.js)

The code matches `/(\d{10})\s*;\s*Serial/i` against the zone text and
replaces the first match with `` `${newSerial}       ; Serial` ``. -/

/-- The `\d{10}` part: exactly ten digits at the head. -/
def take10Digits (s : Str) : Option (Str × Str) :=
  let d := s.take 10
  if d.length = 10 && d.all isDigitChar then some (d, s.drop 10) else none

/-- Case-insensitive literal match (the `/i` flag); returns the rest. -/
def eatCI : Str → Str → Option Str
  | [], s => some s
  | _ :: _, [] => none
  | p :: ps, c :: cs => if lowerChar c = lowerChar p then eatCI ps cs else none

/-- Attempt `(\d{10})\s*;\s*Serial` (case-insensitive) at the head of `s`;
on success return the digit group and the rest after the whole match.
The greedy `\s*` runs are `dropWhile isWsChar`. -/
def matchSerialAt (s : Str) : Option (Str × Str) :=
  match take10Digits s with
  | none => none
  | some (d, r1) =>
    match r1.dropWhile isWsChar with
    | [] => none
    | c :: r3 =>
      if c = ';' then
        match eatCI "serial".toList (r3.dropWhile isWsChar) with
        | some r5 => some (d, r5)
        | none => none
      else none

/-- Leftmost match of the serial regex: returns the text before the match,
the digit group, and the rest after the match. -/
def findSerial : Str → Option (Str × Str × Str)
  | [] => none
  | c :: cs =>
    match matchSerialAt (c :: cs) with
    | some (d, r) => some ([], d, r)
    | none =>
      match findSerial cs with
      | some (b, d, r) => some (c :: b, d, r)
      | none => none

/-- The fixed replacement tail `       ; Serial` (seven spaces before the
semicolon) that `incrementSerial` writes after the new number. -/
def serialTail : Str := "       ; Serial".toList

/-- Embedding of `incrementSerial(zoneContent)`. -/
def incrementSerial (s : Str) : Str :=
  match findSerial s with
  | some (b, d, r) => b ++ digitsOf (digitsToNat d + 1) ++ serialTail ++ r
  | none => s

/-- Serial value extracted from a zone text by the same regex (group 1,
`parseInt`). -/
def extractSerial (s : Str) : Option Nat :=
  match findSerial s with
  | some (_, d, _) => some (digitsToNat d)
  | none => none

/-- Digit run written at the position of the replaced serial token (used to
state the field-width claim). -/
def writtenSerialRun (s : Str) : Option Str :=
  match findSerial s with
  | some (b, _, _) => some (((incrementSerial s).drop b.length).takeWhile isDigitChar)
  | none => none

/-- Pointwise case-insensitive equality of two strings (what a successful
`eatCI` certifies). -/
def ciMatch : Str → Str → Bool
  | [], [] => true
  | p :: ps, c :: cs => (lowerChar c = lowerChar p) && ciMatch ps cs
  | _, _ => false

/-! ## Zone-file record engine (`parseZoneFile`, `formatRecord` in
bindService.js) -/

/-- Split on a separator character (JS `String.prototype.split` with a
single-character separator). -/
def splitOnChar (sep : Char) : Str → List Str
  | [] => [[]]
  | c :: t =>
    if c = sep then [] :: splitOnChar sep t
    else
      match splitOnChar sep t with
      | [] => [[c]]
      | l :: ls => (c :: l) :: ls

def splitLines (s : Str) : List Str := splitOnChar '\n' s

/-- JS `String.prototype.trim` (ASCII whitespace). -/
def trimStr (s : Str) : Str :=
  ((s.dropWhile isWsChar).reverse.dropWhile isWsChar).reverse

/-- Maximal non-whitespace runs: JS `trimmed.split(/\s+/)` on an already
trimmed string produces exactly these words. -/
def wordsOfGo : Str → Str → List Str
  | acc, [] => if acc.isEmpty then [] else [acc.reverse]
  | acc, c :: t =>
    if isWsChar c then
      if acc.isEmpty then wordsOfGo [] t else acc.reverse :: wordsOfGo [] t
    else wordsOfGo (c :: acc) t

def wordsOf (s : Str) : List Str := wordsOfGo [] s

/-- A token that passes the JS `!isNaN(tok)` test in the only form zone-file
data produces (a run of decimal digits). -/
def isNumericToken (s : Str) : Bool := !s.isEmpty && s.all isDigitChar

/-- JS `Array.prototype.includes` on the parts array. -/
def hasTok (a : Str) : List Str → Bool
  | [] => false
  | p :: ps => p = a || hasTok a ps

/-- JS `Array.prototype.indexOf` on the parts array (only ever used when the
token is present, so the absent case never matters to callers). -/
def idxOf (a : Str) : List Str → Nat
  | [] => 0
  | p :: ps => if p = a then 0 else idxOf a ps + 1

structure ZoneRecord where
  rid : Nat
  name : Str
  rtype : Str
  value : Str
  ttl : Nat
deriving DecidableEq, Repr

/-- The per-line branch of `parseZoneFile`: skip empty lines, comments,
directives and any line whose trimmed text contains "SOA"; otherwise split
into whitespace-separated parts and, when there are at least four parts and
one of them is `IN`, build the record fields around the first `IN`.
An out-of-range part access (JS `undefined`) is represented by `[]`. -/
def parseLineRec (l : Str) : Option (Str × Str × Str × Nat) :=
  match trimStr l with
  | [] => none
  | c :: rest =>
    if c = ';' then none
    else if c = '$' then none
    else if containsSub (c :: rest) "SOA".toList then none
    else
      let parts := wordsOf (c :: rest)
      if 4 ≤ parts.length && hasTok "IN".toList parts then
        let i := idxOf "IN".toList parts
        let name := parts.getD 0 []
        let rtype := parts.getD (i + 1) []
        let value := List.intercalate " ".toList (parts.drop (i + 2))
        let p1 := parts.getD 1 []
        some (name, rtype, value, if isNumericToken p1 then digitsToNat p1 else 3600)
      else none

/-- Attach the running `id` counter exactly as the JS loop does. -/
def numberFrom : Nat → List (Str × Str × Str × Nat) → List ZoneRecord
  | _, [] => []
  | i, (n, ty, v, t) :: rest => ⟨i, n, ty, v, t⟩ :: numberFrom (i + 1) rest

/-- Embedding of `parseZoneFile(content)`. -/
def parseZoneFile (content : Str) : List ZoneRecord :=
  numberFrom 1 ((splitLines content).filterMap parseLineRec)

/-- Record as handed to `formatRecord`; the optional numeric fields model JS
properties that may be `undefined`. -/
structure RecordInput where
  name : Str
  rtype : Str
  value : Str
  ttl : Option Nat
  priority : Option Nat
  weight : Option Nat
  port : Option Nat
deriving DecidableEq, Repr

/-- JS `String.prototype.padEnd` with spaces. -/
def padEndTo (n : Nat) (s : Str) : Str := s ++ List.replicate (n - s.length) ' '

/-- JS `x || d` on an optional nonnegative number: both `undefined` and `0`
are falsy. -/
def orFalsy (x : Option Nat) (d : Nat) : Nat :=
  match x with
  | none => d
  | some 0 => d
  | some k => k

/-- Embedding of `formatRecord(record)`. -/
def formatRecord (r : RecordInput) : Str :=
  let name := padEndTo 15 r.name
  let ttl := padEndTo 8 (natToStr (orFalsy r.ttl 3600))
  let ty := padEndTo 8 r.rtype
  if r.rtype = "MX".toList then
    name ++ ' ' :: (ttl ++ (" IN ".toList ++ (ty ++ ' ' ::
      (natToStr (orFalsy r.priority 10) ++ ' ' :: r.value))))
  else if r.rtype = "SRV".toList then
    name ++ ' ' :: (ttl ++ (" IN ".toList ++ (ty ++ ' ' ::
      (natToStr (orFalsy r.priority 10) ++ ' ' ::
        (natToStr (orFalsy r.weight 0) ++ ' ' ::
          (natToStr (orFalsy r.port 0) ++ ' ' :: r.value))))))
  else
    name ++ ' ' :: (ttl ++ (" IN ".toList ++ (ty ++ ' ' :: r.value)))

/-! ## Commit pipeline (`writeConfigWithValidation` in the config manager and
the commit steps of `reassignZone` in bindService.js) -/

/-- File system as an association list from path to content. -/
structure FS where
  files : List (Str × Str)
deriving DecidableEq, Repr

def lookupFile : List (Str × Str) → Str → Option Str
  | [], _ => none
  | (q, c) :: t, p => if q = p then some c else lookupFile t p

def FS.read (fs : FS) (p : Str) : Option Str := lookupFile fs.files p

def setFile : List (Str × Str) → Str → Str → List (Str × Str)
  | [], p, c => [(p, c)]
  | (q, c0) :: t, p, c => if q = p then (q, c) :: t else (q, c0) :: setFile t p c

def FS.write (fs : FS) (p c : Str) : FS := ⟨setFile fs.files p c⟩

def removeFile : List (Str × Str) → Str → List (Str × Str)
  | [], _ => []
  | (q, c0) :: t, p => if q = p then removeFile t p else (q, c0) :: removeFile t p

def FS.unlink (fs : FS) (p : Str) : FS := ⟨removeFile fs.files p⟩

/-- fs-extra `move` with overwrite: materialize the source content at the
target and remove the source. -/
def FS.move (fs : FS) (src dst : Str) : FS :=
  match fs.read src with
  | some c => (fs.unlink src).write dst c
  | none => fs

/-- `fs.copyFile`. -/
def FS.copy (fs : FS) (src dst : Str) : FS :=
  match fs.read src with
  | some c => fs.write dst c
  | none => fs

/-- Embedding of `writeConfigWithValidation(filePath, content)`. The external
validator verdict and the `Date.now()` timestamp are inputs; the result pairs
the thrown error (if any) with the final file-system state. For a path
containing "named.conf" the candidate goes to `<path>.tmp.<ts>`, is
validated, and on failure the temp file is unlinked before the error is
thrown; on success the temp file is moved over the live path. -/
def writeConfigWithValidation (validatorOk : Bool) (ts : Str)
    (filePath content : Str) (fs : FS) : Option Str × FS :=
  if containsSub filePath "named.conf".toList then
    let tmpFile := filePath ++ ".tmp.".toList ++ ts
    let fs1 := fs.write tmpFile content
    if validatorOk then (none, fs1.move tmpFile filePath)
    else (some "BIND config validation failed".toList, fs1.unlink tmpFile)
  else (none, fs.write filePath content)

/-- Outcome of the `reassignZone` commit pipeline: the thrown error (if any),
the final file system, and whether the persisted view membership in the
settings store was updated. -/
structure ReassignResult where
  err : Option Str
  fs : FS
  settingsUpdated : Bool
deriving DecidableEq, Repr

/-- Embedding of the commit pipeline inside `reassignZone` (bindService.js,
from the temp-file write to the settings update). The candidate text is
written to `<conf>.tmp.<ts1>` and validated; on validation failure the
function throws without removing the temp file. On success the live file is
copied to `<conf>.backup.<ts2>`, the temp file is moved over the live file,
and if auto-reload is enabled a failing reload copies the backup back over
the live file and throws a combined error. The settings-store membership is
updated only after all of that succeeds. -/
def reassignZonePipeline (validatorOk reloadOk autoReload : Bool) (ts1 ts2 : Str)
    (confPath newContent : Str) (fs : FS) : ReassignResult :=
  let tmpFile := confPath ++ ".tmp.".toList ++ ts1
  let fs1 := fs.write tmpFile newContent
  if !validatorOk then
    ⟨some "Config validation failed for proposed change".toList, fs1, false⟩
  else
    let backupFile := confPath ++ ".backup.".toList ++ ts2
    let fs2 := fs1.copy confPath backupFile
    let fs3 := fs2.move tmpFile confPath
    if autoReload && !reloadOk then
      ⟨some "Reload failed after reassign; config restored".toList,
        fs3.copy backupFile confPath, false⟩
    else ⟨none, fs3, true⟩

/-! ## Zone-file generation (`generateZoneFile` in bindService.js) -/

/-- Options object for `generateZoneFile`; `autoGeneratePTR` models
`options.settings?.zones?.autoGeneratePTR`. -/
structure GenOptions where
  ttl : Option Nat
  nameserver : Option Str
  email : Option Str
  domain : Option Str
  nsIP : Option Str
  nameserverIP : Option Str
  autoGeneratePTR : Option Bool
deriving DecidableEq, Repr

/-- JS `x || d` on an optional string: `undefined` and the empty string are
falsy. -/
def orFalsyStr (x : Option Str) (d : Str) : Str :=
  match x with
  | none => d
  | some [] => d
  | some s => s

/-- JS `s.replace(/\.+$/, '')`. -/
def stripTrailingDots (s : Str) : Str := (s.reverse.dropWhile (fun c => c = '.')).reverse

/-- Normalization `s.replace(/\.+$/, '') + '.'` used for ns/email/domain. -/
def ensureDot (s : Str) : Str := stripTrailingDots s ++ ['.']

/-- JS `zoneName.replace(/\.?in-addr\.arpa\.?$/, '')` (leftmost match
anchored at the end, so a leading dot is consumed when present). -/
def stripInAddrArpa (s : Str) : Str :=
  if ".in-addr.arpa.".toList.isSuffixOf s then s.take (s.length - 14)
  else if ".in-addr.arpa".toList.isSuffixOf s then s.take (s.length - 13)
  else if "in-addr.arpa.".toList.isSuffixOf s then s.take (s.length - 13)
  else if "in-addr.arpa".toList.isSuffixOf s then s.take (s.length - 12)
  else s

/-- `parts.reverse().join('.')` over a dot-split. -/
def networkPrefixOf (zoneName : Str) : Str :=
  List.intercalate ['.'] ((splitOnChar '.' (stripInAddrArpa zoneName)).reverse)

def genNS (zoneName : Str) (o : GenOptions) : Str :=
  ensureDot (orFalsyStr o.nameserver ("ns1.".toList ++ zoneName ++ ['.']))

def genEmail (zoneName : Str) (o : GenOptions) : Str :=
  ensureDot (orFalsyStr o.email ("admin.".toList ++ zoneName ++ ['.']))

def genDomainForPTR (zoneName : Str) (o : GenOptions) : Str :=
  if containsSub zoneName "in-addr.arpa".toList then
    ensureDot (orFalsyStr o.domain "example.com.".toList)
  else orFalsyStr o.domain "example.com.".toList

def genNsIP (zoneName : Str) (o : GenOptions) : Str :=
  orFalsyStr o.nsIP (orFalsyStr o.nameserverIP (networkPrefixOf zoneName ++ ".1".toList))

/-- One auto-generated PTR line (without its trailing newline):
`` `${i}       IN      PTR     host${i}.${domainForPTR}` ``. -/
def ptrLine (domainForPTR : Str) (i : Nat) : Str :=
  natToStr i ++ "       IN      PTR     host".toList ++ natToStr i ++ ['.'] ++ domainForPTR

/-- Embedding of `generateZoneFile(zoneName, options)`. The impure pieces
(the ISO date in the header comment and the `YYYYMMDD01` serial) are passed in
as `dateStr` and `serial`. The `autoGeneratePTR !== false` test appears as a
test against `some false`. -/
def generateZoneFile (zoneName dateStr serial : Str) (options : GenOptions) : Str :=
  let header :=
    "; Zone file for ".toList ++ zoneName ++
    "\n; Generated by NDash on ".toList ++ dateStr ++
    "\n\n$TTL ".toList ++ natToStr (orFalsy options.ttl 3600) ++
    "\n@       IN      SOA     ".toList ++ genNS zoneName options ++ [' '] ++
    genEmail zoneName options ++
    " (\n                        ".toList ++ serial ++
    "       ; Serial\n                        7200            ; Refresh\n                        3600            ; Retry\n                        1209600         ; Expire\n                        3600 )          ; Minimum TTL\n\n; Name servers\n@       IN      NS      ".toList ++
    genNS zoneName options ++ ['\n']
  if containsSub zoneName "in-addr.arpa".toList then
    let glue := genNS zoneName options ++ "   IN      A       ".toList ++
      genNsIP zoneName options ++ ['\n']
    if options.autoGeneratePTR = some false then
      header ++ glue ++
        "\n; PTR records\n; Add your PTR records here\n; Example: 1 IN PTR host1.".toList ++
        genDomainForPTR zoneName options ++ ['\n']
    else
      header ++ glue ++
        "\n; PTR records (auto-generated)\n; Format: <last-octet> IN PTR <hostname>.<domain>\n".toList ++
        List.flatten ((List.range' 1 254).map
          (fun i => ptrLine (genDomainForPTR zoneName options) i ++ ['\n']))
  else
    header ++ "\n; A records\n@       IN      A       127.0.0.1\n".toList ++
      (splitOnChar '.' (genNS zoneName options).dropLast).getD 0 [] ++
      "   IN      A       127.0.0.1\n".toList

/-! ## Zone block removal and insertion (`removeZoneFromConfigContent`,
`insertZoneIntoViewContent`, `buildMoveZoneToViewContent` in the config
manager) -/

/-- The char class `[\s;\n\r]` consumed after a closing brace. -/
def wsOrSemi (c : Char) : Bool := isWsChar c || c = ';'

/-- One character of the interpolated zone-name pattern: the name is spliced
verbatim into a case-insensitive regex, so `.` acts as the regex wildcard
(anything but a line terminator) and every other character matches up to
case. -/
def nameCharMatch (p c : Char) : Bool :=
  (p = '.' && !(c = '\n' || c = '\r')) || lowerChar c = lowerChar p

/-- Match the interpolated name pattern against the head of the text,
returning the rest. -/
def matchName : Str → Str → Option Str
  | [], s => some s
  | _ :: _, [] => none
  | p :: ps, c :: t => if nameCharMatch p c then matchName ps t else none

/-- Match `zone\s+"<name>"` at the head of the text (without the leading
word-boundary test). -/
def matchZoneCore (name : Str) (s : Str) : Bool :=
  match eatCI "zone".toList s with
  | none => false
  | some [] => false
  | some (c :: r1) =>
    if isWsChar c then
      match r1.dropWhile isWsChar with
      | [] => false
      | d :: r3 =>
        if d = '"' then
          match matchName name r3 with
          | none => false
          | some [] => false
          | some (e :: _) => e = '"'
        else false
    else false

/-- The `\b` before `zone`: start of text or a preceding non-word
character. -/
def boundaryOk : Option Char → Bool
  | none => true
  | some c => !isWordChar c

/-- Leftmost match of `/\bzone\s+"<name>"/i`, returning the text before
the match and the suffix starting at the match. -/
def findZone (name : Str) : Option Char → Str → Option (Str × Str)
  | prev, s =>
    match s with
    | [] => none
    | c :: t =>
      if boundaryOk prev && matchZoneCore name (c :: t) then some ([], c :: t)
      else
        match findZone name (some c) t with
        | none => none
        | some (b, m) => some (c :: b, m)

/-- JS `indexOf('\x7b')`: split at the first open brace. -/
def splitAtBrace : Str → Option (Str × Str)
  | [] => none
  | c :: t =>
    if c = '\x7b' then some ([], t)
    else
      match splitAtBrace t with
      | none => none
      | some (p, a) => some (c :: p, a)

/-- The brace-matching scan: called on the text just after an open brace with
`depth = 1`, it returns the body up to the matching close brace and the rest
after it, or `none` when the braces never rebalance before end-of-text. -/
def scanBody : Str → Nat → Option (Str × Str)
  | [], _ => none
  | c :: t, depth =>
    if c = '\x7b' then
      match scanBody t (depth + 1) with
      | none => none
      | some (b, r) => some (c :: b, r)
    else if c = '\x7d' then
      if depth = 1 then some ([], t)
      else
        match scanBody t (depth - 1) with
        | none => none
        | some (b, r) => some (c :: b, r)
    else
      match scanBody t depth with
      | none => none
      | some (b, r) => some (c :: b, r)

/-- Emit a pending newline run: runs of three or more collapse to two
(JS `replace(/\n\x7b3,\x7d/g, '\n\n')`). -/
def emitRun (k : Nat) : Str := if 3 ≤ k then ['\n', '\n'] else List.replicate k '\n'

def collapseNlGo : Nat → Str → Str
  | k, [] => emitRun k
  | k, c :: t => if c = '\n' then collapseNlGo (k + 1) t else emitRun k ++ c :: collapseNlGo 0 t

def collapseNl (s : Str) : Str := collapseNlGo 0 s

/-- Embedding of `removeZoneFromConfigContent(content, zoneName)`. -/
def removeZoneFromConfigContent (content name : Str) : Str :=
  match findZone name none content with
  | none => content
  | some (b, m) =>
    match splitAtBrace m with
    | none => content
    | some (_, ab) =>
      match scanBody ab 1 with
      | none => content
      | some (_, rest) => trimStr (collapseNl (b ++ rest.dropWhile wsOrSemi)) ++ ['\n']

/-- JS `v.replace(/\\n/g, '\n')` in `normalizeList`: each literal
backslash-`n` pair becomes a newline (global, left to right). -/
def replaceEscNl : Str → Str
  | [] => []
  | '\\' :: 'n' :: t => '\n' :: replaceEscNl t
  | c :: t => c :: replaceEscNl t

/-- JS `v.split(/[\n,;]/)`: split on any of a class of separator
characters. -/
def splitOnPred (p : Char → Bool) : Str → List Str
  | [] => [[]]
  | c :: t =>
    if p c then [] :: splitOnPred p t
    else
      match splitOnPred p t with
      | [] => [[c]]
      | l :: ls => (c :: l) :: ls

/-- Embedding of `normalizeList(arr)`: skip falsy items, expand escaped
newlines, split on newline/comma/semicolon, trim, keep the nonempty parts. -/
def normalizeList (arr : List Str) : List Str :=
  arr.flatMap (fun v =>
    if v.isEmpty then []
    else ((splitOnPred (fun c => c = '\n' || c = ',' || c = ';')
      (replaceEscNl v)).map trimStr).filter (fun s => !s.isEmpty))

/-- The `viewAcl` argument of `insertZoneIntoViewContent`; either field may be
absent (JS `undefined`), in which case the `|| ['any']` / `|| []` defaults
apply. -/
structure ViewAcl where
  allow : Option (List Str)
  deny : Option (List Str)
deriving DecidableEq, Repr

/-- The `aclLines` array built in the create-view branch: a `match-clients`
line when the (normalized) allow list is nonempty, then a `// deny:` comment
line when the deny list is nonempty. -/
def aclLinesFor (allowList denyList : List Str) : List Str :=
  (if 0 < allowList.length then
    ["    match-clients \x7b ".toList ++
      List.intercalate "; ".toList allowList ++ "; \x7d;".toList]
   else []) ++
  (if 0 < denyList.length then
    ["    // deny: ".toList ++ List.intercalate "; ".toList denyList ++ [';']]
   else [])

/-- The fresh view block appended when the target view does not exist:
`` `\nview "..." \x7b\n<aclLines joined>\n\n    <zoneBlock>\n\x7d;\n` ``. -/
def viewBlockFor (viewName zoneBlock : Str) (acl : ViewAcl) : Str :=
  "\nview \x22".toList ++ viewName ++ "\x22 \x7b\n".toList ++
    List.intercalate ['\n'] (aclLinesFor (normalizeList (acl.allow.getD ["any".toList]))
      (normalizeList (acl.deny.getD []))) ++
    "\n\n    ".toList ++ zoneBlock ++ "\n\x7d;\n".toList

/-- JS `String.prototype.indexOf` on a pattern: split the text at the first
occurrence, returning the part before and the suffix starting with the
occurrence. -/
def splitAtSub (pat : Str) : Str → Option (Str × Str)
  | [] => if pat.isPrefixOf ([] : Str) then some ([], []) else none
  | c :: t =>
    if pat.isPrefixOf (c :: t) then some ([], c :: t)
    else
      match splitAtSub pat t with
      | none => none
      | some (b, m) => some (c :: b, m)

/-- Embedding of `insertZoneIntoViewContent(content, zoneBlock, viewName,
viewAcl)`; `none` models the thrown `Malformed view block` /
`Could not find end of view` errors. -/
def insertZoneIntoViewContent (content zoneBlock viewName : Str) (acl : ViewAcl) :
    Option Str :=
  match splitAtSub ("view \"".toList ++ viewName ++ ['"']) content with
  | none => some (content ++ viewBlockFor viewName zoneBlock acl)
  | some (b, m) =>
    match splitAtBrace m with
    | none => none
    | some (pre, ab) =>
      match scanBody ab 1 with
      | none => none
      | some (body, rest) =>
        some (b ++ (pre ++ '\x7b' :: body) ++
          ('\n' :: "    ".toList ++ zoneBlock) ++
          ('\x7d' :: rest.takeWhile wsOrSemi) ++ rest.dropWhile wsOrSemi)

/-- The zone block template of `buildMoveZoneToViewContent`. -/
def zoneBlockFor (name file : Str) : Str :=
  "zone \"".toList ++ name ++
    "\" \x7b\n    type master;\n    file \"".toList ++ file ++
    "\";\n    allow-update \x7b none; \x7d;\n\x7d;\n".toList

/-- Embedding of `buildMoveZoneToViewContent` on an explicit current content
(the JS reads `named.conf.local` itself); `acl` is the `targetViewAcl`
argument (the JS default is `⟨some ["any".toList], some []⟩`; the `getD`
defaults inside `viewBlockFor` model the `||` fallbacks for absent fields). -/
def buildMoveZoneToViewContent (content name file targetView : Str) (acl : ViewAcl) :
    Option Str :=
  insertZoneIntoViewContent (removeZoneFromConfigContent content name)
    (zoneBlockFor name file) targetView acl

/-- Position-by-position absence of a zone match inside `x`, where each
candidate suffix of `x` is extended by the fixed tail `t` (the text that
follows `x` in the document). -/
def noMatchWithTail (name : Str) : Option Char → Str → Str → Bool
  | _, [], _ => true
  | prev, c :: x, t =>
    !(boundaryOk prev && matchZoneCore name ((c :: x) ++ t)) &&
      noMatchWithTail name (some c) x t

/-- Brace depth after scanning `x` from the given depth; `none` when a close
brace is reached at depth 1 (the scan would have terminated inside `x`). -/
def depthRun : Str → Nat → Option Nat
  | [], d => some d
  | c :: t, d =>
    if c = '\x7b' then depthRun t (d + 1)
    else if c = '\x7d' then
      if d = 1 then none else depthRun t (d - 1)
    else depthRun t d

/-- The tail of the `zoneBlockFor` template after `zone "<name>`. -/
def zbTail (file : Str) : Str :=
  " \x7b\n    type master;\n    file \x22".toList ++ file ++
    "\x22;\n    allow-update \x7b none; \x7d;\n\x7d;\n".toList

/-- The conclusion shape of the move-twice claim: the document decomposes
around a single intact `zoneBlockFor` copy, that copy sits between the open
brace following a `view "<view>"` header and its matching close brace (the
`scanBody` clause), the leftmost zone match of the whole document is exactly
that copy's header, and no further zone match starts anywhere after the first
character of the copy. -/
def zoneOnceInView (doc name file view : Str) : Prop :=
  ∃ B P BD R,
    doc = B ++ ((P ++ '\x7b' :: BD) ++
      (('\n' :: "    ".toList ++ zoneBlockFor name file) ++ '\x7d' :: R)) ∧
    ("view \x22".toList ++ view ++ ['\x22']).isPrefixOf P = true ∧
    scanBody (BD ++ (('\n' :: "    ".toList ++ zoneBlockFor name file) ++
      '\x7d' :: R)) 1 =
      some (BD ++ ('\n' :: "    ".toList ++ zoneBlockFor name file), R) ∧
    findZone name none doc = some ((B ++ (P ++ '\x7b' :: BD)) ++ ('\n' :: "    ".toList),
      zoneBlockFor name file ++ '\x7d' :: R) ∧
    findZone name (some 'z')
      (("one \x22".toList ++ (name ++ '\x22' :: zbTail file)) ++ '\x7d' :: R) = none

/-! ## General helper lemmas -/

theorem takeWhile_app {p : Char → Bool} (w : Str) (c : Char) (t : Str)
    (hw : w.all p) (hc : p c = false) : (w ++ c :: t).takeWhile p = w := by
  induction w with
  | nil => simp [List.takeWhile_cons, hc]
  | cons a w ih =>
    simp only [List.all_cons, Bool.and_eq_true] at hw
    simp [List.takeWhile_cons, hw.1, ih hw.2]

theorem dropWhile_app {p : Char → Bool} (w : Str) (c : Char) (t : Str)
    (hw : w.all p) (hc : p c = false) : (w ++ c :: t).dropWhile p = c :: t := by
  induction w with
  | nil => simp [List.dropWhile_cons, hc]
  | cons a w ih =>
    simp only [List.all_cons, Bool.and_eq_true] at hw
    simp [List.dropWhile_cons, hw.1, ih hw.2]

theorem dropWhile_head_not {p : Char → Bool} (l : Str) (c : Char) (t : Str)
    (h : l.dropWhile p = c :: t) : p c = false := by
  induction l with
  | nil => simp [List.dropWhile] at h
  | cons a l ih =>
    rw [List.dropWhile_cons] at h
    by_cases ha : p a
    · simp [ha] at h; exact ih h
    · simp [ha] at h
      rcases h with ⟨rfl, -⟩
      exact Bool.not_eq_true _ ▸ (by simpa using ha)

theorem get?_append_left (xs ys : Str) (i : Nat) (h : i < xs.length) :
    (xs ++ ys).get? i = xs.get? i := by
  induction xs generalizing i with
  | nil => simp at h
  | cons a xs ih =>
    cases i with
    | zero => rfl
    | succ i => simpa using ih i (by simpa using h)

theorem get?_append_mid (xs : Str) (c : Char) (ys : Str) :
    (xs ++ c :: ys).get? xs.length = some c := by
  induction xs with
  | nil => rfl
  | cons a xs ih => simpa using ih

theorem all_of_get? {p : Char → Bool} (xs : Str) (i : Nat) (c : Char)
    (h : xs.get? i = some c) (ha : xs.all p) : p c = true := by
  induction xs generalizing i with
  | nil => simp at h
  | cons a xs ih =>
    simp only [List.all_cons, Bool.and_eq_true] at ha
    cases i with
    | zero => simp at h; exact h ▸ ha.1
    | succ i => exact ih i (by simpa using h) ha.2

theorem ws_cases (c : Char) (h : isWsChar c = true) :
    c = ' ' ∨ c = '\t' ∨ c = '\n' ∨ c = '\r' ∨ c = '\x0b' ∨ c = '\x0c' := by
  simpa [isWsChar, or_assoc] using h

theorem digit_cases (c : Char) (h : isDigitChar c = true) :
    c = '0' ∨ c = '1' ∨ c = '2' ∨ c = '3' ∨ c = '4' ∨
    c = '5' ∨ c = '6' ∨ c = '7' ∨ c = '8' ∨ c = '9' := by
  simpa [isDigitChar, or_assoc] using h

theorem digit_not_ws (c : Char) (h : isDigitChar c = true) : isWsChar c = false := by
  rcases digit_cases c h with rfl|rfl|rfl|rfl|rfl|rfl|rfl|rfl|rfl|rfl <;> decide

theorem digit_lower (c : Char) (h : isDigitChar c = true) : lowerChar c = c := by
  rcases digit_cases c h with rfl|rfl|rfl|rfl|rfl|rfl|rfl|rfl|rfl|rfl <;> decide

/-! ## Serial matcher characterization -/

theorem eatCI_of_ciMatch : ∀ (p a r : Str), ciMatch p a → eatCI p (a ++ r) = some r
  | [], [], _, _ => rfl
  | p :: ps, c :: cs, r, h => by
    simp only [ciMatch, Bool.and_eq_true, decide_eq_true_eq] at h
    simpa [eatCI, h.1] using eatCI_of_ciMatch ps cs r h.2
  | [], _ :: _, _, h => by simp [ciMatch] at h
  | _ :: _, [], _, h => by simp [ciMatch] at h

theorem eatCI_some : ∀ (p s r : Str), eatCI p s = some r → ∃ a, s = a ++ r ∧ ciMatch p a
  | [], s, r, h => by
    have hsr : s = r := by simpa [eatCI] using h
    exact ⟨[], by simp [hsr], by decide⟩
  | _ :: _, [], _, h => by simp [eatCI] at h
  | p :: ps, c :: cs, r, h => by
    rw [eatCI] at h
    by_cases hl : lowerChar c = lowerChar p
    · simp only [hl, if_true] at h
      obtain ⟨a, rfl, hm⟩ := eatCI_some ps cs r h
      exact ⟨c :: a, rfl, by simp [ciMatch, hl, hm]⟩
    · simp [hl] at h

theorem take10_of (d r : Str) (h10 : d.length = 10) (hd : d.all isDigitChar) :
    take10Digits (d ++ r) = some (d, r) := by
  unfold take10Digits
  rw [← h10, List.take_left, List.drop_left, h10]
  simp [hd, h10]

theorem take10_some (s d r : Str) (h : take10Digits s = some (d, r)) :
    s = d ++ r ∧ d.length = 10 ∧ d.all isDigitChar := by
  unfold take10Digits at h
  by_cases hc : (s.take 10).length = 10 ∧ (s.take 10).all isDigitChar
  · rw [if_pos (by simp [hc.1, hc.2])] at h
    obtain ⟨rfl, rfl⟩ : s.take 10 = d ∧ s.drop 10 = r := by
      constructor <;> [exact congrArg Prod.fst (Option.some.inj h);
        exact congrArg Prod.snd (Option.some.inj h)]
    exact ⟨(List.take_append_drop 10 s).symm, hc.1, hc.2⟩
  · rw [if_neg (by intro hb; exact hc ⟨by simpa using (Bool.and_eq_true _ _).mp hb |>.1,
      (Bool.and_eq_true _ _).mp hb |>.2⟩)] at h
    exact absurd h (by simp)

theorem matchSerialAt_some (s d r : Str) (h : matchSerialAt s = some (d, r)) :
    ∃ w1 w2 sw, s = d ++ (w1 ++ ';' :: (w2 ++ (sw ++ r))) ∧ d.length = 10 ∧
      d.all isDigitChar ∧ w1.all isWsChar ∧ w2.all isWsChar ∧
      ciMatch "serial".toList sw := by
  unfold matchSerialAt at h
  cases h10 : take10Digits s with
  | none => rw [h10] at h; exact absurd h (by simp)
  | some dr =>
    obtain ⟨d0, r1⟩ := dr
    rw [h10] at h
    dsimp only at h
    obtain ⟨hs, hlen, hdig⟩ := take10_some s d0 r1 h10
    have hr1 : r1.takeWhile isWsChar ++ r1.dropWhile isWsChar = r1 :=
      List.takeWhile_append_dropWhile isWsChar r1
    cases hdw : r1.dropWhile isWsChar with
    | nil => rw [hdw] at h; exact absurd h (by simp)
    | cons c r3 =>
      rw [hdw] at h
      dsimp only at h
      by_cases hcsemi : c = ';'
      · subst hcsemi
        rw [if_pos rfl] at h
        have hr3 : r3.takeWhile isWsChar ++ r3.dropWhile isWsChar = r3 :=
          List.takeWhile_append_dropWhile isWsChar r3
        cases hec : eatCI "serial".toList (r3.dropWhile isWsChar) with
        | none => rw [hec] at h; exact absurd h (by simp)
        | some r5 =>
          rw [hec] at h
          dsimp only at h
          obtain ⟨hd0, hr5⟩ : d0 = d ∧ r5 = r := by
            have := Option.some.inj h; exact ⟨congrArg Prod.fst this, congrArg Prod.snd this⟩
          subst hd0; subst hr5
          obtain ⟨sw, hsw1, hsw2⟩ := eatCI_some _ _ _ hec
          refine ⟨r1.takeWhile isWsChar, r3.takeWhile isWsChar, sw, ?_, hlen, hdig,
            List.all_takeWhile, List.all_takeWhile, hsw2⟩
          have e3 : r3 = r3.takeWhile isWsChar ++ (sw ++ r5) := by
            rw [← hsw1]; exact hr3.symm
          have e1 : r1 = r1.takeWhile isWsChar ++ ';' :: r3 := by
            rw [← hdw]; exact hr1.symm
          conv_lhs => rw [hs, e1, e3]
      · rw [if_neg hcsemi] at h
        exact absurd h (by simp)

theorem matchSerialAt_of (d w1 w2 sw r : Str) (hlen : d.length = 10)
    (hdig : d.all isDigitChar) (hw1 : w1.all isWsChar) (hw2 : w2.all isWsChar)
    (hsw : ciMatch "serial".toList sw) :
    matchSerialAt (d ++ (w1 ++ ';' :: (w2 ++ (sw ++ r)))) = some (d, r) := by
  have hswhead : ∃ c0 swt, sw = c0 :: swt ∧ lowerChar c0 = lowerChar 's' := by
    cases sw with
    | nil => exact absurd hsw (by simp [ciMatch])
    | cons c0 swt =>
      refine ⟨c0, swt, rfl, ?_⟩
      have : ciMatch ('s' :: "erial".toList) (c0 :: swt) := hsw
      simp only [ciMatch, Bool.and_eq_true, decide_eq_true_eq] at this
      exact this.1
  obtain ⟨c0, swt, rfl, hc0⟩ := hswhead
  have hc0ws : isWsChar c0 = false := by
    cases hb : isWsChar c0
    · rfl
    · exfalso
      rcases ws_cases c0 hb with rfl|rfl|rfl|rfl|rfl|rfl <;> exact absurd hc0 (by decide)
  unfold matchSerialAt
  rw [take10_of d _ hlen hdig]
  dsimp only
  rw [dropWhile_app w1 ';' _ hw1 (by decide)]
  dsimp only
  rw [if_pos rfl]
  have hdw2 : (w2 ++ (c0 :: swt ++ r)).dropWhile isWsChar = c0 :: (swt ++ r) := by
    rw [show c0 :: swt ++ r = c0 :: (swt ++ r) from rfl]
    exact dropWhile_app w2 c0 _ hw2 hc0ws
  rw [hdw2, show (c0 :: (swt ++ r)) = (c0 :: swt) ++ r from rfl,
    eatCI_of_ciMatch "serial".toList (c0 :: swt) r hsw]

/-! ## Leftmost-match structure of findSerial -/

theorem findSerial_struct (s b d r : Str) (h : findSerial s = some (b, d, r)) :
    ∃ m, s = b ++ (m ++ r) ∧ matchSerialAt (m ++ r) = some (d, r) ∧
      ∀ x y, b = x ++ y → y ≠ [] → matchSerialAt (y ++ (m ++ r)) = none := by
  induction s generalizing b with
  | nil => simp [findSerial] at h
  | cons c cs ih =>
    rw [findSerial] at h
    cases hm : matchSerialAt (c :: cs) with
    | some dr =>
      obtain ⟨d0, r0⟩ := dr
      rw [hm] at h
      dsimp only at h
      obtain ⟨rfl, rfl, rfl⟩ : b = [] ∧ d = d0 ∧ r = r0 := by
        have h2 := Option.some.inj h
        exact ⟨(congrArg Prod.fst h2).symm,
          (congrArg Prod.fst (congrArg Prod.snd h2)).symm,
          (congrArg Prod.snd (congrArg Prod.snd h2)).symm⟩
      obtain ⟨w1, w2, sw, heq, _, _, _, _, _⟩ := matchSerialAt_some _ _ _ hm
      refine ⟨d ++ (w1 ++ ';' :: w2 ++ sw), ?_, ?_, ?_⟩
      · simpa [List.append_assoc] using heq
      · rw [show (d ++ (w1 ++ ';' :: w2 ++ sw)) ++ r = d ++ (w1 ++ ';' :: (w2 ++ (sw ++ r)))
          from by simp [List.append_assoc]]
        rw [← heq]; exact hm
      · intro x y hxy hy
        exact absurd (List.append_eq_nil.mp hxy.symm).2 hy
    | none =>
      rw [hm] at h
      dsimp only at h
      cases hf : findSerial cs with
      | none => rw [hf] at h; exact absurd h (by simp)
      | some bdr =>
        obtain ⟨b0, d0, r0⟩ := bdr
        rw [hf] at h
        dsimp only at h
        obtain ⟨rfl, rfl, rfl⟩ : b = c :: b0 ∧ d = d0 ∧ r = r0 := by
          have h2 := Option.some.inj h
          exact ⟨(congrArg Prod.fst h2).symm,
            (congrArg Prod.fst (congrArg Prod.snd h2)).symm,
            (congrArg Prod.snd (congrArg Prod.snd h2)).symm⟩
        obtain ⟨m, hcs, hmm, hnone⟩ := ih b0 hf
        refine ⟨m, ?_, hmm, ?_⟩
        · rw [hcs]; rfl
        · intro x y hxy hy
          cases x with
          | nil =>
            simp only [List.nil_append] at hxy
            rw [← hxy]
            rw [show c :: b0 ++ (m ++ r) = c :: cs from by rw [hcs]; rfl]
            exact hm
          | cons cx x' =>
            have hcx : cx = c ∧ b0 = x' ++ y := by
              have h1 := List.cons.inj hxy
              exact ⟨h1.1.symm, h1.2⟩
            exact hnone x' y hcx.2 hy

theorem findSerial_build (b t d r : Str) (ht : matchSerialAt t = some (d, r))
    (hb : ∀ x y, b = x ++ y → y ≠ [] → matchSerialAt (y ++ t) = none) :
    findSerial (b ++ t) = some (b, d, r) := by
  induction b with
  | nil =>
    cases t with
    | nil =>
      exfalso
      obtain ⟨w1, w2, sw, heq, hlen, -⟩ := matchSerialAt_some _ _ _ ht
      have : ([] : Str).length = (d ++ (w1 ++ ';' :: (w2 ++ (sw ++ r)))).length :=
        congrArg List.length heq
      simp [hlen] at this
      omega
    | cons c cs =>
      rw [List.nil_append, findSerial, ht]
  | cons c b' ih =>
    have h0 : matchSerialAt (c :: (b' ++ t)) = none := by
      have := hb [] (c :: b') rfl (by simp)
      simpa using this
    rw [List.cons_append, findSerial, h0]
    dsimp only
    rw [ih (fun x y hxy hy => hb (c :: x) y (by rw [hxy]; rfl) hy)]

/-! ## Transfer of serial-match failure when the matched block is replaced by
another ten-digit block -/

theorem ciMatch_pointwise (p a : Str) (x : Str) (c : Char) (y : Str)
    (hm : ciMatch p a) (he : a = x ++ c :: y) :
    ∃ pc, pc ∈ p ∧ lowerChar c = lowerChar pc := by
  induction x generalizing p a with
  | nil =>
    subst he
    cases p with
    | nil => exact absurd hm (by simp [ciMatch])
    | cons pc ps =>
      simp only [ciMatch, Bool.and_eq_true, decide_eq_true_eq] at hm
      exact ⟨pc, by simp, hm.1⟩
  | cons x0 xt ih =>
    subst he
    cases p with
    | nil => exact absurd hm (by simp [ciMatch])
    | cons pc ps =>
      rw [List.cons_append] at hm
      simp only [ciMatch, Bool.and_eq_true, decide_eq_true_eq] at hm
      obtain ⟨qc, hq, hl⟩ := ih ps (xt ++ c :: y) hm.2 rfl
      exact ⟨qc, by simp [hq], hl⟩

theorem serial_char_not_digit (sw x : Str) (c : Char) (y : Str)
    (hm : ciMatch "serial".toList sw) (he : sw = x ++ c :: y) :
    isDigitChar c = false := by
  obtain ⟨pc, hmem, hl⟩ := ciMatch_pointwise _ _ _ _ _ hm he
  cases hd : isDigitChar c
  · rfl
  · exfalso
    rw [digit_lower c hd] at hl
    have hpc : pc = 's' ∨ pc = 'e' ∨ pc = 'r' ∨ pc = 'i' ∨ pc = 'a' ∨ pc = 'l' := by
      simpa using hmem
    rcases hpc with rfl|rfl|rfl|rfl|rfl|rfl <;> (rw [hl] at hd; exact absurd hd (by decide))

theorem ciMatch_serial_ne_nil (sw : Str) (h : ciMatch "serial".toList sw) : sw ≠ [] := by
  cases sw
  · exact absurd h (by decide)
  · simp

theorem digit_at (dN N1 a1 : Str) (c : Char) (W : Str) (hlen : a1.length < dN.length)
    (hall : dN.all isDigitChar) (heq : dN ++ N1 = a1 ++ c :: W) :
    isDigitChar c = true := by
  have h1 : (dN ++ N1).get? a1.length = some c := by
    rw [heq]; exact get?_append_mid a1 c W
  rw [get?_append_left dN N1 a1.length hlen] at h1
  exact all_of_get? dN a1.length c h1 hall

theorem matchSerial_none_swap (u X dN N1 : Str) (hu : u ≠ [])
    (hN10 : dN.length = 10) (hNd : dN.all isDigitChar)
    (h : matchSerialAt (u ++ X) = none) :
    matchSerialAt (u ++ (dN ++ N1)) = none := by
  cases hm : matchSerialAt (u ++ (dN ++ N1)) with
  | none => rfl
  | some dr =>
    exfalso
    obtain ⟨d, r⟩ := dr
    obtain ⟨w1, w2, sw, heq, hlen, hdig, hw1, hw2, hsw⟩ := matchSerialAt_some _ _ _ hm
    have hupos : 0 < u.length := List.length_pos.mpr hu
    rcases List.append_eq_append_iff.mp heq with ⟨a1, hA1, hA2⟩ | ⟨a1, hB1, hB2⟩
    · -- the ten-digit group of the new match extends past the end of u
      have hlt : a1.length < dN.length := by
        have hca := congrArg List.length hA1
        simp only [List.length_append] at hca
        rw [hlen] at hca
        simp only [hN10]
        omega
      cases w1 with
      | nil =>
        simp only [List.nil_append] at hA2
        exact absurd (digit_at dN N1 a1 ';' _ hlt hNd hA2) (by decide)
      | cons wc wt =>
        rw [List.cons_append] at hA2
        have hdg := digit_at dN N1 a1 wc _ hlt hNd hA2
        simp [digit_not_ws wc hdg] at hw1
    · -- u = d ++ a1 : the digit group lies inside u
      rcases List.append_eq_append_iff.mp hB2 with ⟨a2, hC1, hC2⟩ | ⟨a2, hD1, hD2⟩
      · -- a1 = w1 ++ a2
        cases a2 with
        | nil =>
          simp only [List.nil_append] at hC2
          have : dN ++ N1 = [] ++ ';' :: (w2 ++ (sw ++ r)) := by
            simpa using hC2.symm
          exact absurd (digit_at dN N1 [] ';' _ (by simp [hN10]) hNd this) (by decide)
        | cons c2 t2 =>
          rw [List.cons_append] at hC2
          obtain ⟨hc2, ht2⟩ := List.cons.inj hC2
          -- hc2 : ';' = c2, ht2 : w2 ++ (sw ++ r) = t2 ++ (dN ++ N1)
          rcases List.append_eq_append_iff.mp ht2 with ⟨a3, hE1, hE2⟩ | ⟨a3, hH1, hH2⟩
          · -- t2 = w2 ++ a3, sw ++ r = a3 ++ (dN ++ N1)
            rcases List.append_eq_append_iff.mp hE2 with ⟨a4, hF1, hF2⟩ | ⟨a4, hG1, hG2⟩
            · -- a3 = sw ++ a4 : whole match inside u; transfer to the M side
              have hueq : u = d ++ (w1 ++ ';' :: (w2 ++ (sw ++ a4))) := by
                rw [hB1, hC1, ← hc2, hE1, hF1]
                try simp [List.append_assoc]
              have hsome : matchSerialAt (u ++ X) =
                  some (d, a4 ++ X) := by
                rw [hueq, show (d ++ (w1 ++ ';' :: (w2 ++ (sw ++ a4)))) ++ X =
                  d ++ (w1 ++ ';' :: (w2 ++ (sw ++ (a4 ++ X)))) from by
                    simp [List.append_assoc]]
                exact matchSerialAt_of d w1 w2 sw _ hlen hdig hw1 hw2 hsw
              rw [h] at hsome
              exact absurd hsome (by simp)
            · -- sw = a3 ++ a4
              cases a4 with
              | nil =>
                have ha3 : a3 = sw := by simpa using hG1.symm
                have hueq : u = d ++ (w1 ++ ';' :: (w2 ++ (sw ++ []))) := by
                  rw [hB1, hC1, ← hc2, hE1, ha3]
                  try simp [List.append_assoc]
                have hsome : matchSerialAt (u ++ X) =
                    some (d, X) := by
                  rw [hueq, show (d ++ (w1 ++ ';' :: (w2 ++ (sw ++ [])))) ++ X =
                    d ++ (w1 ++ ';' :: (w2 ++ (sw ++ X))) from by
                      simp [List.append_assoc]]
                  exact matchSerialAt_of d w1 w2 sw _ hlen hdig hw1 hw2 hsw
                rw [h] at hsome
                exact absurd hsome (by simp)
              | cons c4 t4 =>
                rw [List.cons_append] at hG2
                have hdg := digit_at dN N1 [] c4 _ (by simp [hN10]) hNd (by simpa using hG2)
                exact absurd hdg (by rw [serial_char_not_digit sw a3 c4 t4 hsw hG1]; simp)
          · -- w2 = t2 ++ a3, dN ++ N1 = a3 ++ (sw ++ r)
            cases a3 with
            | nil =>
              simp only [List.nil_append] at hH2
              obtain ⟨c0, swt, rfl⟩ : ∃ c0 swt, sw = c0 :: swt := by
                cases sw with
                | nil => exact absurd hsw (by decide)
                | cons c0 swt => exact ⟨c0, swt, rfl⟩
              rw [List.cons_append] at hH2
              have hdg := digit_at dN N1 [] c0 _ (by simp [hN10]) hNd (by simpa using hH2)
              exact absurd hdg (by rw [serial_char_not_digit _ [] c0 swt hsw rfl]; simp)
            | cons c3 t3 =>
              rw [List.cons_append] at hH2
              have hdg := digit_at dN N1 [] c3 _ (by simp [hN10]) hNd (by simpa using hH2)
              rw [hH1] at hw2
              simp [digit_not_ws c3 hdg] at hw2
      · -- w1 = a1 ++ a2, dN ++ N1 = a2 ++ (';' :: (w2 ++ (sw ++ r)))
        cases a2 with
        | nil =>
          simp only [List.nil_append] at hD2
          exact absurd (digit_at dN N1 [] ';' _ (by simp [hN10]) hNd (by simpa using hD2))
            (by decide)
        | cons c2 t2 =>
          rw [List.cons_append] at hD2
          have hdg := digit_at dN N1 [] c2 _ (by simp [hN10]) hNd (by simpa using hD2)
          rw [hD1] at hw1
          simp [digit_not_ws c2 hdg] at hw1


/-! ## Decimal representation lemmas -/

theorem digitsOfAux_congr : ∀ (f1 f2 n : Nat), n < f1 → n < f2 →
    digitsOfAux f1 n = digitsOfAux f2 n
  | 0, _, n, h1, _ => absurd h1 (by omega)
  | _ + 1, 0, n, _, h2 => absurd h2 (by omega)
  | f1 + 1, f2 + 1, n, h1, h2 => by
    rw [digitsOfAux, digitsOfAux]
    by_cases h : n < 10
    · simp [h]
    · simp only [if_neg h]
      rw [digitsOfAux_congr f1 f2 (n / 10) (by omega) (by omega)]

theorem digitsOf_eq (n : Nat) : digitsOf n =
    if n < 10 then [digitChar n] else digitsOf (n / 10) ++ [digitChar (n % 10)] := by
  unfold digitsOf
  rw [digitsOfAux]
  by_cases h : n < 10
  · simp [h]
  · simp only [if_neg h]
    rw [digitsOfAux_congr n (n / 10 + 1) (n / 10) (by omega) (by omega)]

theorem digitChar_digit (k : Nat) (h : k < 10) : isDigitChar (digitChar k) = true := by
  interval_cases k <;> decide

theorem digitChar_val (k : Nat) (h : k < 10) : (digitChar k).toNat - '0'.toNat = k := by
  interval_cases k <;> decide

theorem digitsOf_all (n : Nat) : (digitsOf n).all isDigitChar = true := by
  induction n using Nat.strong_induction_on with
  | _ n ih =>
    rw [digitsOf_eq]
    by_cases h : n < 10
    · simp [h, digitChar_digit n h]
    · simp only [if_neg h, List.all_append, List.all_cons, List.all_nil,
        Bool.and_eq_true]
      exact ⟨ih (n / 10) (by omega), by rw [digitChar_digit (n % 10) (by omega)], trivial⟩

theorem digitsToNat_append1 (a : Str) (c : Char) :
    digitsToNat (a ++ [c]) = digitsToNat a * 10 + (c.toNat - '0'.toNat) := by
  simp [digitsToNat, List.foldl_append]

theorem digitsToNat_digitsOf (n : Nat) : digitsToNat (digitsOf n) = n := by
  induction n using Nat.strong_induction_on with
  | _ n ih =>
    rw [digitsOf_eq]
    by_cases h : n < 10
    · rw [if_pos h]
      simpa [digitsToNat] using digitChar_val n h
    · rw [if_neg h, digitsToNat_append1, ih (n / 10) (by omega),
        digitChar_val (n % 10) (by omega)]
      omega

theorem digitsOf_len_le : ∀ (k n : Nat), n < 10 ^ (k + 1) → (digitsOf n).length ≤ k + 1
  | 0, n, h => by
    rw [digitsOf_eq, if_pos (by simpa using h)]
    simp
  | k + 1, n, h => by
    by_cases h10 : n < 10
    · rw [digitsOf_eq, if_pos h10]; simp
    · rw [digitsOf_eq, if_neg h10]
      have hd : n / 10 < 10 ^ (k + 1) := by
        have hm : n < 10 ^ (k + 1) * 10 := by rw [← pow_succ]; exact h
        omega
      have hlen := digitsOf_len_le k (n / 10) hd
      simp only [List.length_append, List.length_cons, List.length_nil]
      omega

theorem digitsOf_len_ge : ∀ (k n : Nat), 10 ^ k ≤ n → k + 1 ≤ (digitsOf n).length
  | 0, n, _ => by
    rw [digitsOf_eq]
    by_cases h : n < 10 <;> simp [h]
  | k + 1, n, h => by
    have h10 : ¬ n < 10 := by
      have hp : (10 : Nat) ≤ 10 ^ (k + 1) := by
        calc (10 : Nat) = 10 ^ 1 := by norm_num
        _ ≤ 10 ^ (k + 1) := Nat.pow_le_pow_right (by omega) (by omega)
      omega
    rw [digitsOf_eq, if_neg h10]
    have hd : 10 ^ k ≤ n / 10 := by
      have hm : 10 ^ k * 10 ≤ n := by rw [← pow_succ]; exact h
      omega
    have hlen := digitsOf_len_ge k (n / 10) hd
    simp only [List.length_append, List.length_cons, List.length_nil]
    omega

theorem digitsOf_len10 (m : Nat) (h1 : 10 ^ 9 ≤ m) (h2 : m < 10 ^ 10) :
    (digitsOf m).length = 10 :=
  le_antisymm (digitsOf_len_le 9 m h2) (digitsOf_len_ge 9 m h1)

/-! ## The single-step serial increment result -/

theorem serial_step (s b d r : Str) (h : findSerial s = some (b, d, r))
    (hlo : 10 ^ 9 ≤ digitsToNat d + 1) (hhi : digitsToNat d + 1 < 10 ^ 10) :
    findSerial (incrementSerial s) = some (b, digitsOf (digitsToNat d + 1), r) ∧
    extractSerial (incrementSerial s) = some (digitsToNat d + 1) := by
  obtain ⟨m, hs, hmm, hnone⟩ := findSerial_struct s b d r h
  have hD10 : (digitsOf (digitsToNat d + 1)).length = 10 := digitsOf_len10 _ hlo hhi
  have hDd : (digitsOf (digitsToNat d + 1)).all isDigitChar = true := digitsOf_all _
  have hinc : incrementSerial s =
      b ++ (digitsOf (digitsToNat d + 1) ++ (serialTail ++ r)) := by
    unfold incrementSerial
    rw [h]
    simp [List.append_assoc]
  have hmatch : matchSerialAt (digitsOf (digitsToNat d + 1) ++ (serialTail ++ r)) =
      some (digitsOf (digitsToNat d + 1), r) := by
    rw [show serialTail ++ r =
      "       ".toList ++ ';' :: (" ".toList ++ ("Serial".toList ++ r)) from by
        rw [show serialTail = "       ".toList ++ ';' :: (" ".toList ++ "Serial".toList)
          from by decide]
        simp [List.append_assoc]]
    exact matchSerialAt_of _ _ _ _ r hD10 hDd (by decide) (by decide) (by decide)
  have hnone2 : ∀ x y, b = x ++ y → y ≠ [] →
      matchSerialAt (y ++ (digitsOf (digitsToNat d + 1) ++ (serialTail ++ r))) = none := by
    intro x y hxy hy
    exact matchSerial_none_swap y (m ++ r) _ (serialTail ++ r) hy hD10 hDd (hnone x y hxy hy)
  have hfind := findSerial_build b _ _ r hmatch hnone2
  rw [hinc]
  refine ⟨hfind, ?_⟩
  unfold extractSerial
  rw [hfind]
  dsimp only
  rw [digitsToNat_digitsOf]

theorem serial_nomatch (s : Str) (h : findSerial s = none) : incrementSerial s = s := by
  unfold incrementSerial
  rw [h]

theorem extractSerial_find (s : Str) (v : Nat) (h : extractSerial s = some v) :
    ∃ b d r, findSerial s = some (b, d, r) ∧ digitsToNat d = v := by
  unfold extractSerial at h
  cases hf : findSerial s with
  | none => rw [hf] at h; exact absurd h (by simp)
  | some bdr =>
    rw [hf] at h
    dsimp only at h
    exact ⟨bdr.1, bdr.2.1, bdr.2.2, rfl, Option.some.inj h⟩

theorem serial_iterate : ∀ (n : Nat) (s : Str) (v : Nat), extractSerial s = some v →
    10 ^ 9 ≤ v → v + n < 10 ^ 10 →
    extractSerial (incrementSerial^[n] s) = some (v + n)
  | 0, s, v, h, _, _ => by simpa using h
  | n + 1, s, v, h, hlo, hhi => by
    obtain ⟨b, d, r, hf, hd⟩ := extractSerial_find s v h
    have hstep := serial_step s b d r hf (by omega) (by omega)
    rw [Function.iterate_succ_apply]
    have hext : extractSerial (incrementSerial s) = some (v + 1) := by
      rw [hstep.2, hd]
    have hrec := serial_iterate n (incrementSerial s) (v + 1) hext (by omega) (by omega)
    rw [hrec]
    congr 1
    omega

/-! ## Claim C2 -/

/-- C2 (amended): `incrementSerial` leaves a text without a serial token
unchanged; for a text with a serial token whose incremented value still has
exactly ten digits, the serial extracted after the rewrite is the old value
plus one, and consequently over any sequence of edits staying below the
ten-digit limit the extracted serial increases by exactly one per edit. The
original unconditional claim is false at serial 9999999999 (see the
counterexample theorem). -/
theorem C2_serial_increment_amended :
    (∀ s, findSerial s = none → incrementSerial s = s) ∧
    (∀ s b d r, findSerial s = some (b, d, r) →
      10 ^ 9 ≤ digitsToNat d + 1 → digitsToNat d + 1 < 10 ^ 10 →
      extractSerial (incrementSerial s) = some (digitsToNat d + 1)) ∧
    (∀ n s v, extractSerial s = some v → 10 ^ 9 ≤ v → v + n < 10 ^ 10 →
      extractSerial (incrementSerial^[n] s) = some (v + n)) :=
  ⟨serial_nomatch,
   fun s b d r h h1 h2 => (serial_step s b d r h h1 h2).2,
   fun n s v h h1 h2 => serial_iterate n s v h h1 h2⟩

/-- C2 counterexample: a zone text whose ten-digit serial is 9999999999
satisfies the claim hypothesis, but after `incrementSerial` the extracted
serial is 0, not 9999999999 + 1: the replacement writes the eleven-digit
number 10000000000 and the ten-digit serial regex then matches inside it. -/
theorem C2_serial_increment_cex :
    extractSerial "9999999999 ; Serial".toList = some 9999999999 ∧
    incrementSerial "9999999999 ; Serial".toList =
      "10000000000       ; Serial".toList ∧
    extractSerial (incrementSerial "9999999999 ; Serial".toList) = some 0 ∧
    (0 : Nat) ≠ 9999999999 + 1 := by
  refine ⟨by decide, by decide, by decide, by decide⟩

/-- Witness for the amended C2: a realistic serial increments from
2024010101 to 2024010102, and a serial-free text is returned unchanged. -/
theorem C2_serial_increment_amended_witness :
    extractSerial (incrementSerial "2024010101 ; Serial".toList) =
      some 2024010102 ∧
    incrementSerial "no token".toList = "no token".toList := by
  constructor
  · have happ := C2_serial_increment_amended.2.1 "2024010101 ; Serial".toList []
      "2024010101".toList [] (by decide) (by decide) (by decide)
    have hval : digitsToNat "2024010101".toList + 1 = 2024010102 := by decide
    rw [hval] at happ
    exact happ
  · exact C2_serial_increment_amended.1 "no token".toList (by decide)

/-! ## Claim C3 -/

/-- C3 (amended): the incremented serial is written unpadded (in minimal
decimal form) followed by the fixed seven-space `; Serial` tail, so the
rewritten field keeps the original ten-character width exactly when the
incremented value itself has ten digits. -/
theorem C3_serial_width_amended :
    ∀ s b d r, findSerial s = some (b, d, r) →
      incrementSerial s = b ++ (digitsOf (digitsToNat d + 1) ++ (serialTail ++ r)) ∧
      (10 ^ 9 ≤ digitsToNat d + 1 → digitsToNat d + 1 < 10 ^ 10 →
        (writtenSerialRun s).map List.length = some d.length) := by
  intro s b d r h
  have hinc : incrementSerial s =
      b ++ (digitsOf (digitsToNat d + 1) ++ (serialTail ++ r)) := by
    unfold incrementSerial
    rw [h]
    simp [List.append_assoc]
  refine ⟨hinc, fun hlo hhi => ?_⟩
  obtain ⟨m, hs, hmm, -⟩ := findSerial_struct s b d r h
  obtain ⟨w1, w2, sw, hmeq, hdl, -, -, -, -⟩ := matchSerialAt_some _ _ _ hmm
  unfold writtenSerialRun
  rw [h]
  dsimp only
  rw [hinc, List.drop_left]
  have hrun : (digitsOf (digitsToNat d + 1) ++ (serialTail ++ r)).takeWhile isDigitChar
      = digitsOf (digitsToNat d + 1) := by
    rw [show serialTail ++ r = ' ' :: ("      ; Serial".toList ++ r) from by
      rw [show serialTail = ' ' :: "      ; Serial".toList from by decide]; rfl]
    exact takeWhile_app _ ' ' _ (digitsOf_all _) (by decide)
  rw [hrun]
  simp [digitsOf_len10 _ hlo hhi, hdl]

/-- C3 counterexample: the claim that the incremented value is written padded
to the original field width fails at serial 0000000005: the original token is
ten characters wide, but the code writes the single-character token `6`. -/
theorem C3_serial_width_cex :
    incrementSerial "0000000005 ; Serial".toList = "6       ; Serial".toList ∧
    writtenSerialRun "0000000005 ; Serial".toList = some "6".toList ∧
    (writtenSerialRun "0000000005 ; Serial".toList).map List.length = some 1 ∧
    (1 : Nat) ≠ 10 := by
  refine ⟨by decide, by decide, by decide, by decide⟩

/-- Witness for the amended C3 at a realistic serial. -/
theorem C3_serial_width_amended_witness :
    incrementSerial "2024010101 ; Serial".toList =
      [] ++ (digitsOf (digitsToNat "2024010101".toList + 1) ++ (serialTail ++ [])) ∧
    (writtenSerialRun "2024010101 ; Serial".toList).map List.length =
      some ("2024010101".toList.length) := by
  have happ := C3_serial_width_amended "2024010101 ; Serial".toList []
    "2024010101".toList [] (by decide)
  exact ⟨happ.1, happ.2 (by decide) (by decide)⟩

/-! ## Word-splitting and trimming lemmas -/

theorem all_replicate_sp (n : Nat) : (List.replicate n ' ').all isWsChar = true := by
  rw [List.all_eq_true]
  intro x hx
  rw [List.eq_of_mem_replicate hx]
  decide

theorem wordsOfGo_word (w : Str) : ∀ (acc t : Str), w.all (fun c => !isWsChar c) →
    wordsOfGo acc (w ++ t) = wordsOfGo (w.reverse ++ acc) t := by
  induction w with
  | nil => intro acc t _; simp
  | cons c w ih =>
    intro acc t hw
    simp only [List.all_cons, Bool.and_eq_true] at hw
    have hc : isWsChar c = false := by simpa using hw.1
    rw [List.cons_append, wordsOfGo, if_neg (by simp [hc]), ih (c :: acc) t hw.2]
    congr 1
    simp

theorem wordsOfGo_ws (w : Str) : ∀ (t : Str), w.all isWsChar →
    wordsOfGo [] (w ++ t) = wordsOfGo [] t := by
  induction w with
  | nil => intro t _; rfl
  | cons c w ih =>
    intro t hw
    simp only [List.all_cons, Bool.and_eq_true] at hw
    rw [List.cons_append, wordsOfGo, if_pos hw.1]
    simp only [List.isEmpty_nil, if_pos rfl]
    exact ih t hw.2

theorem wordsOfGo_last (acc : Str) (h : acc ≠ []) : wordsOfGo acc [] = [acc.reverse] := by
  rw [wordsOfGo]
  simp [List.isEmpty_iff, h]

theorem wordsOf_single (w : Str) (hw : w ≠ []) (hwa : w.all (fun c => !isWsChar c)) :
    wordsOf w = [w] := by
  unfold wordsOf
  have h2 := wordsOfGo_word w [] [] hwa
  rw [List.append_nil] at h2
  rw [h2, List.append_nil, wordsOfGo_last _ (by simpa using hw)]
  simp

theorem wordsOf_chunk (w ws' rest : Str) (hw : w ≠ [])
    (hwa : w.all (fun c => !isWsChar c)) (hs : ws' ≠ []) (ha : ws'.all isWsChar) :
    wordsOf (w ++ (ws' ++ rest)) = w :: wordsOf rest := by
  unfold wordsOf
  rw [wordsOfGo_word w [] _ hwa, List.append_nil]
  cases ws' with
  | nil => exact absurd rfl hs
  | cons c wt =>
    simp only [List.all_cons, Bool.and_eq_true] at ha
    rw [List.cons_append, wordsOfGo, if_pos ha.1]
    have hne : (w.reverse).isEmpty = false := by
      simp [List.isEmpty_iff, hw]
    rw [hne]
    simp only [Bool.false_eq_true, if_false, List.reverse_reverse]
    rw [wordsOfGo_ws wt rest ha.2]

theorem wordsOf_intercalate : ∀ (vt : List Str), vt ≠ [] →
    (∀ t ∈ vt, t ≠ [] ∧ t.all (fun c => !isWsChar c)) →
    wordsOf (List.intercalate " ".toList vt) = vt
  | [], h, _ => absurd rfl h
  | [t], _, hall => by
    rw [show List.intercalate " ".toList [t] = t from by simp [List.intercalate]]
    exact wordsOf_single t (hall t (by simp)).1 (hall t (by simp)).2
  | t :: t2 :: ts, _, hall => by
    have hstep : List.intercalate " ".toList (t :: t2 :: ts) =
        t ++ (" ".toList ++ List.intercalate " ".toList (t2 :: ts)) := by
      simp [List.intercalate, List.intersperse]
    rw [hstep, wordsOf_chunk t " ".toList _ (hall t (by simp)).1 (hall t (by simp)).2
      (by decide) (by decide)]
    rw [wordsOf_intercalate (t2 :: ts) (by simp) (fun u hu => hall u (by simp [hu]))]

theorem wordsOfGo_first : ∀ (t acc : Str), acc ≠ [] →
    ∃ w rest, wordsOfGo acc t = (acc.reverse ++ w) :: rest
  | [], acc, h => ⟨[], [], by rw [wordsOfGo_last acc h, List.append_nil]⟩
  | c :: t, acc, h => by
    rw [wordsOfGo]
    by_cases hc : isWsChar c
    · rw [if_pos hc]
      have hne : acc.isEmpty = false := by simp [List.isEmpty_iff, h]
      rw [hne]
      exact ⟨[], wordsOfGo [] t, by simp⟩
    · rw [if_neg hc]
      obtain ⟨w, rest, hw⟩ := wordsOfGo_first t (c :: acc) (by simp)
      refine ⟨c :: w, rest, ?_⟩
      rw [hw]
      simp

theorem wordsOf_props : ∀ (t acc : Str), acc.all (fun c => !isWsChar c) = true →
    ∀ w ∈ wordsOfGo acc t, w ≠ [] ∧ w.all (fun c => !isWsChar c)
  | [], acc, hacc, w, hw => by
    rw [wordsOfGo] at hw
    by_cases h : acc.isEmpty
    · rw [if_pos h] at hw; exact absurd hw (by simp)
    · rw [if_neg h] at hw
      simp only [List.mem_singleton] at hw
      subst hw
      refine ⟨by simpa [List.isEmpty_iff] using h, by simpa using hacc⟩
  | c :: t, acc, hacc, w, hw => by
    rw [wordsOfGo] at hw
    by_cases hc : isWsChar c
    · rw [if_pos hc] at hw
      by_cases h : acc.isEmpty
      · rw [if_pos h] at hw
        exact wordsOf_props t [] (by decide) w hw
      · rw [if_neg h] at hw
        rcases List.mem_cons.mp hw with rfl | hmem
        · refine ⟨by simpa [List.isEmpty_iff] using h, by simpa using hacc⟩
        · exact wordsOf_props t [] (by decide) w hmem
    · rw [if_neg hc] at hw
      exact wordsOf_props t (c :: acc)
        (by simp only [List.all_cons, Bool.and_eq_true]; exact ⟨by simpa using hc, hacc⟩) w hw

theorem exists_last (l : Str) (h : l ≠ []) : ∃ front e, l = front ++ [e] :=
  ⟨l.dropLast, l.getLast h, (List.dropLast_append_getLast h).symm⟩

theorem last_not_ws (l : Str) (h : l ≠ []) (ha : l.all (fun c => !isWsChar c)) :
    isWsChar (l.getLast h) = false := by
  have := (List.all_eq_true.mp ha) (l.getLast h) (List.getLast_mem h)
  simpa using this

theorem intercalate_last : ∀ (vt : List Str), vt ≠ [] →
    (∀ t ∈ vt, t ≠ [] ∧ t.all (fun c => !isWsChar c)) →
    ∃ front e, List.intercalate " ".toList vt = front ++ [e] ∧ isWsChar e = false
  | [], h, _ => absurd rfl h
  | [t], _, hall => by
    obtain ⟨ht, hta⟩ := hall t (by simp)
    refine ⟨t.dropLast, t.getLast ht, ?_, last_not_ws t ht hta⟩
    rw [show List.intercalate " ".toList [t] = t from by simp [List.intercalate]]
    exact (List.dropLast_append_getLast ht).symm
  | t :: t2 :: ts, _, hall => by
    obtain ⟨front, e, hfe, hew⟩ := intercalate_last (t2 :: ts) (by simp)
      (fun u hu => hall u (by simp [hu]))
    have hstep : List.intercalate " ".toList (t :: t2 :: ts) =
        t ++ (" ".toList ++ List.intercalate " ".toList (t2 :: ts)) := by
      simp [List.intercalate, List.intersperse]
    exact ⟨t ++ (" ".toList ++ front), e, by rw [hstep, hfe]; simp, hew⟩

theorem trim_decomp (s : Str) : ∃ u, s.dropWhile isWsChar = trimStr s ++ u ∧
    u.all isWsChar = true := by
  refine ⟨((s.dropWhile isWsChar).reverse.takeWhile isWsChar).reverse, ?_, ?_⟩
  · unfold trimStr
    rw [← List.reverse_append, List.takeWhile_append_dropWhile, List.reverse_reverse]
  · rw [List.all_reverse]
    exact List.all_takeWhile

theorem trim_head_not_ws (s : Str) (c : Char) (t : Str) (h : trimStr s = c :: t) :
    isWsChar c = false := by
  obtain ⟨u, hu, -⟩ := trim_decomp s
  rw [h] at hu
  exact dropWhile_head_not s c (t ++ u) (by simpa using hu)

theorem trimStr_id (c : Char) (t : Str) (hc : isWsChar c = false)
    (front : Str) (e : Char) (he : c :: t = front ++ [e]) (hee : isWsChar e = false) :
    trimStr (c :: t) = c :: t := by
  unfold trimStr
  rw [List.dropWhile_cons, if_neg (by simp [hc]), he, List.reverse_append]
  simp only [List.reverse_cons, List.reverse_nil, List.nil_append, List.singleton_append]
  rw [List.dropWhile_cons, if_neg (by simp [hee])]
  rw [List.reverse_cons, List.reverse_reverse, ← he]

/-! ## Round-trip: parsing a formatted record -/

theorem digitsOf_ne_nil (n : Nat) : digitsOf n ≠ [] := by
  rw [digitsOf_eq]
  by_cases h : n < 10 <;> simp [h]

theorem digits_all_nonws (l : Str) (h : l.all isDigitChar = true) :
    l.all (fun c => !isWsChar c) = true := by
  rw [List.all_eq_true] at h ⊢
  intro x hx
  simpa using digit_not_ws x (by simpa using h x hx)

theorem natToStr_ne_IN (n : Nat) : natToStr n ≠ ['I', 'N'] := by
  intro h
  have hall := digitsOf_all n
  unfold natToStr at h
  rw [h] at hall
  exact absurd hall (by decide)

theorem isNumericToken_natToStr (n : Nat) : isNumericToken (natToStr n) = true := by
  unfold isNumericToken natToStr
  rw [digitsOf_all]
  simp [List.isEmpty_iff, digitsOf_ne_nil n]

theorem padRun_ws (k : Nat) : (List.replicate k ' ' ++ [' ']).all isWsChar = true := by
  rw [List.all_append, all_replicate_sp]
  decide

theorem nonws_no_nl (l : Str) (h : l.all (fun c => !isWsChar c) = true) : '\n' ∉ l := by
  intro hm
  have := List.all_eq_true.mp h _ hm
  simp [isWsChar] at this

theorem intercalate_no_nl (vt : List Str)
    (h : ∀ t ∈ vt, t.all (fun c => !isWsChar c) = true) :
    '\n' ∉ List.intercalate " ".toList vt := by
  induction vt with
  | nil => simp [List.intercalate]
  | cons t ts ih =>
    cases ts with
    | nil =>
      rw [show List.intercalate " ".toList [t] = t from by simp [List.intercalate]]
      exact nonws_no_nl t (h t (by simp))
    | cons t2 ts2 =>
      rw [show List.intercalate " ".toList (t :: t2 :: ts2) =
        t ++ (" ".toList ++ List.intercalate " ".toList (t2 :: ts2)) from by
          simp [List.intercalate, List.intersperse]]
      intro hm
      rcases List.mem_append.mp hm with hm1 | hm2
      · exact nonws_no_nl t (h t (by simp)) hm1
      · rcases List.mem_append.mp hm2 with hm3 | hm4
        · simp at hm3
        · exact ih (fun u hu => h u (by simp [hu])) hm4

theorem splitOnChar_no_sep (sep : Char) : ∀ (s : Str), sep ∉ s →
    splitOnChar sep s = [s]
  | [], _ => rfl
  | c :: t, h => by
    rw [splitOnChar, if_neg (by rintro rfl; exact h (by simp)),
      splitOnChar_no_sep sep t (fun hm => h (by simp [hm]))]

/-- Core of the amended C4: a record whose type is neither MX nor SRV, whose
name and type are well-formed tokens, and whose value is a single-spaced join
of tokens, parses back from its formatted line with identical fields. -/
theorem parse_format (r : RecordInput) (vt : List Str)
    (hn : r.name ≠ []) (hnw : r.name.all (fun c => !isWsChar c) = true)
    (hsc : r.name.head? ≠ some ';') (hdc : r.name.head? ≠ some '$')
    (hnIN : r.name ≠ ['I', 'N'])
    (hty : r.rtype ≠ []) (htyw : r.rtype.all (fun c => !isWsChar c) = true)
    (hmx : r.rtype ≠ "MX".toList) (hsrv : r.rtype ≠ "SRV".toList)
    (hv : r.value = List.intercalate " ".toList vt) (hvt : vt ≠ [])
    (hvta : ∀ t ∈ vt, t ≠ [] ∧ t.all (fun c => !isWsChar c) = true)
    (hsoa : containsSub (formatRecord r) "SOA".toList = false) :
    parseZoneFile (formatRecord r) =
      [⟨1, r.name, r.rtype, r.value, orFalsy r.ttl 3600⟩] := by
  have hline : formatRecord r = r.name ++ ((List.replicate (15 - r.name.length) ' ' ++ [' ']) ++
      (natToStr (orFalsy r.ttl 3600) ++
        ((List.replicate (8 - (natToStr (orFalsy r.ttl 3600)).length) ' ' ++ [' ']) ++
          (['I', 'N'] ++ ([' '] ++ (r.rtype ++
            ((List.replicate (8 - r.rtype.length) ' ' ++ [' ']) ++ r.value))))))) := by
    unfold formatRecord padEndTo
    rw [if_neg hmx, if_neg hsrv]
    rw [show " IN ".toList = ' ' :: 'I' :: 'N' :: [' '] from rfl]
    simp
  have hwords : wordsOf (formatRecord r) =
      r.name :: natToStr (orFalsy r.ttl 3600) :: ['I', 'N'] :: r.rtype :: vt := by
    rw [hline]
    rw [wordsOf_chunk r.name _ _ hn hnw (by simp) (padRun_ws _)]
    rw [wordsOf_chunk (natToStr (orFalsy r.ttl 3600)) _ _ (digitsOf_ne_nil _)
      (digits_all_nonws _ (digitsOf_all _)) (by simp) (padRun_ws _)]
    rw [wordsOf_chunk ['I', 'N'] [' '] _ (by simp) (by decide) (by simp) (by decide)]
    rw [wordsOf_chunk r.rtype _ _ hty htyw (by simp) (padRun_ws _)]
    rw [hv, wordsOf_intercalate vt hvt hvta]
  obtain ⟨nc, nt, hname⟩ : ∃ nc nt, r.name = nc :: nt := by
    cases hcase : r.name with
    | nil => exact absurd hcase hn
    | cons a b => exact ⟨a, b, rfl⟩
  have hncw : isWsChar nc = false := by
    rw [hname] at hnw
    simp only [List.all_cons, Bool.and_eq_true] at hnw
    simpa using hnw.1
  obtain ⟨vfront, ve, hvfe, hvew⟩ := intercalate_last vt hvt hvta
  have hlast : ∃ front, formatRecord r = front ++ [ve] := by
    refine ⟨r.name ++ ((List.replicate (15 - r.name.length) ' ' ++ [' ']) ++
      (natToStr (orFalsy r.ttl 3600) ++
        ((List.replicate (8 - (natToStr (orFalsy r.ttl 3600)).length) ' ' ++ [' ']) ++
          (['I', 'N'] ++ ([' '] ++ (r.rtype ++
            ((List.replicate (8 - r.rtype.length) ' ' ++ [' ']) ++ vfront))))))), ?_⟩
    rw [hline, hv, hvfe]
    simp
  obtain ⟨front, hfront⟩ := hlast
  have hcons : ∃ LT, formatRecord r = nc :: LT := by
    refine ⟨nt ++ ((List.replicate (15 - r.name.length) ' ' ++ [' ']) ++
      (natToStr (orFalsy r.ttl 3600) ++
        ((List.replicate (8 - (natToStr (orFalsy r.ttl 3600)).length) ' ' ++ [' ']) ++
          (['I', 'N'] ++ ([' '] ++ (r.rtype ++
            ((List.replicate (8 - r.rtype.length) ' ' ++ [' ']) ++ r.value))))))), ?_⟩
    rw [hline, hname]
    rfl
  obtain ⟨LT, hLT⟩ := hcons
  have htrim : trimStr (formatRecord r) = formatRecord r := by
    rw [hLT]
    exact trimStr_id nc LT hncw front ve (by rw [← hLT, hfront]) hvew
  have hnc1 : nc ≠ ';' := by
    intro hcontra
    rw [hname, hcontra] at hsc
    exact hsc rfl
  have hnc2 : nc ≠ '$' := by
    intro hcontra
    rw [hname, hcontra] at hdc
    exact hdc rfl
  have hparse : parseLineRec (formatRecord r) =
      some (r.name, r.rtype, r.value, orFalsy r.ttl 3600) := by
    unfold parseLineRec
    rw [htrim, hLT]
    dsimp only
    rw [if_neg hnc1, if_neg hnc2, if_neg (by rw [← hLT, hsoa]; simp)]
    rw [show wordsOf (nc :: LT) = r.name :: natToStr (orFalsy r.ttl 3600) ::
      ['I', 'N'] :: r.rtype :: vt from by rw [← hLT, hwords]]
    rw [show "IN".toList = ['I', 'N'] from rfl]
    rw [if_pos ?_]
    · have hidx : idxOf ['I', 'N'] (r.name :: natToStr (orFalsy r.ttl 3600) ::
          ['I', 'N'] :: r.rtype :: vt) = 2 := by
        rw [idxOf, if_neg hnIN, idxOf, if_neg (natToStr_ne_IN (orFalsy r.ttl 3600)),
          idxOf, if_pos rfl]
      rw [hidx]
      simp only [List.getD, List.get?, List.drop, Option.getD_some]
      rw [← hv, isNumericToken_natToStr]
      unfold natToStr
      rw [digitsToNat_digitsOf]
      simp
    · rw [Bool.and_eq_true]
      constructor
      · simp only [List.length_cons, decide_eq_true_eq]
        omega
      · rw [hasTok, hasTok, hasTok]
        simp
  have hnl : '\n' ∉ formatRecord r := by
    rw [hline]
    intro hm
    have hrep : ∀ k : Nat, '\n' ∉ List.replicate k ' ' ++ [' '] := by
      intro k hk
      rcases List.mem_append.mp hk with h1 | h2
      · have := List.eq_of_mem_replicate h1; simp at this
      · simp at h2
    rcases List.mem_append.mp hm with h1 | hm
    · exact nonws_no_nl _ hnw h1
    rcases List.mem_append.mp hm with h1 | hm
    · exact hrep _ h1
    rcases List.mem_append.mp hm with h1 | hm
    · exact nonws_no_nl _ (digits_all_nonws _ (digitsOf_all _)) h1
    rcases List.mem_append.mp hm with h1 | hm
    · exact hrep _ h1
    rcases List.mem_append.mp hm with h1 | hm
    · simp at h1
    rcases List.mem_append.mp hm with h1 | hm
    · simp at h1
    rcases List.mem_append.mp hm with h1 | hm
    · exact nonws_no_nl _ htyw h1
    rcases List.mem_append.mp hm with h1 | h2
    · exact hrep _ h1
    · rw [hv] at h2
      exact intercalate_no_nl vt (fun t ht => (hvta t ht).2) h2
  unfold parseZoneFile splitLines
  rw [splitOnChar_no_sep '\n' _ hnl]
  rw [List.filterMap_cons, hparse]
  rfl

theorem parseLineRec_struct (l : Str) (n ty v : Str) (ttl : Nat)
    (h : parseLineRec l = some (n, ty, v, ttl)) :
    ∃ c rest, trimStr l = c :: rest ∧ c ≠ ';' ∧ c ≠ '$' ∧
      n = (wordsOf (c :: rest)).getD 0 [] ∧
      ty = (wordsOf (c :: rest)).getD (idxOf "IN".toList (wordsOf (c :: rest)) + 1) [] ∧
      v = List.intercalate " ".toList
        ((wordsOf (c :: rest)).drop (idxOf "IN".toList (wordsOf (c :: rest)) + 2)) ∧
      4 ≤ (wordsOf (c :: rest)).length := by
  unfold parseLineRec at h
  cases ht : trimStr l with
  | nil => rw [ht] at h; exact absurd h (by simp)
  | cons c rest =>
    rw [ht] at h
    dsimp only at h
    by_cases h1 : c = ';'
    · rw [if_pos h1] at h; exact absurd h (by simp)
    rw [if_neg h1] at h
    by_cases h2 : c = '$'
    · rw [if_pos h2] at h; exact absurd h (by simp)
    rw [if_neg h2] at h
    by_cases h3 : containsSub (c :: rest) "SOA".toList
    · rw [if_pos h3] at h; exact absurd h (by simp)
    rw [if_neg h3] at h
    by_cases h4 : (4 ≤ (wordsOf (c :: rest)).length &&
        hasTok "IN".toList (wordsOf (c :: rest))) = true
    · rw [if_pos h4] at h
      have h5 := Option.some.inj h
      refine ⟨c, rest, rfl, h1, h2, ?_, ?_, ?_, ?_⟩
      · exact (congrArg (fun q => q.1) h5).symm
      · exact (congrArg (fun q => q.2.1) h5).symm
      · exact (congrArg (fun q => q.2.2.1) h5).symm
      · simp only [Bool.and_eq_true, decide_eq_true_eq] at h4
        exact h4.1
    · rw [if_neg h4] at h; exact absurd h (by simp)

theorem wordsOf_head_char (c : Char) (rest : Str) (hc : isWsChar c = false) :
    ∃ w tl, wordsOf (c :: rest) = (c :: w) :: tl := by
  unfold wordsOf
  rw [wordsOfGo, if_neg (by simp [hc])]
  obtain ⟨w, tl, hw⟩ := wordsOfGo_first rest [c] (by simp)
  exact ⟨w, tl, by rw [hw]; rfl⟩

theorem getD_mem (l : List Str) (i : Nat) (h : i < l.length) : l.getD i [] ∈ l := by
  have hg : l.getD i [] = l.get ⟨i, h⟩ := by
    simp [List.getD_eq_getElem?_getD, List.getElem?_eq_getElem h, List.get_eq_getElem]
  rw [hg]
  exact l.get_mem i h

/-- The other direction of the amended C4: a record parsed from a non-MX/SRV
line formats back to a line that parses to the same name, type and value. -/
theorem format_parse (l : Str) (n ty v : Str) (ttl : Nat)
    (h : parseLineRec l = some (n, ty, v, ttl))
    (hnIN : n ≠ ['I', 'N']) (htyne : ty ≠ []) (hvne : v ≠ [])
    (hmx : ty ≠ "MX".toList) (hsrv : ty ≠ "SRV".toList)
    (hsoa : containsSub (formatRecord ⟨n, ty, v, some ttl, none, none, none⟩)
      "SOA".toList = false) :
    parseZoneFile (formatRecord ⟨n, ty, v, some ttl, none, none, none⟩) =
      [⟨1, n, ty, v, orFalsy (some ttl) 3600⟩] := by
  obtain ⟨c, rest, htrim, h1, h2, hn, hty, hv, hlen⟩ := parseLineRec_struct l n ty v ttl h
  have hcw : isWsChar c = false := trim_head_not_ws l c rest htrim
  have hprops := wordsOf_props (c :: rest) [] (by decide)
  have hnmem : n ∈ wordsOf (c :: rest) := by
    rw [hn]
    exact getD_mem _ 0 (by omega)
  obtain ⟨hnne, hnw⟩ := hprops n hnmem
  have htymem : ty ∈ wordsOf (c :: rest) := by
    by_cases hlt : idxOf "IN".toList (wordsOf (c :: rest)) + 1 < (wordsOf (c :: rest)).length
    · rw [hty]; exact getD_mem _ _ hlt
    · exfalso
      rw [List.getD_eq_default _ _ (by omega)] at hty
      exact htyne hty
  obtain ⟨-, htyw⟩ := hprops ty htymem
  have hvtne : (wordsOf (c :: rest)).drop (idxOf "IN".toList (wordsOf (c :: rest)) + 2) ≠ [] := by
    intro hcontra
    rw [hcontra] at hv
    simp [List.intercalate] at hv
    exact hvne hv
  have hvta : ∀ t ∈ (wordsOf (c :: rest)).drop
      (idxOf "IN".toList (wordsOf (c :: rest)) + 2),
      t ≠ [] ∧ t.all (fun x => !isWsChar x) = true :=
    fun t htm => hprops t (List.drop_subset _ _ htm)
  obtain ⟨w, tl, hw⟩ := wordsOf_head_char c rest hcw
  have hnc : n = c :: w := by
    rw [hn, hw]
    rfl
  have hsc : n.head? ≠ some ';' := by
    rw [hnc]
    intro hx
    exact h1 (Option.some.inj (by simpa using hx))
  have hdc : n.head? ≠ some '$' := by
    rw [hnc]
    intro hx
    exact h2 (Option.some.inj (by simpa using hx))
  exact parse_format ⟨n, ty, v, some ttl, none, none, none⟩
    ((wordsOf (c :: rest)).drop (idxOf "IN".toList (wordsOf (c :: rest)) + 2))
    hnne hnw hsc hdc hnIN htyne htyw hmx hsrv hv hvtne hvta hsoa

/-! ## Claim C4 -/

/-- C4 (amended): the parse/format round-trip holds for records whose type is
neither MX nor SRV. For such a record with a well-formed name and type token
and a single-spaced token-list value, `parse(format(record))` reproduces name,
type, value (and the defaulted TTL); and a record parsed from such a line
formats back to a line that parses to the same name, type and value. For MX
and SRV records the claim fails: parsing folds the numeric fields into the
value string (see the counterexample theorem). -/
theorem C4_record_roundtrip_amended :
    (∀ (r : RecordInput) (vt : List Str),
      r.name ≠ [] → r.name.all (fun c => !isWsChar c) = true →
      r.name.head? ≠ some ';' → r.name.head? ≠ some '$' → r.name ≠ ['I', 'N'] →
      r.rtype ≠ [] → r.rtype.all (fun c => !isWsChar c) = true →
      r.rtype ≠ "MX".toList → r.rtype ≠ "SRV".toList →
      r.value = List.intercalate " ".toList vt → vt ≠ [] →
      (∀ t ∈ vt, t ≠ [] ∧ t.all (fun c => !isWsChar c) = true) →
      containsSub (formatRecord r) "SOA".toList = false →
      parseZoneFile (formatRecord r) =
        [⟨1, r.name, r.rtype, r.value, orFalsy r.ttl 3600⟩]) ∧
    (∀ (l : Str) (n ty v : Str) (ttl : Nat),
      parseLineRec l = some (n, ty, v, ttl) →
      n ≠ ['I', 'N'] → ty ≠ [] → v ≠ [] →
      ty ≠ "MX".toList → ty ≠ "SRV".toList →
      containsSub (formatRecord ⟨n, ty, v, some ttl, none, none, none⟩)
        "SOA".toList = false →
      ∃ rec, parseZoneFile (formatRecord ⟨n, ty, v, some ttl, none, none, none⟩) =
        [rec] ∧ rec.name = n ∧ rec.rtype = ty ∧ rec.value = v) :=
  ⟨fun r vt h1 h2 h3 h4 h5 h6 h7 h8 h9 h10 h11 h12 h13 =>
    parse_format r vt h1 h2 h3 h4 h5 h6 h7 h8 h9 h10 h11 h12 h13,
   fun l n ty v ttl h h1 h2 h3 h4 h5 h6 =>
    ⟨⟨1, n, ty, v, orFalsy (some ttl) 3600⟩,
      format_parse l n ty v ttl h h1 h2 h3 h4 h5 h6, rfl, rfl, rfl⟩⟩

/-- C4 counterexample: for the MX record (name mail, priority 5, value
mx.ex.com.) the round-trip does not reproduce the record's fields: the parsed
value is "5 mx.ex.com." (the priority folded into the value string), not
"mx.ex.com.". -/
theorem C4_record_roundtrip_cex :
    parseZoneFile (formatRecord ⟨"mail".toList, "MX".toList, "mx.ex.com.".toList,
      some 3600, some 5, none, none⟩) =
      [⟨1, "mail".toList, "MX".toList, "5 mx.ex.com.".toList, 3600⟩] ∧
    "5 mx.ex.com.".toList ≠ "mx.ex.com.".toList := by
  refine ⟨by decide, by decide⟩

/-- Witness for the amended C4 on a plain A record and a parsed CNAME line. -/
theorem C4_record_roundtrip_amended_witness :
    parseZoneFile (formatRecord ⟨"www".toList, "A".toList, "1.2.3.4".toList,
      some 7200, none, none, none⟩) =
      [⟨1, "www".toList, "A".toList, "1.2.3.4".toList, 7200⟩] ∧
    (∃ rec, parseZoneFile (formatRecord ⟨"web".toList, "CNAME".toList,
        "host.ex.com.".toList, some 300, none, none, none⟩) = [rec] ∧
      rec.name = "web".toList ∧ rec.rtype = "CNAME".toList ∧
      rec.value = "host.ex.com.".toList) := by
  constructor
  · have happ := C4_record_roundtrip_amended.1
      ⟨"www".toList, "A".toList, "1.2.3.4".toList, some 7200, none, none, none⟩
      ["1.2.3.4".toList] (by decide) (by decide) (by decide) (by decide) (by decide)
      (by decide) (by decide) (by decide) (by decide) (by decide) (by decide)
      (by intro t ht; simp at ht; subst ht; exact ⟨by decide, by decide⟩) (by decide)
    simpa using happ
  · exact C4_record_roundtrip_amended.2 "web 300 IN CNAME host.ex.com.".toList
      "web".toList "CNAME".toList "host.ex.com.".toList 300 (by decide) (by decide)
      (by decide) (by decide) (by decide) (by decide) (by decide)

/-! ## Claim C10 -/

/-- C10: `parseZoneFile` skips every line whose trimmed text contains the
substring "SOA" anywhere, and the returned records are exactly the numbered
results of the per-line parser over the remaining lines, so a non-SOA record
line that merely mentions "SOA" (for example in a TXT value) contributes no
record. -/
theorem C10_soa_line_exclusion :
    (∀ l, containsSub (trimStr l) "SOA".toList = true → parseLineRec l = none) ∧
    (∀ content, parseZoneFile content =
      numberFrom 1 ((splitLines content).filterMap parseLineRec)) := by
  constructor
  · intro l h
    unfold parseLineRec
    cases ht : trimStr l with
    | nil => rfl
    | cons c rest =>
      rw [ht] at h
      dsimp only
      by_cases h1 : c = ';'
      · rw [if_pos h1]
      · rw [if_neg h1]
        by_cases h2 : c = '$'
        · rw [if_pos h2]
        · rw [if_neg h2, if_pos h]
  · intro content
    rfl

/-- Witness for C10: a TXT record line that merely mentions SOA in its value
is still excluded from the parse. -/
theorem C10_soa_line_exclusion_witness :
    containsSub (trimStr "note IN TXT about the SOA record".toList) "SOA".toList = true ∧
    parseLineRec "note IN TXT about the SOA record".toList = none :=
  ⟨by decide, C10_soa_line_exclusion.1 "note IN TXT about the SOA record".toList (by decide)⟩

/-! ## File-system lemmas -/

theorem lookup_set_same : ∀ (l : List (Str × Str)) (p c : Str),
    lookupFile (setFile l p c) p = some c
  | [], p, c => by simp [setFile, lookupFile]
  | (q, c0) :: t, p, c => by
    rw [setFile]
    by_cases h : q = p
    · rw [if_pos h, lookupFile, if_pos h]
    · rw [if_neg h, lookupFile, if_neg h, lookup_set_same t p c]

theorem lookup_set_other : ∀ (l : List (Str × Str)) (p c q2 : Str), q2 ≠ p →
    lookupFile (setFile l p c) q2 = lookupFile l q2
  | [], p, c, q2, h => by
    simp [setFile, lookupFile]
    intro he
    exact absurd he.symm h
  | (q, c0) :: t, p, c, q2, h => by
    rw [setFile]
    by_cases hq : q = p
    · rw [if_pos hq, lookupFile, lookupFile]
      by_cases hq2 : q = q2
      · exact absurd (hq2.symm.trans hq) h
      · rw [if_neg hq2, if_neg hq2]
    · rw [if_neg hq, lookupFile, lookupFile]
      by_cases hq2 : q = q2
      · rw [if_pos hq2, if_pos hq2]
      · rw [if_neg hq2, if_neg hq2, lookup_set_other t p c q2 h]

theorem lookup_remove_same : ∀ (l : List (Str × Str)) (p : Str),
    lookupFile (removeFile l p) p = none
  | [], p => rfl
  | (q, c0) :: t, p => by
    rw [removeFile]
    by_cases h : q = p
    · rw [if_pos h, lookup_remove_same t p]
    · rw [if_neg h, lookupFile, if_neg h, lookup_remove_same t p]

theorem lookup_remove_other : ∀ (l : List (Str × Str)) (p q2 : Str), q2 ≠ p →
    lookupFile (removeFile l p) q2 = lookupFile l q2
  | [], p, q2, h => rfl
  | (q, c0) :: t, p, q2, h => by
    rw [removeFile]
    by_cases hq : q = p
    · rw [if_pos hq, lookupFile]
      by_cases hq2 : q = q2
      · exact absurd (hq2.symm.trans hq) h
      · rw [if_neg hq2, lookup_remove_other t p q2 h]
    · rw [if_neg hq, lookupFile, lookupFile]
      by_cases hq2 : q = q2
      · rw [if_pos hq2, if_pos hq2]
      · rw [if_neg hq2, if_neg hq2, lookup_remove_other t p q2 h]

theorem FS.read_write_same (fs : FS) (p c : Str) : (fs.write p c).read p = some c :=
  lookup_set_same fs.files p c

theorem FS.read_write_other (fs : FS) (p c q : Str) (h : q ≠ p) :
    (fs.write p c).read q = fs.read q :=
  lookup_set_other fs.files p c q h

theorem FS.read_unlink_same (fs : FS) (p : Str) : (fs.unlink p).read p = none :=
  lookup_remove_same fs.files p

theorem FS.read_unlink_other (fs : FS) (p q : Str) (h : q ≠ p) :
    (fs.unlink p).read q = fs.read q :=
  lookup_remove_other fs.files p q h

theorem ne_append_of_ne_nil (p w : Str) (h : w ≠ []) : p ≠ p ++ w := by
  intro hc
  have hlen := congrArg List.length hc
  simp only [List.length_append] at hlen
  have : w.length = 0 := by omega
  exact h (List.length_eq_zero.mp this)

theorem append_ne_of_ne (p a b : Str) (h : a ≠ b) : p ++ a ≠ p ++ b := by
  intro hc
  exact h (List.append_cancel_left hc)

theorem tmp_ne_backup (p a b : Str) :
    p ++ ".tmp.".toList ++ a ≠ p ++ ".backup.".toList ++ b := by
  rw [List.append_assoc, List.append_assoc]
  intro hc
  have h2 := List.append_cancel_left hc
  have h3 := congrArg (fun l => l.get? 1) h2
  simp only at h3
  rw [get?_append_left ".tmp.".toList a 1 (by decide),
    get?_append_left ".backup.".toList b 1 (by decide)] at h3
  exact absurd h3 (by decide)

/-! ## Commit pipeline lemmas -/

theorem writeConfig_reject (ts filePath content : Str) (fs : FS)
    (hp : containsSub filePath "named.conf".toList = true) :
    (writeConfigWithValidation false ts filePath content fs).1.isSome = true ∧
    (writeConfigWithValidation false ts filePath content fs).2.read
      (filePath ++ ".tmp.".toList ++ ts) = none ∧
    (writeConfigWithValidation false ts filePath content fs).2.read filePath =
      fs.read filePath := by
  have hne : filePath ≠ filePath ++ ".tmp.".toList ++ ts := by
    rw [List.append_assoc]
    exact ne_append_of_ne_nil filePath _ (by simp)
  unfold writeConfigWithValidation
  rw [if_pos hp]
  refine ⟨rfl, ?_, ?_⟩
  · exact FS.read_unlink_same _ _
  · show ((fs.write (filePath ++ ".tmp.".toList ++ ts) content).unlink
      (filePath ++ ".tmp.".toList ++ ts)).read filePath = fs.read filePath
    rw [FS.read_unlink_other _ _ _ hne, FS.read_write_other _ _ _ _ hne]

theorem reassign_reject (ro ar : Bool) (ts1 ts2 confPath newContent : Str) (fs : FS) :
    (reassignZonePipeline false ro ar ts1 ts2 confPath newContent fs).err =
      some "Config validation failed for proposed change".toList ∧
    (reassignZonePipeline false ro ar ts1 ts2 confPath newContent fs).settingsUpdated
      = false ∧
    (reassignZonePipeline false ro ar ts1 ts2 confPath newContent fs).fs.read confPath
      = fs.read confPath ∧
    (reassignZonePipeline false ro ar ts1 ts2 confPath newContent fs).fs.read
      (confPath ++ ".tmp.".toList ++ ts1) = some newContent := by
  have hne : confPath ≠ confPath ++ ".tmp.".toList ++ ts1 := by
    rw [List.append_assoc]
    exact ne_append_of_ne_nil confPath _ (by simp)
  refine ⟨rfl, rfl, ?_, ?_⟩
  · show (fs.write (confPath ++ ".tmp.".toList ++ ts1) newContent).read confPath =
      fs.read confPath
    exact FS.read_write_other _ _ _ _ hne
  · show (fs.write (confPath ++ ".tmp.".toList ++ ts1) newContent).read
      (confPath ++ ".tmp.".toList ++ ts1) = some newContent
    exact FS.read_write_same _ _ _

theorem reassign_rollback (ts1 ts2 confPath newContent : Str) (fs : FS) (orig : Str)
    (h : fs.read confPath = some orig) :
    (reassignZonePipeline true false true ts1 ts2 confPath newContent fs).err =
      some "Reload failed after reassign; config restored".toList ∧
    (reassignZonePipeline true false true ts1 ts2 confPath newContent fs).fs.read
      confPath = some orig ∧
    (reassignZonePipeline true false true ts1 ts2 confPath newContent fs).settingsUpdated
      = false := by
  have hne1 : confPath ≠ confPath ++ ".tmp.".toList ++ ts1 := by
    rw [List.append_assoc]
    exact ne_append_of_ne_nil confPath _ (by simp)
  have hne2 : confPath ≠ confPath ++ ".backup.".toList ++ ts2 := by
    rw [List.append_assoc]
    exact ne_append_of_ne_nil confPath _ (by simp)
  have hne3 : confPath ++ ".backup.".toList ++ ts2 ≠ confPath ++ ".tmp.".toList ++ ts1 :=
    Ne.symm (tmp_ne_backup confPath ts1 ts2)
  refine ⟨rfl, ?_, rfl⟩
  show ((((fs.write (confPath ++ ".tmp.".toList ++ ts1) newContent).copy confPath
      (confPath ++ ".backup.".toList ++ ts2)).move (confPath ++ ".tmp.".toList ++ ts1)
      confPath).copy (confPath ++ ".backup.".toList ++ ts2) confPath).read confPath =
      some orig
  have hr1 : (fs.write (confPath ++ ".tmp.".toList ++ ts1) newContent).read confPath
      = some orig := by
    rw [FS.read_write_other _ _ _ _ hne1, h]
  rw [show (fs.write (confPath ++ ".tmp.".toList ++ ts1) newContent).copy confPath
      (confPath ++ ".backup.".toList ++ ts2) =
      (fs.write (confPath ++ ".tmp.".toList ++ ts1) newContent).write
        (confPath ++ ".backup.".toList ++ ts2) orig from by
    unfold FS.copy
    rw [hr1]]
  have hr2 : ((fs.write (confPath ++ ".tmp.".toList ++ ts1) newContent).write
      (confPath ++ ".backup.".toList ++ ts2) orig).read
      (confPath ++ ".tmp.".toList ++ ts1) = some newContent := by
    rw [FS.read_write_other _ _ _ _ (Ne.symm hne3), FS.read_write_same]
  rw [show ((fs.write (confPath ++ ".tmp.".toList ++ ts1) newContent).write
      (confPath ++ ".backup.".toList ++ ts2) orig).move
      (confPath ++ ".tmp.".toList ++ ts1) confPath =
      (((fs.write (confPath ++ ".tmp.".toList ++ ts1) newContent).write
      (confPath ++ ".backup.".toList ++ ts2) orig).unlink
        (confPath ++ ".tmp.".toList ++ ts1)).write confPath newContent from by
    unfold FS.move
    rw [hr2]]
  have hr3 : ((((fs.write (confPath ++ ".tmp.".toList ++ ts1) newContent).write
      (confPath ++ ".backup.".toList ++ ts2) orig).unlink
        (confPath ++ ".tmp.".toList ++ ts1)).write confPath newContent).read
      (confPath ++ ".backup.".toList ++ ts2) = some orig := by
    rw [FS.read_write_other _ _ _ _ (Ne.symm hne2),
      FS.read_unlink_other _ _ _ hne3, FS.read_write_same]
  rw [show ((((fs.write (confPath ++ ".tmp.".toList ++ ts1) newContent).write
      (confPath ++ ".backup.".toList ++ ts2) orig).unlink
        (confPath ++ ".tmp.".toList ++ ts1)).write confPath newContent).copy
      (confPath ++ ".backup.".toList ++ ts2) confPath =
      (((((fs.write (confPath ++ ".tmp.".toList ++ ts1) newContent).write
      (confPath ++ ".backup.".toList ++ ts2) orig).unlink
        (confPath ++ ".tmp.".toList ++ ts1)).write confPath newContent)).write
        confPath orig from by
    unfold FS.copy
    rw [hr3]]
  rw [FS.read_write_same]

theorem reassign_settings_order (vo ro ar : Bool) (ts1 ts2 confPath newContent : Str)
    (fs : FS)
    (h : (reassignZonePipeline vo ro ar ts1 ts2 confPath newContent fs).settingsUpdated
      = true) :
    (reassignZonePipeline vo ro ar ts1 ts2 confPath newContent fs).err = none := by
  unfold reassignZonePipeline at h ⊢
  cases vo with
  | false => simp at h
  | true =>
    simp only [Bool.not_true, Bool.false_eq_true, if_false] at h ⊢
    by_cases har : (ar && !ro) = true
    · rw [if_pos har] at h
      simp at h
    · rw [if_neg har] at h ⊢

/-! ## Claim C1 -/

/-- C1 (amended): when the external validator rejects the candidate,
`writeConfigWithValidation` raises an error, deletes the temp file and leaves
the live file byte-for-byte unchanged; the validation-failure path of
`reassignZone` raises an error and leaves the live file unchanged but leaves
the temp file on disk (the original claim's "temp file is deleted" fails
there, see the counterexample). -/
theorem C1_validator_reject_amended :
    (∀ ts filePath content fs, containsSub filePath "named.conf".toList = true →
      (writeConfigWithValidation false ts filePath content fs).1.isSome = true ∧
      (writeConfigWithValidation false ts filePath content fs).2.read
        (filePath ++ ".tmp.".toList ++ ts) = none ∧
      (writeConfigWithValidation false ts filePath content fs).2.read filePath =
        fs.read filePath) ∧
    (∀ ro ar ts1 ts2 confPath newContent fs,
      (reassignZonePipeline false ro ar ts1 ts2 confPath newContent fs).err.isSome
        = true ∧
      (reassignZonePipeline false ro ar ts1 ts2 confPath newContent fs).settingsUpdated
        = false ∧
      (reassignZonePipeline false ro ar ts1 ts2 confPath newContent fs).fs.read confPath
        = fs.read confPath ∧
      (reassignZonePipeline false ro ar ts1 ts2 confPath newContent fs).fs.read
        (confPath ++ ".tmp.".toList ++ ts1) = some newContent) :=
  ⟨fun ts fp c fs hp => writeConfig_reject ts fp c fs hp,
   fun ro ar ts1 ts2 cp nc fs =>
     ⟨by rw [(reassign_reject ro ar ts1 ts2 cp nc fs).1]; rfl,
      (reassign_reject ro ar ts1 ts2 cp nc fs).2.1,
      (reassign_reject ro ar ts1 ts2 cp nc fs).2.2.1,
      (reassign_reject ro ar ts1 ts2 cp nc fs).2.2.2⟩⟩

/-- C1 counterexample: in `reassignZone`, a validator rejection throws but
does not delete the temp file: on a concrete run the temp path still holds
the candidate content after the error, contradicting "the temp file is
deleted". The live file is unchanged. -/
theorem C1_validator_reject_cex :
    (reassignZonePipeline false true true "1".toList "2".toList
      "named.conf.local".toList "new".toList ⟨[("named.conf.local".toList,
        "orig".toList)]⟩).err.isSome = true ∧
    (reassignZonePipeline false true true "1".toList "2".toList
      "named.conf.local".toList "new".toList ⟨[("named.conf.local".toList,
        "orig".toList)]⟩).fs.read "named.conf.local.tmp.1".toList =
      some "new".toList ∧
    some "new".toList ≠ (none : Option Str) := by
  refine ⟨by decide, by decide, by decide⟩

/-- Witness for the amended C1 at a concrete configuration path and state. -/
theorem C1_validator_reject_amended_witness :
    ((writeConfigWithValidation false "7".toList "named.conf.local".toList
      "cand".toList ⟨[("named.conf.local".toList, "orig".toList)]⟩).1.isSome = true ∧
    (writeConfigWithValidation false "7".toList "named.conf.local".toList
      "cand".toList ⟨[("named.conf.local".toList, "orig".toList)]⟩).2.read
      ("named.conf.local".toList ++ ".tmp.".toList ++ "7".toList) = none ∧
    (writeConfigWithValidation false "7".toList "named.conf.local".toList
      "cand".toList ⟨[("named.conf.local".toList, "orig".toList)]⟩).2.read
      "named.conf.local".toList =
      (⟨[("named.conf.local".toList, "orig".toList)]⟩ : FS).read
        "named.conf.local".toList) :=
  C1_validator_reject_amended.1 "7".toList "named.conf.local".toList "cand".toList
    ⟨[("named.conf.local".toList, "orig".toList)]⟩ (by decide)

/-! ## Claim C9 -/

/-- C9: in `reassignZone`, if the reload step fails after the live file was
atomically replaced, the live file is restored from the backup taken before
the replacement and the combined error is reported; and the persisted
view-membership settings are updated only when the whole pipeline (including
the reload) succeeded, never before. -/
theorem C9_reload_rollback :
    (∀ ts1 ts2 confPath newContent fs orig, fs.read confPath = some orig →
      (reassignZonePipeline true false true ts1 ts2 confPath newContent fs).err =
        some "Reload failed after reassign; config restored".toList ∧
      (reassignZonePipeline true false true ts1 ts2 confPath newContent fs).fs.read
        confPath = some orig ∧
      (reassignZonePipeline true false true ts1 ts2 confPath newContent
        fs).settingsUpdated = false) ∧
    (∀ vo ro ar ts1 ts2 confPath newContent fs,
      (reassignZonePipeline vo ro ar ts1 ts2 confPath newContent fs).settingsUpdated
        = true →
      (reassignZonePipeline vo ro ar ts1 ts2 confPath newContent fs).err = none) :=
  ⟨fun ts1 ts2 cp nc fs orig h => reassign_rollback ts1 ts2 cp nc fs orig h,
   fun vo ro ar ts1 ts2 cp nc fs h =>
     reassign_settings_order vo ro ar ts1 ts2 cp nc fs h⟩

/-- Witness for C9 at a concrete state: the reload fails, the live file holds
its original bytes again and the settings were not touched. -/
theorem C9_reload_rollback_witness :
    ((reassignZonePipeline true false true "1".toList "2".toList
      "named.conf.local".toList "new".toList ⟨[("named.conf.local".toList,
        "orig".toList)]⟩).err =
      some "Reload failed after reassign; config restored".toList ∧
    (reassignZonePipeline true false true "1".toList "2".toList
      "named.conf.local".toList "new".toList ⟨[("named.conf.local".toList,
        "orig".toList)]⟩).fs.read "named.conf.local".toList = some "orig".toList ∧
    (reassignZonePipeline true false true "1".toList "2".toList
      "named.conf.local".toList "new".toList ⟨[("named.conf.local".toList,
        "orig".toList)]⟩).settingsUpdated = false) ∧
    (reassignZonePipeline true true true "1".toList "2".toList
      "named.conf.local".toList "new".toList ⟨[("named.conf.local".toList,
        "orig".toList)]⟩).settingsUpdated = true := by
  constructor
  · exact C9_reload_rollback.1 "1".toList "2".toList "named.conf.local".toList
      "new".toList ⟨[("named.conf.local".toList, "orig".toList)]⟩ "orig".toList
      (by decide)
  · decide

/-! ## Splitting generated text into lines -/

theorem splitOnChar_append (sep : Char) : ∀ (a b : Str), sep ∉ a →
    splitOnChar sep (a ++ sep :: b) = a :: splitOnChar sep b
  | [], b, _ => by rw [List.nil_append, splitOnChar, if_pos rfl]
  | c :: t, b, h => by
    have hc : ¬(c = sep) := fun hcontra => h (by simp [hcontra])
    rw [List.cons_append, splitOnChar, if_neg hc,
      splitOnChar_append sep t b (fun hm => h (by simp [hm]))]

theorem splitLines_app (a b : Str) (h : '\n' ∉ a) :
    splitLines (a ++ '\n' :: b) = a :: splitLines b :=
  splitOnChar_append '\n' a b h

theorem splitLines_flatten : ∀ (ls : List Str) (r : Str), (∀ l ∈ ls, '\n' ∉ l) →
    splitLines (List.flatten (ls.map (fun l => l ++ ['\n'])) ++ r) = ls ++ splitLines r
  | [], r, _ => by simp
  | l :: ls, r, h => by
    rw [List.map_cons, List.flatten_cons, List.append_assoc, List.append_assoc,
      List.singleton_append]
    rw [splitLines_app l _ (h l (by simp))]
    rw [splitLines_flatten ls r (fun x hx => h x (List.mem_cons_of_mem _ hx))]
    rfl

/-! ## Substring facts used to settle the per-line SOA test -/

theorem containsSub_nil_right (b : Str) : containsSub b [] = true := by
  cases b with
  | nil => rfl
  | cons c t => rw [containsSub]; simp [List.isPrefixOf]

theorem containsSub_mem : ∀ (l p : Str), containsSub l p = true → ∀ c ∈ p, c ∈ l
  | [], p, h => by
    rw [containsSub] at h
    intro c hc
    exact absurd ((List.isPrefixOf_iff_prefix.mp h).subset hc) (by simp)
  | a :: t, p, h => by
    rw [containsSub, Bool.or_eq_true] at h
    intro c hc
    rcases h with h | h
    · exact (List.isPrefixOf_iff_prefix.mp h).subset hc
    · exact List.mem_cons_of_mem a (containsSub_mem t p h c hc)

theorem containsSub_append_left : ∀ (a b p : Str), containsSub a p = true →
    containsSub (a ++ b) p = true
  | [], b, p, h => by
    have hp : p = [] := by
      rw [containsSub] at h
      exact List.prefix_nil.mp (List.isPrefixOf_iff_prefix.mp h)
    rw [hp, List.nil_append]
    exact containsSub_nil_right b
  | a :: t, b, p, h => by
    rw [containsSub, Bool.or_eq_true] at h
    rw [List.cons_append, containsSub, Bool.or_eq_true]
    rcases h with h | h
    · exact Or.inl (List.isPrefixOf_iff_prefix.mpr
        ((List.isPrefixOf_iff_prefix.mp h).trans
          (by rw [← List.cons_append]; exact List.prefix_append _ b)))
    · exact Or.inr (containsSub_append_left t b p h)

/-! ## Trimming facts for the generated lines -/

theorem dropWhile_all_pre {p : Char → Bool} : ∀ (w s : Str), w.all p = true →
    (w ++ s).dropWhile p = s.dropWhile p
  | [], s, _ => rfl
  | a :: w, s, h => by
    simp only [List.all_cons, Bool.and_eq_true] at h
    rw [List.cons_append, List.dropWhile_cons, if_pos h.1]
    exact dropWhile_all_pre w s h.2

theorem trimStr_wspre (w s : Str) (h : w.all isWsChar = true) :
    trimStr (w ++ s) = trimStr s := by
  unfold trimStr
  rw [dropWhile_all_pre w s h]

theorem dropWhile_last {p : Char → Bool} (e : Char) (he : p e = false) :
    ∀ (x : Str), ∃ u, (x ++ [e]).dropWhile p = u ++ [e]
  | [] => ⟨[], by simp [List.dropWhile_cons, he]⟩
  | a :: x => by
    rw [List.cons_append, List.dropWhile_cons]
    by_cases ha : p a = true
    · rw [if_pos ha]
      exact dropWhile_last e he x
    · rw [if_neg ha]
      exact ⟨a :: x, rfl⟩

theorem trim_cons_nonws (c : Char) (t : Str) (hc : isWsChar c = false) :
    ∃ t2, trimStr (c :: t) = c :: t2 := by
  unfold trimStr
  rw [List.dropWhile_cons, if_neg (by simp [hc])]
  obtain ⟨u, hu⟩ := dropWhile_last (p := isWsChar) c hc t.reverse
  have h1 : (c :: t).reverse = t.reverse ++ [c] := by simp
  rw [h1, hu]
  exact ⟨u.reverse, by simp⟩

/-! ## Skipped-line facts for `parseLineRec` -/

theorem parse_skip_head (c : Char) (t : Str) (hc : isWsChar c = false)
    (h : c = ';' ∨ c = '$') : parseLineRec (c :: t) = none := by
  obtain ⟨t2, ht⟩ := trim_cons_nonws c t hc
  unfold parseLineRec
  rw [ht]
  dsimp only
  rcases h with rfl | rfl
  · rw [if_pos rfl]
  · rw [if_neg (by decide), if_pos rfl]

theorem parse_skip_soa (c : Char) (t : Str) (hc : isWsChar c = false)
    (front : Str) (e : Char) (he : c :: t = front ++ [e]) (hee : isWsChar e = false)
    (hc1 : ¬(c = ';')) (hc2 : ¬(c = '$'))
    (hsub : containsSub (c :: t) "SOA".toList = true) :
    parseLineRec (c :: t) = none := by
  unfold parseLineRec
  rw [trimStr_id c t hc front e he hee]
  dsimp only
  rw [if_neg hc1, if_neg hc2, if_pos hsub]

theorem digit_not_semi (c : Char) (h : isDigitChar c = true) :
    ¬(c = ';') ∧ ¬(c = '$') := by
  rcases digit_cases c h with rfl | rfl | rfl | rfl | rfl | rfl | rfl | rfl | rfl | rfl <;>
    exact ⟨by decide, by decide⟩

/-! ## Filtering helpers for the record lists -/

theorem filter_none {α : Type} (p : α → Bool) : ∀ (l : List α),
    (∀ x ∈ l, p x = false) → l.filter p = []
  | [], _ => rfl
  | a :: l, h => by
    rw [List.filter_cons, h a (by simp), filter_none p l (fun x hx => h x (by simp [hx]))]
    simp

theorem filter_all {α : Type} (p : α → Bool) : ∀ (l : List α),
    (∀ x ∈ l, p x = true) → l.filter p = l
  | [], _ => rfl
  | a :: l, h => by
    rw [List.filter_cons, h a (by simp), filter_all p l (fun x hx => h x (by simp [hx]))]
    simp

theorem filterMap_all_some {α β : Type} (f : α → Option β) (g : α → β) :
    ∀ (l : List α), (∀ x ∈ l, f x = some (g x)) → l.filterMap f = l.map g
  | [], _ => rfl
  | a :: l, h => by
    rw [List.filterMap_cons, h a (by simp), List.map_cons,
      filterMap_all_some f g l (fun x hx => h x (by simp [hx]))]

theorem numberFrom_filter_map (X : Str) : ∀ (rs : List (Str × Str × Str × Nat)) (k : Nat),
    ((numberFrom k rs).filter (fun r => decide (r.rtype = X))).map
        (fun r => (r.name, r.value)) =
      (rs.filter (fun q => decide (q.2.1 = X))).map (fun q => (q.1, q.2.2.1))
  | [], _ => rfl
  | (n, ty, v, t) :: rs, k => by
    rw [numberFrom]
    simp only [List.filter_cons]
    by_cases h : ty = X
    · simp only [h, decide_True, if_true, List.map_cons]
      rw [numberFrom_filter_map X rs (k + 1)]
    · simp only [decide_eq_false h, Bool.false_eq_true, if_false]
      rw [numberFrom_filter_map X rs (k + 1)]

/-- The indented `; Serial` line of the generated SOA block parses to nothing:
after trimming it has only three whitespace-separated parts. -/
theorem parse_serial_line (ser : Str) (hsd : ser.all isDigitChar = true) (hsne : ser ≠ []) :
    parseLineRec ("                        ".toList ++
      (ser ++ "       ; Serial".toList)) = none := by
  obtain ⟨sc, st, rfl⟩ : ∃ sc st, ser = sc :: st := by
    cases ser with
    | nil => exact absurd rfl hsne
    | cons a b => exact ⟨a, b, rfl⟩
  simp only [List.all_cons, Bool.and_eq_true] at hsd
  have hscd : isDigitChar sc = true := hsd.1
  have hscw : isWsChar sc = false := digit_not_ws sc hscd
  have htrim : trimStr ("                        ".toList ++
      ((sc :: st) ++ "       ; Serial".toList)) =
      sc :: (st ++ "       ; Serial".toList) := by
    rw [trimStr_wspre _ _ (by decide)]
    rw [show ((sc :: st) ++ "       ; Serial".toList : Str) =
      sc :: (st ++ "       ; Serial".toList) from rfl]
    refine trimStr_id sc (st ++ "       ; Serial".toList) hscw
      (sc :: (st ++ "       ; Seria".toList)) 'l' ?_ (by decide)
    rw [show ("       ; Serial".toList : Str) = "       ; Seria".toList ++ ['l'] from rfl]
    simp
  have hsoa : containsSub (sc :: (st ++ "       ; Serial".toList)) "SOA".toList = false := by
    cases hcase : containsSub (sc :: (st ++ "       ; Serial".toList)) "SOA".toList with
    | false => rfl
    | true =>
      exfalso
      have hO : 'O' ∈ sc :: (st ++ "       ; Serial".toList) :=
        containsSub_mem _ _ hcase 'O' (by decide)
      rcases List.mem_cons.mp hO with h1 | h2
      · exact absurd hscd (by rw [← h1]; decide)
      rcases List.mem_append.mp h2 with h1 | h1
      · exact absurd (List.all_eq_true.mp hsd.2 'O' h1) (by decide)
      · exact absurd h1 (by decide)
  have hwords : wordsOf (sc :: (st ++ "       ; Serial".toList)) =
      [sc :: st, [';'], "Serial".toList] := by
    have hdec : sc :: (st ++ "       ; Serial".toList) =
        (sc :: st) ++ ("       ".toList ++ ([';'] ++ (" ".toList ++ "Serial".toList))) := by
      rw [show ("       ; Serial".toList : Str) =
        "       ".toList ++ ([';'] ++ (" ".toList ++ "Serial".toList)) from rfl]
      simp
    rw [hdec]
    rw [wordsOf_chunk (sc :: st) "       ".toList _ (by simp)
      (by simp only [List.all_cons, Bool.and_eq_true]
          exact ⟨by simp [hscw], digits_all_nonws st hsd.2⟩)
      (by decide) (by decide)]
    rw [wordsOf_chunk [';'] " ".toList _ (by simp) (by decide) (by decide) (by decide)]
    rw [wordsOf_single "Serial".toList (by decide) (by decide)]
  unfold parseLineRec
  rw [htrim]
  dsimp only
  rw [if_neg (digit_not_semi sc hscd).1, if_neg (digit_not_semi sc hscd).2]
  rw [hsoa, if_neg (by simp)]
  rw [hwords, if_neg (by simp)]

/-- The generated `@ IN SOA ...` header line is always skipped by the parser:
its trimmed text contains the substring `SOA`. -/
theorem parse_soa_header (ns email : Str) :
    parseLineRec ("@       IN      SOA     ".toList ++ ns ++ [' '] ++ email ++
      [' ', '(']) = none := by
  have hline : ("@       IN      SOA     ".toList ++ ns ++ [' '] ++ email ++
      [' ', '('] : Str) =
      '@' :: ("       IN      SOA     ".toList ++ (ns ++ ([' '] ++ (email ++ [' ', '('])))) := by
    rw [show ("@       IN      SOA     ".toList : Str) =
      '@' :: "       IN      SOA     ".toList from rfl]
    simp
  rw [hline]
  refine parse_skip_soa '@' _ (by decide)
    ('@' :: ("       IN      SOA     ".toList ++ (ns ++ ([' '] ++ (email ++ [' ']))))) '('
    ?_ (by decide) (by decide) (by decide) ?_
  · simp
  · rw [show ('@' :: ("       IN      SOA     ".toList ++
      (ns ++ ([' '] ++ (email ++ [' ', '('])))) : Str) =
      "@       IN      SOA     ".toList ++ (ns ++ ([' '] ++ (email ++ [' ', '(']))) from rfl]
    exact containsSub_append_left _ _ _ (by decide)

/-- The generated `@ IN NS <ns>` line never contributes a PTR record: it is
either skipped (if its text happens to contain `SOA`) or parses with record
type `NS`. -/
theorem parse_ns_line (ns x : Str) (hx : ns = x ++ ['.'])
    (hnsw : ns.all (fun c => !isWsChar c) = true) (q : Str × Str × Str × Nat)
    (hq : parseLineRec ("@       IN      NS      ".toList ++ ns) = some q) :
    q.2.1 ≠ "PTR".toList := by
  have hline : ("@       IN      NS      ".toList ++ ns : Str) =
      '@' :: ("       IN      NS      ".toList ++ ns) := rfl
  rw [hline] at hq
  have hfe : ('@' :: ("       IN      NS      ".toList ++ ns) : Str) =
      ('@' :: ("       IN      NS      ".toList ++ x)) ++ ['.'] := by
    rw [hx]
    simp
  by_cases hsoa : containsSub ('@' :: ("       IN      NS      ".toList ++ ns))
      "SOA".toList = true
  · rw [parse_skip_soa '@' _ (by decide) _ '.' hfe (by decide) (by decide) (by decide)
      hsoa] at hq
    exact absurd hq (by simp)
  · have htrim : trimStr ('@' :: ("       IN      NS      ".toList ++ ns)) =
        '@' :: ("       IN      NS      ".toList ++ ns) :=
      trimStr_id '@' _ (by decide) _ '.' hfe (by decide)
    have hnsne : ns ≠ [] := by rw [hx]; simp
    have hwords : wordsOf ('@' :: ("       IN      NS      ".toList ++ ns)) =
        [['@'], ['I', 'N'], ['N', 'S'], ns] := by
      rw [show ('@' :: ("       IN      NS      ".toList ++ ns) : Str) =
        ['@'] ++ ("       ".toList ++ (['I', 'N'] ++ ("      ".toList ++
          (['N', 'S'] ++ ("      ".toList ++ ns))))) from rfl]
      rw [wordsOf_chunk ['@'] "       ".toList _ (by simp) (by decide) (by decide) (by decide)]
      rw [wordsOf_chunk ['I', 'N'] "      ".toList _ (by simp) (by decide) (by decide)
        (by decide)]
      rw [wordsOf_chunk ['N', 'S'] "      ".toList _ (by simp) (by decide) (by decide)
        (by decide)]
      rw [wordsOf_single ns hnsne hnsw]
    have hparse : parseLineRec ('@' :: ("       IN      NS      ".toList ++ ns)) =
        some (['@'], ['N', 'S'], ns, 3600) := by
      unfold parseLineRec
      rw [htrim]
      dsimp only
      rw [if_neg (by decide), if_neg (by decide), if_neg hsoa]
      rw [hwords]
      rw [show "IN".toList = ['I', 'N'] from rfl]
      rw [if_pos ?_]
      · have hidx : idxOf ['I', 'N'] [['@'], ['I', 'N'], ['N', 'S'], ns] = 1 := by
          rw [idxOf, if_neg (by decide), idxOf, if_pos rfl]
        rw [hidx]
        simp only [List.getD, List.get?, List.drop, Option.getD_some]
        rw [show isNumericToken ['I', 'N'] = false from by decide]
        simp [List.intercalate]
      · rw [Bool.and_eq_true]
        exact ⟨by simp, by rw [hasTok, hasTok]; simp⟩
    rw [hparse] at hq
    obtain rfl : (⟨['@'], ['N', 'S'], ns, 3600⟩ : Str × Str × Str × Nat) = q :=
      Option.some.inj hq
    dsimp only
    decide

/-- The generated NS glue line `<ns> IN A <nsIP>` never contributes a PTR
record: it is skipped, or parses with record type `A`. -/
theorem parse_glue_line (ns nsIP x : Str) (hx : ns = x ++ ['.'])
    (hnsw : ns.all (fun c => !isWsChar c) = true)
    (hipw : nsIP.all (fun c => !isWsChar c) = true) (hipne : nsIP ≠ [])
    (q : Str × Str × Str × Nat)
    (hq : parseLineRec (ns ++ ("   IN      A       ".toList ++ nsIP)) = some q) :
    q.2.1 ≠ "PTR".toList := by
  obtain ⟨nc, nt, rfl⟩ : ∃ nc nt, ns = nc :: nt := by
    cases hcase : ns with
    | nil => rw [hcase] at hx; exact absurd hx.symm (by simp)
    | cons a b => exact ⟨a, b, rfl⟩
  have hncw : isWsChar nc = false := by
    simp only [List.all_cons, Bool.and_eq_true] at hnsw
    simpa using hnsw.1
  have hntw : nt.all (fun c => !isWsChar c) = true := by
    simp only [List.all_cons, Bool.and_eq_true] at hnsw
    exact hnsw.2
  rw [show ((nc :: nt) ++ ("   IN      A       ".toList ++ nsIP) : Str) =
    nc :: (nt ++ ("   IN      A       ".toList ++ nsIP)) from rfl] at hq
  by_cases hc1 : nc = ';'
  · rw [parse_skip_head nc _ hncw (Or.inl hc1)] at hq
    exact absurd hq (by simp)
  by_cases hc2 : nc = '$'
  · rw [parse_skip_head nc _ hncw (Or.inr hc2)] at hq
    exact absurd hq (by simp)
  obtain ⟨ipf, ipe, hip⟩ := exists_last nsIP hipne
  have hipe : isWsChar ipe = false := by
    have hm : ipe ∈ nsIP := by rw [hip]; simp
    simpa using List.all_eq_true.mp hipw ipe hm
  have hfe : (nc :: (nt ++ ("   IN      A       ".toList ++ nsIP)) : Str) =
      (nc :: (nt ++ ("   IN      A       ".toList ++ ipf))) ++ [ipe] := by
    rw [hip]
    simp
  by_cases hsoa : containsSub (nc :: (nt ++ ("   IN      A       ".toList ++ nsIP)))
      "SOA".toList = true
  · rw [parse_skip_soa nc _ hncw _ ipe hfe hipe hc1 hc2 hsoa] at hq
    exact absurd hq (by simp)
  · have htrim : trimStr (nc :: (nt ++ ("   IN      A       ".toList ++ nsIP))) =
        nc :: (nt ++ ("   IN      A       ".toList ++ nsIP)) :=
      trimStr_id nc _ hncw _ ipe hfe hipe
    have hwords : wordsOf (nc :: (nt ++ ("   IN      A       ".toList ++ nsIP))) =
        [nc :: nt, ['I', 'N'], ['A'], nsIP] := by
      rw [show (nc :: (nt ++ ("   IN      A       ".toList ++ nsIP)) : Str) =
        (nc :: nt) ++ ("   ".toList ++ (['I', 'N'] ++ ("      ".toList ++
          (['A'] ++ ("       ".toList ++ nsIP))))) from by
        rw [show ("   IN      A       ".toList : Str) =
          "   ".toList ++ (['I', 'N'] ++ ("      ".toList ++
            (['A'] ++ "       ".toList))) from rfl]
        simp]
      rw [wordsOf_chunk (nc :: nt) "   ".toList _ (by simp)
        (by simp only [List.all_cons, Bool.and_eq_true]
            exact ⟨by simp [hncw], hntw⟩)
        (by decide) (by decide)]
      rw [wordsOf_chunk ['I', 'N'] "      ".toList _ (by simp) (by decide) (by decide)
        (by decide)]
      rw [wordsOf_chunk ['A'] "       ".toList _ (by simp) (by decide) (by decide)
        (by decide)]
      rw [wordsOf_single nsIP hipne hipw]
    have hnsIN : ¬(nc :: nt = ['I', 'N']) := by
      rw [hx]
      intro hcontra
      have := congrArg List.getLast? hcontra
      rw [List.getLast?_concat] at this
      simp at this
    have hparse : parseLineRec (nc :: (nt ++ ("   IN      A       ".toList ++ nsIP))) =
        some (nc :: nt, ['A'], nsIP, 3600) := by
      unfold parseLineRec
      rw [htrim]
      dsimp only
      rw [if_neg hc1, if_neg hc2, if_neg hsoa]
      rw [hwords]
      rw [show "IN".toList = ['I', 'N'] from rfl]
      rw [if_pos ?_]
      · have hidx : idxOf ['I', 'N'] [nc :: nt, ['I', 'N'], ['A'], nsIP] = 1 := by
          rw [idxOf, if_neg hnsIN, idxOf, if_pos rfl]
        rw [hidx]
        simp only [List.getD, List.get?, List.drop, Option.getD_some]
        rw [show isNumericToken ['I', 'N'] = false from by decide]
        simp [List.intercalate]
      · rw [Bool.and_eq_true]
        exact ⟨by simp, by rw [hasTok, hasTok]; simp⟩
    rw [hparse] at hq
    obtain rfl : ((nc :: nt, ['A'], nsIP, 3600) : Str × Str × Str × Nat) = q :=
      Option.some.inj hq
    dsimp only
    decide

/-- Each auto-generated PTR line parses to exactly the record
`(i, PTR, host<i>.<domain>, 3600)`, for any domain token free of whitespace
and of the letter `S`. -/
theorem parse_ptr_line (D : Str) (i : Nat)
    (hdw : D.all (fun c => !isWsChar c) = true) (hdne : D ≠ []) (hdS : 'S' ∉ D) :
    parseLineRec (ptrLine D i) =
      some (natToStr i, "PTR".toList, "host".toList ++ (natToStr i ++ ('.' :: D)), 3600) := by
  obtain ⟨dc, dt, hni⟩ : ∃ dc dt, natToStr i = dc :: dt := by
    cases hcase : natToStr i with
    | nil => exact absurd hcase (digitsOf_ne_nil i)
    | cons a b => exact ⟨a, b, rfl⟩
  have hall : (dc :: dt).all isDigitChar = true := by rw [← hni]; exact digitsOf_all i
  simp only [List.all_cons, Bool.and_eq_true] at hall
  have hdcw : isWsChar dc = false := digit_not_ws dc hall.1
  obtain ⟨df, de, hD⟩ := exists_last D hdne
  have hdew : isWsChar de = false := by
    have hm : de ∈ D := by rw [hD]; simp
    simpa using List.all_eq_true.mp hdw de hm
  have hshape : ptrLine D i = natToStr i ++ ("       ".toList ++ (['I', 'N'] ++
      ("      ".toList ++ (['P', 'T', 'R'] ++ ("     ".toList ++
        ("host".toList ++ (natToStr i ++ ('.' :: D)))))))) := by
    unfold ptrLine
    rw [show ("       IN      PTR     host".toList : Str) =
      "       ".toList ++ (['I', 'N'] ++ ("      ".toList ++
        (['P', 'T', 'R'] ++ ("     ".toList ++ "host".toList)))) from rfl]
    simp
  have hcons : ptrLine D i = dc :: (dt ++ ("       ".toList ++ (['I', 'N'] ++
      ("      ".toList ++ (['P', 'T', 'R'] ++ ("     ".toList ++
        ("host".toList ++ (natToStr i ++ ('.' :: D))))))))) := by
    rw [hshape, hni]
    rfl
  have hfe : (dc :: (dt ++ ("       ".toList ++ (['I', 'N'] ++
      ("      ".toList ++ (['P', 'T', 'R'] ++ ("     ".toList ++
        ("host".toList ++ (natToStr i ++ ('.' :: D))))))))) : Str) =
      (dc :: (dt ++ ("       ".toList ++ (['I', 'N'] ++
        ("      ".toList ++ (['P', 'T', 'R'] ++ ("     ".toList ++
          ("host".toList ++ (natToStr i ++ ('.' :: df)))))))))) ++ [de] := by
    rw [hD]
    simp
  have hsub : containsSub (ptrLine D i) "SOA".toList = false := by
    cases hcase : containsSub (ptrLine D i) "SOA".toList with
    | false => rfl
    | true =>
      exfalso
      have hS : 'S' ∈ ptrLine D i := containsSub_mem _ _ hcase 'S' (by decide)
      unfold ptrLine at hS
      rcases List.mem_append.mp hS with h1 | h1
      on_goal 2 => exact hdS h1
      rcases List.mem_append.mp h1 with h1 | h1
      on_goal 2 => exact absurd h1 (by decide)
      rcases List.mem_append.mp h1 with h1 | h1
      on_goal 2 =>
        exact absurd (List.all_eq_true.mp (digitsOf_all i) 'S' h1) (by decide)
      rcases List.mem_append.mp h1 with h1 | h1
      · exact absurd (List.all_eq_true.mp (digitsOf_all i) 'S' h1) (by decide)
      · exact absurd h1 (by decide)
  have hVne : ("host".toList ++ (natToStr i ++ ('.' :: D)) : Str) ≠ [] := by simp
  have hVw : ("host".toList ++ (natToStr i ++ ('.' :: D))).all
      (fun c => !isWsChar c) = true := by
    simp only [List.all_append, List.all_cons, Bool.and_eq_true]
    exact ⟨by decide, digits_all_nonws _ (digitsOf_all i), by decide, hdw⟩
  have hwords : wordsOf (ptrLine D i) =
      [natToStr i, ['I', 'N'], ['P', 'T', 'R'],
        "host".toList ++ (natToStr i ++ ('.' :: D))] := by
    rw [hshape]
    rw [wordsOf_chunk (natToStr i) "       ".toList _ (digitsOf_ne_nil i)
      (digits_all_nonws _ (digitsOf_all i)) (by decide) (by decide)]
    rw [wordsOf_chunk ['I', 'N'] "      ".toList _ (by simp) (by decide) (by decide)
      (by decide)]
    rw [wordsOf_chunk ['P', 'T', 'R'] "     ".toList _ (by simp) (by decide) (by decide)
      (by decide)]
    rw [wordsOf_single _ hVne hVw]
  have htrim : trimStr (ptrLine D i) = ptrLine D i := by
    rw [hcons]
    exact trimStr_id dc _ hdcw _ de hfe hdew
  unfold parseLineRec
  rw [show trimStr (ptrLine D i) = dc :: (dt ++ ("       ".toList ++ (['I', 'N'] ++
      ("      ".toList ++ (['P', 'T', 'R'] ++ ("     ".toList ++
        ("host".toList ++ (natToStr i ++ ('.' :: D))))))))) from by rw [htrim, hcons]]
  dsimp only
  rw [if_neg (digit_not_semi dc hall.1).1, if_neg (digit_not_semi dc hall.1).2]
  rw [show containsSub (dc :: (dt ++ ("       ".toList ++ (['I', 'N'] ++
      ("      ".toList ++ (['P', 'T', 'R'] ++ ("     ".toList ++
        ("host".toList ++ (natToStr i ++ ('.' :: D)))))))))) "SOA".toList = false from by
    rw [← hcons, hsub]]
  rw [if_neg (by simp)]
  rw [show wordsOf (dc :: (dt ++ ("       ".toList ++ (['I', 'N'] ++
      ("      ".toList ++ (['P', 'T', 'R'] ++ ("     ".toList ++
        ("host".toList ++ (natToStr i ++ ('.' :: D)))))))))) =
      [natToStr i, ['I', 'N'], ['P', 'T', 'R'],
        "host".toList ++ (natToStr i ++ ('.' :: D))] from by rw [← hcons, hwords]]
  rw [show "IN".toList = ['I', 'N'] from rfl]
  rw [if_pos ?_]
  · have hidx : idxOf ['I', 'N'] [natToStr i, ['I', 'N'], ['P', 'T', 'R'],
        "host".toList ++ (natToStr i ++ ('.' :: D))] = 1 := by
      rw [idxOf, if_neg (natToStr_ne_IN i), idxOf, if_pos rfl]
    rw [hidx]
    simp only [List.getD, List.get?, List.drop, Option.getD_some]
    rw [show isNumericToken ['I', 'N'] = false from by decide]
    simp [List.intercalate]
  · rw [Bool.and_eq_true]
    exact ⟨by simp, by rw [hasTok, hasTok]; simp⟩

/-- A PTR line contains no newline when the domain token is
whitespace-free. -/
theorem ptrLine_no_nl (D : Str) (i : Nat)
    (hdw : D.all (fun c => !isWsChar c) = true) : '\n' ∉ ptrLine D i := by
  unfold ptrLine
  intro hm
  rcases List.mem_append.mp hm with h1 | h1
  on_goal 2 => exact nonws_no_nl D hdw h1
  rcases List.mem_append.mp h1 with h1 | h1
  on_goal 2 => exact absurd h1 (by decide)
  rcases List.mem_append.mp h1 with h1 | h1
  on_goal 2 => exact nonws_no_nl _ (digits_all_nonws _ (digitsOf_all i)) h1
  rcases List.mem_append.mp h1 with h1 | h1
  · exact nonws_no_nl _ (digits_all_nonws _ (digitsOf_all i)) h1
  · exact absurd h1 (by decide)

set_option maxRecDepth 8192 in
/-- The reverse-zone, auto-PTR output of `generateZoneFile` decomposes into its
newline-terminated lines: the 13 header lines, the glue line, the two PTR
comment lines, and one PTR line per octet 1..254. -/
theorem generateZoneFile_reverse_shape (zn dt ser : Str) (o : GenOptions)
    (hrev : containsSub zn "in-addr.arpa".toList = true)
    (hauto : o.autoGeneratePTR ≠ some false) :
    generateZoneFile zn dt ser o = List.flatten
      ((["; Zone file for ".toList ++ zn,
         "; Generated by NDash on ".toList ++ dt,
         [],
         "$TTL ".toList ++ natToStr (orFalsy o.ttl 3600),
         "@       IN      SOA     ".toList ++ genNS zn o ++ [' '] ++ genEmail zn o ++
           [' ', '('],
         "                        ".toList ++ (ser ++ "       ; Serial".toList),
         "                        7200            ; Refresh".toList,
         "                        3600            ; Retry".toList,
         "                        1209600         ; Expire".toList,
         "                        3600 )          ; Minimum TTL".toList,
         [],
         "; Name servers".toList,
         "@       IN      NS      ".toList ++ genNS zn o,
         genNS zn o ++ ("   IN      A       ".toList ++ genNsIP zn o),
         [],
         "; PTR records (auto-generated)".toList,
         "; Format: <last-octet> IN PTR <hostname>.<domain>".toList] ++
        (List.range' 1 254).map (ptrLine (genDomainForPTR zn o))).map
          (fun l => l ++ ['\n'])) := by
  simp only [generateZoneFile]
  rw [if_pos hrev, if_neg hauto]
  rw [show ("\n; Generated by NDash on ".toList : Str) = '\n' :: "; Generated by NDash on ".toList from rfl]
  rw [show ("\n\n$TTL ".toList : Str) = '\n' :: ('\n' :: "$TTL ".toList) from rfl]
  rw [show ("\n@       IN      SOA     ".toList : Str) = '\n' :: "@       IN      SOA     ".toList from rfl]
  rw [show (" (\n                        ".toList : Str) = [' ', '('] ++ ('\n' :: "                        ".toList) from rfl]
  rw [show ("       ; Serial\n                        7200            ; Refresh\n                        3600            ; Retry\n                        1209600         ; Expire\n                        3600 )          ; Minimum TTL\n\n; Name servers\n@       IN      NS      ".toList : Str) = ("       ; Serial".toList ++ ('\n' :: ("                        7200            ; Refresh".toList ++ ('\n' :: ("                        3600            ; Retry".toList ++ ('\n' :: ("                        1209600         ; Expire".toList ++ ('\n' :: ("                        3600 )          ; Minimum TTL".toList ++ ('\n' :: ('\n' :: ("; Name servers".toList ++ ('\n' :: "@       IN      NS      ".toList))))))))))))) from rfl]
  rw [show ("\n; PTR records (auto-generated)\n; Format: <last-octet> IN PTR <hostname>.<domain>\n".toList : Str) = '\n' :: ("; PTR records (auto-generated)".toList ++ ('\n' :: ("; Format: <last-octet> IN PTR <hostname>.<domain>".toList ++ ['\n']))) from rfl]
  simp only [List.map_append, List.map_cons, List.map_nil, List.flatten_append,
    List.flatten_cons, List.flatten_nil, List.map_map, Function.comp_def,
    List.append_assoc, List.cons_append, List.nil_append, List.singleton_append,
    List.append_nil]

theorem splitLines_flatten_nil (ls : List Str) (h : ∀ l ∈ ls, '\n' ∉ l) :
    splitLines (List.flatten (ls.map (fun l => l ++ ['\n']))) = ls ++ [[]] := by
  have hx := splitLines_flatten ls [] h
  rw [List.append_nil] at hx
  rw [hx]
  rfl

/-- C8: for a reverse zone (name containing `in-addr.arpa`) with PTR
auto-generation enabled, `generateZoneFile` emits exactly 254 PTR records,
one per octet i = 1..254, each mapping name `i` to value `host<i>.<domain>`,
independent of which addresses are in use. The hypotheses state the
well-formedness of the instantiated template tokens: zone name and date free
of newlines, a nonempty all-digit serial, whitespace-free nameserver, nsIP and
PTR-domain tokens, the email token newline-free, and the PTR domain free of
the letter `S` (so no generated data line contains the skip-substring
`SOA`). -/
theorem C8_reverse_zone_ptr (zn dt ser : Str) (o : GenOptions)
    (hrev : containsSub zn "in-addr.arpa".toList = true)
    (hauto : o.autoGeneratePTR ≠ some false)
    (hznl : '\n' ∉ zn) (hdtl : '\n' ∉ dt)
    (hsd : ser.all isDigitChar = true) (hsne : ser ≠ [])
    (hnsw : (genNS zn o).all (fun c => !isWsChar c) = true)
    (heml : '\n' ∉ genEmail zn o)
    (hipw : (genNsIP zn o).all (fun c => !isWsChar c) = true)
    (hipne : genNsIP zn o ≠ [])
    (hdw : (genDomainForPTR zn o).all (fun c => !isWsChar c) = true)
    (hdS : 'S' ∉ genDomainForPTR zn o) :
    ((parseZoneFile (generateZoneFile zn dt ser o)).filter
        (fun r => decide (r.rtype = "PTR".toList))).map (fun r => (r.name, r.value)) =
      (List.range' 1 254).map (fun i =>
        ((natToStr i : Str),
          "host".toList ++ (natToStr i ++ ('.' :: genDomainForPTR zn o)))) ∧
    ((parseZoneFile (generateZoneFile zn dt ser o)).filter
        (fun r => decide (r.rtype = "PTR".toList))).length = 254 := by
  have hDne : genDomainForPTR zn o ≠ [] := by
    unfold genDomainForPTR
    rw [if_pos hrev]
    unfold ensureDot
    simp
  have hnsx : genNS zn o = stripTrailingDots (orFalsyStr o.nameserver
      ("ns1.".toList ++ zn ++ ['.'])) ++ ['.'] := rfl
  have hsplit : splitLines (generateZoneFile zn dt ser o) =
      (["; Zone file for ".toList ++ zn,
       "; Generated by NDash on ".toList ++ dt,
       [],
       "$TTL ".toList ++ natToStr (orFalsy o.ttl 3600),
       "@       IN      SOA     ".toList ++ genNS zn o ++ [' '] ++ genEmail zn o ++
         [' ', '('],
       "                        ".toList ++ (ser ++ "       ; Serial".toList),
       "                        7200            ; Refresh".toList,
       "                        3600            ; Retry".toList,
       "                        1209600         ; Expire".toList,
       "                        3600 )          ; Minimum TTL".toList,
       [],
       "; Name servers".toList,
       "@       IN      NS      ".toList ++ genNS zn o,
       genNS zn o ++ ("   IN      A       ".toList ++ genNsIP zn o),
       [],
       "; PTR records (auto-generated)".toList,
       "; Format: <last-octet> IN PTR <hostname>.<domain>".toList] ++
        (List.range' 1 254).map (ptrLine (genDomainForPTR zn o))) ++ [[]] := by
    rw [generateZoneFile_reverse_shape zn dt ser o hrev hauto]
    refine splitLines_flatten_nil _ ?_
    intro l hl
    rcases List.mem_append.mp hl with hl | hl
    · simp only [List.mem_cons, List.not_mem_nil, or_false] at hl
      rcases hl with rfl|rfl|rfl|rfl|rfl|rfl|rfl|rfl|rfl|rfl|rfl|rfl|rfl|rfl|rfl|rfl|rfl
      · intro hm
        rcases List.mem_append.mp hm with h | h
        · exact absurd h (by decide)
        · exact hznl h
      · intro hm
        rcases List.mem_append.mp hm with h | h
        · exact absurd h (by decide)
        · exact hdtl h
      · simp
      · intro hm
        rcases List.mem_append.mp hm with h | h
        · exact absurd h (by decide)
        · exact nonws_no_nl _ (digits_all_nonws _ (digitsOf_all _)) h
      · intro hm
        rcases List.mem_append.mp hm with h | h
        on_goal 2 => exact absurd h (by decide)
        rcases List.mem_append.mp h with h | h
        on_goal 2 => exact heml h
        rcases List.mem_append.mp h with h | h
        on_goal 2 => exact absurd h (by decide)
        rcases List.mem_append.mp h with h | h
        · exact absurd h (by decide)
        · exact nonws_no_nl _ hnsw h
      · intro hm
        rcases List.mem_append.mp hm with h | h
        · exact absurd h (by decide)
        rcases List.mem_append.mp h with h | h
        · exact nonws_no_nl _ (digits_all_nonws _ hsd) h
        · exact absurd h (by decide)
      · decide
      · decide
      · decide
      · decide
      · simp
      · decide
      · intro hm
        rcases List.mem_append.mp hm with h | h
        · exact absurd h (by decide)
        · exact nonws_no_nl _ hnsw h
      · intro hm
        rcases List.mem_append.mp hm with h | h
        · exact nonws_no_nl _ hnsw h
        rcases List.mem_append.mp h with h | h
        · exact absurd h (by decide)
        · exact nonws_no_nl _ hipw h
      · simp
      · decide
      · decide
    · obtain ⟨i, -, rfl⟩ := List.mem_map.mp hl
      exact ptrLine_no_nl _ i hdw
  have hE : ([([] : Str)].filterMap parseLineRec) = [] := by
    rw [List.filterMap_cons, show parseLineRec [] = none from rfl, List.filterMap_nil]
  have hM : ((List.range' 1 254).map (ptrLine (genDomainForPTR zn o))).filterMap
      parseLineRec = (List.range' 1 254).map (fun i =>
        ((natToStr i : Str), "PTR".toList,
          "host".toList ++ (natToStr i ++ ('.' :: genDomainForPTR zn o)), 3600)) := by
    rw [List.filterMap_map]
    exact filterMap_all_some _ _ _ (fun i _ => parse_ptr_line _ i hdw hDne hdS)
  have hF : ∀ q ∈ ((["; Zone file for ".toList ++ zn,
       "; Generated by NDash on ".toList ++ dt,
       [],
       "$TTL ".toList ++ natToStr (orFalsy o.ttl 3600),
       "@       IN      SOA     ".toList ++ genNS zn o ++ [' '] ++ genEmail zn o ++
         [' ', '('],
       "                        ".toList ++ (ser ++ "       ; Serial".toList),
       "                        7200            ; Refresh".toList,
       "                        3600            ; Retry".toList,
       "                        1209600         ; Expire".toList,
       "                        3600 )          ; Minimum TTL".toList,
       [],
       "; Name servers".toList,
       "@       IN      NS      ".toList ++ genNS zn o,
       genNS zn o ++ ("   IN      A       ".toList ++ genNsIP zn o),
       [],
       "; PTR records (auto-generated)".toList,
       "; Format: <last-octet> IN PTR <hostname>.<domain>".toList] : List Str).filterMap parseLineRec),
      decide (q.2.1 = "PTR".toList) = false := by
    intro q hq
    obtain ⟨l, hl, hpl⟩ := List.mem_filterMap.mp hq
    simp only [List.mem_cons, List.not_mem_nil, or_false] at hl
    rcases hl with rfl|rfl|rfl|rfl|rfl|rfl|rfl|rfl|rfl|rfl|rfl|rfl|rfl|rfl|rfl|rfl|rfl
    · rw [show ("; Zone file for ".toList ++ zn : Str) =
        ';' :: (" Zone file for ".toList ++ zn) from rfl,
        parse_skip_head ';' _ (by decide) (Or.inl rfl)] at hpl
      exact absurd hpl (by simp)
    · rw [show ("; Generated by NDash on ".toList ++ dt : Str) =
        ';' :: (" Generated by NDash on ".toList ++ dt) from rfl,
        parse_skip_head ';' _ (by decide) (Or.inl rfl)] at hpl
      exact absurd hpl (by simp)
    · rw [show parseLineRec ([] : Str) = none from rfl] at hpl
      exact absurd hpl (by simp)
    · rw [show ("$TTL ".toList ++ natToStr (orFalsy o.ttl 3600) : Str) =
        '$' :: ("TTL ".toList ++ natToStr (orFalsy o.ttl 3600)) from rfl,
        parse_skip_head '$' _ (by decide) (Or.inr rfl)] at hpl
      exact absurd hpl (by simp)
    · rw [parse_soa_header (genNS zn o) (genEmail zn o)] at hpl
      exact absurd hpl (by simp)
    · rw [parse_serial_line ser hsd hsne] at hpl
      exact absurd hpl (by simp)
    · rw [show parseLineRec "                        7200            ; Refresh".toList =
        none from by decide] at hpl
      exact absurd hpl (by simp)
    · rw [show parseLineRec "                        3600            ; Retry".toList =
        none from by decide] at hpl
      exact absurd hpl (by simp)
    · rw [show parseLineRec "                        1209600         ; Expire".toList =
        none from by decide] at hpl
      exact absurd hpl (by simp)
    · rw [show parseLineRec
        "                        3600 )          ; Minimum TTL".toList =
        none from by decide] at hpl
      exact absurd hpl (by simp)
    · rw [show parseLineRec ([] : Str) = none from rfl] at hpl
      exact absurd hpl (by simp)
    · rw [show parseLineRec "; Name servers".toList = none from by decide] at hpl
      exact absurd hpl (by simp)
    · exact decide_eq_false (parse_ns_line (genNS zn o) _ hnsx hnsw q hpl)
    · exact decide_eq_false
        (parse_glue_line (genNS zn o) (genNsIP zn o) _ hnsx hnsw hipw hipne q hpl)
    · rw [show parseLineRec ([] : Str) = none from rfl] at hpl
      exact absurd hpl (by simp)
    · rw [show parseLineRec "; PTR records (auto-generated)".toList = none
        from by decide] at hpl
      exact absurd hpl (by simp)
    · rw [show parseLineRec
        "; Format: <last-octet> IN PTR <hostname>.<domain>".toList = none
        from by decide] at hpl
      exact absurd hpl (by simp)
  have hPZ : parseZoneFile (generateZoneFile zn dt ser o) =
      numberFrom 1 (((["; Zone file for ".toList ++ zn,
       "; Generated by NDash on ".toList ++ dt,
       [],
       "$TTL ".toList ++ natToStr (orFalsy o.ttl 3600),
       "@       IN      SOA     ".toList ++ genNS zn o ++ [' '] ++ genEmail zn o ++
         [' ', '('],
       "                        ".toList ++ (ser ++ "       ; Serial".toList),
       "                        7200            ; Refresh".toList,
       "                        3600            ; Retry".toList,
       "                        1209600         ; Expire".toList,
       "                        3600 )          ; Minimum TTL".toList,
       [],
       "; Name servers".toList,
       "@       IN      NS      ".toList ++ genNS zn o,
       genNS zn o ++ ("   IN      A       ".toList ++ genNsIP zn o),
       [],
       "; PTR records (auto-generated)".toList,
       "; Format: <last-octet> IN PTR <hostname>.<domain>".toList] : List Str).filterMap parseLineRec) ++
        (List.range' 1 254).map (fun i =>
        ((natToStr i : Str), "PTR".toList,
          "host".toList ++ (natToStr i ++ ('.' :: genDomainForPTR zn o)), 3600))) := by
    unfold parseZoneFile
    rw [hsplit, List.filterMap_append, List.filterMap_append, hE, hM, List.append_nil]
  have hall : ∀ q ∈ (List.range' 1 254).map (fun i =>
        ((natToStr i : Str), "PTR".toList,
          "host".toList ++ (natToStr i ++ ('.' :: genDomainForPTR zn o)), 3600)),
      decide (q.2.1 = "PTR".toList) = true := by
    intro q hq
    obtain ⟨i, -, rfl⟩ := List.mem_map.mp hq
    simp
  have hmain : ((parseZoneFile (generateZoneFile zn dt ser o)).filter
      (fun r => decide (r.rtype = "PTR".toList))).map (fun r => (r.name, r.value)) =
      (List.range' 1 254).map (fun i =>
        ((natToStr i : Str),
          "host".toList ++ (natToStr i ++ ('.' :: genDomainForPTR zn o)))) := by
    rw [hPZ, numberFrom_filter_map, List.filter_append, filter_none _ _ hF,
      List.nil_append, filter_all _ _ hall, List.map_map]
    simp [Function.comp_def]
  refine ⟨hmain, ?_⟩
  have hlen := congrArg List.length hmain
  simp only [List.length_map] at hlen
  rw [hlen]
  simp

theorem C8_reverse_zone_ptr_witness :
    containsSub "in-addr.arpa".toList "in-addr.arpa".toList = true ∧
    ((parseZoneFile (generateZoneFile "in-addr.arpa".toList [] "1".toList
        ⟨none, some "n".toList, some "e".toList, some "d".toList, some "9".toList,
          none, none⟩)).filter
      (fun r => decide (r.rtype = "PTR".toList))).length = 254 :=
  ⟨by decide, (C8_reverse_zone_ptr "in-addr.arpa".toList [] "1".toList
    ⟨none, some "n".toList, some "e".toList, some "d".toList, some "9".toList,
      none, none⟩
    (by decide) (by decide) (by decide) (by decide) (by decide) (by decide)
    (by decide) (by decide) (by decide) (by decide) (by decide) (by decide)).2⟩

/-- C7: when the zone header for the name occurs but no matching closing brace
is found before end-of-text, `removeZoneFromConfigContent` performs no partial
edit and returns the input unchanged; likewise when the `zone "<name>"`
keyword/name pair does not occur at all (and also when no open brace follows
the match). -/
theorem C7_remove_malformed_unchanged (content name : Str)
    (h : findZone name none content = none ∨
      ∃ b m, findZone name none content = some (b, m) ∧
        (splitAtBrace m = none ∨
          ∃ pre ab, splitAtBrace m = some (pre, ab) ∧ scanBody ab 1 = none)) :
    removeZoneFromConfigContent content name = content := by
  unfold removeZoneFromConfigContent
  rcases h with h | ⟨b, m, h1, h2⟩
  · rw [h]
  · rw [h1]
    dsimp only
    rcases h2 with h2 | ⟨pre, ab, h2, h3⟩
    · rw [h2]
    · rw [h2]
      dsimp only
      rw [h3]

theorem C7_remove_malformed_unchanged_witness :
    removeZoneFromConfigContent "zone \x22a\x22 \x7b\n    type master;\n".toList
        "a".toList = "zone \x22a\x22 \x7b\n    type master;\n".toList ∧
    removeZoneFromConfigContent "acl \x22x\x22;\n".toList "a".toList =
      "acl \x22x\x22;\n".toList :=
  ⟨C7_remove_malformed_unchanged _ _
    (Or.inr ⟨[], "zone \x22a\x22 \x7b\n    type master;\n".toList, by decide,
      Or.inr ⟨"zone \x22a\x22 ".toList, "\n    type master;\n".toList, by decide,
        by decide⟩⟩),
   C7_remove_malformed_unchanged _ _ (Or.inl (by decide))⟩

/-! ## Structure of a `zone "<name>"` match -/

theorem matchName_drop : ∀ (name s r : Str), matchName name s = some r →
    s = s.take name.length ++ r ∧ (s.take name.length).length = name.length
  | [], s, r, h => by
    rw [matchName] at h
    obtain rfl := Option.some.inj h
    simp
  | p :: ps, [], r, h => by rw [matchName] at h; exact absurd h (by simp)
  | p :: ps, c :: t, r, h => by
    rw [matchName] at h
    by_cases hc : nameCharMatch p c = true
    · rw [if_pos hc] at h
      obtain ⟨h1, h2⟩ := matchName_drop ps t r h
      constructor
      · rw [List.length_cons, List.take_succ_cons, List.cons_append, ← h1]
      · rw [List.length_cons, List.take_succ_cons, List.length_cons, h2]
    · rw [if_neg hc] at h
      exact absurd h (by simp)

theorem matchName_swap : ∀ (name q r r2 : Str), q.length = name.length →
    matchName name (q ++ r) = some r → matchName name (q ++ r2) = some r2
  | [], q, r, r2, hlen, h => by
    have hq : q = [] := List.length_eq_zero.mp hlen
    subst hq
    rfl
  | p :: ps, [], r, r2, hlen, h => by simp at hlen
  | p :: ps, c :: q, r, r2, hlen, h => by
    rw [List.cons_append, matchName] at h
    rw [List.cons_append, matchName]
    by_cases hc : nameCharMatch p c = true
    · rw [if_pos hc] at h ⊢
      exact matchName_swap ps q r r2 (by simpa using hlen) h
    · rw [if_neg hc] at h
      exact absurd h (by simp)

theorem matchZoneCore_some (name s : Str) (h : matchZoneCore name s = true) :
    ∃ z c wt q rest, s = z ++ ((c :: wt) ++ ('"' :: (q ++ '"' :: rest))) ∧
      ciMatch "zone".toList z = true ∧ isWsChar c = true ∧ wt.all isWsChar = true ∧
      q.length = name.length ∧
      matchName name (q ++ '"' :: rest) = some ('"' :: rest) := by
  unfold matchZoneCore at h
  split at h
  · exact absurd h (by simp)
  · exact absurd h (by simp)
  · rename_i c r1 he
    split at h
    · rename_i hc
      split at h
      · exact absurd h (by simp)
      · rename_i d r3 hd
        split at h
        · rename_i hdq
          subst hdq
          split at h
          · exact absurd h (by simp)
          · exact absurd h (by simp)
          · rename_i e rest hm
            have he' : e = '"' := by simpa using h
            subst he'
            obtain ⟨a, hsa, hcm⟩ := eatCI_some "zone".toList s (c :: r1) he
            obtain ⟨hr3, hlen⟩ := matchName_drop name r3 ('"' :: rest) hm
            refine ⟨a, c, r1.takeWhile isWsChar, r3.take name.length, rest, ?_, hcm, hc,
              List.all_takeWhile, hlen, ?_⟩
            · rw [hsa]
              have hr1 : r1 = r1.takeWhile isWsChar ++ ('"' :: r3) := by
                rw [← hd, List.takeWhile_append_dropWhile]
              rw [show (c :: r1 : Str) = c :: (r1.takeWhile isWsChar ++
                ('"' :: r3)) from by rw [← hr1]]
              rw [show (r3 : Str) = r3.take name.length ++ '"' :: rest from hr3]
              simp
              exact (List.take_left' hlen).symm
            · rw [← hr3]
              exact hm
        · exact absurd h (by simp)
    · exact absurd h (by simp)

theorem matchZoneCore_build (name z q rest rest2 : Str) (c : Char) (wt : Str)
    (hz : ciMatch "zone".toList z = true) (hc : isWsChar c = true)
    (hwt : wt.all isWsChar = true)
    (hmn : matchName name (q ++ '"' :: rest) = some ('"' :: rest))
    (hlen : q.length = name.length) :
    matchZoneCore name (z ++ ((c :: wt) ++ ('"' :: (q ++ '"' :: rest2)))) = true := by
  unfold matchZoneCore
  rw [eatCI_of_ciMatch "zone".toList z _ hz]
  rw [show ((c :: wt) ++ ('"' :: (q ++ '"' :: rest2)) : Str) =
    c :: (wt ++ ('"' :: (q ++ '"' :: rest2))) from rfl]
  dsimp only
  rw [if_pos hc]
  rw [dropWhile_app wt '"' _ hwt (by decide)]
  dsimp only
  rw [if_pos rfl]
  rw [matchName_swap name q ('"' :: rest) ('"' :: rest2) hlen hmn]
  rfl

/-! ## Characterizing a failed zone search -/

/-- The character preceding a position reached after consuming `b`, starting
from preceding character `prev`. -/
def prevOf (prev : Option Char) (b : Str) : Option Char :=
  match b.getLast? with
  | none => prev
  | some c => some c

theorem prevOf_cons (prev : Option Char) (c : Char) (b : Str) :
    prevOf prev (c :: b) = prevOf (some c) b := by
  cases b with
  | nil => rfl
  | cons d u =>
    unfold prevOf
    rw [List.getLast?_cons_cons]
    cases hg : (d :: u).getLast? with
    | some v => rfl
    | none => exact absurd hg (by simp)

theorem findZone_none_iff (name : Str) : ∀ (s : Str) (prev : Option Char),
    findZone name prev s = none ↔
    ∀ b m, s = b ++ m → (boundaryOk (prevOf prev b) && matchZoneCore name m) = false
  | [], prev => by
    constructor
    · intro _ b m hbm
      obtain ⟨rfl, rfl⟩ := List.append_eq_nil.mp hbm.symm
      rw [show matchZoneCore name [] = false from rfl]
      simp
    · intro _
      rfl
  | c :: t, prev => by
    cases hmc : boundaryOk prev && matchZoneCore name (c :: t) with
    | true =>
      constructor
      · intro h
        rw [findZone, if_pos hmc] at h
        exact absurd h (by simp)
      · intro hR
        exact absurd (hR [] (c :: t) rfl) (by rw [show prevOf prev [] = prev from rfl, hmc]; simp)
    | false =>
      have hstep : findZone name prev (c :: t) = none ↔
          findZone name (some c) t = none := by
        rw [findZone, if_neg (by simp [hmc])]
        cases hrec : findZone name (some c) t with
        | none => simp
        | some p => cases p with | mk b m => simp
      rw [hstep, findZone_none_iff name t (some c)]
      constructor
      · intro h b m hbm
        cases b with
        | nil =>
          simp only [List.nil_append] at hbm
          rw [show prevOf prev [] = prev from rfl, ← hbm, hmc]
        | cons c' b' =>
          obtain ⟨rfl, ht⟩ : c = c' ∧ t = b' ++ m := by
            rw [List.cons_append] at hbm
            exact ⟨List.head_eq_of_cons_eq hbm, List.tail_eq_of_cons_eq hbm⟩
          rw [prevOf_cons]
          exact h b' m ht
      · intro h b m hbm
        have := h (c :: b) m (by rw [hbm, List.cons_append])
        rwa [prevOf_cons] at this

/-! ## The blank-line collapse is the identity on triple-newline-free text -/

theorem containsSub_tail (c : Char) (t p : Str) (h : containsSub (c :: t) p = false) :
    containsSub t p = false := by
  rw [containsSub, Bool.or_eq_false_iff] at h
  exact h.2

theorem containsSub_of_prefix (p s : Str) (h : p.isPrefixOf s = true) :
    containsSub s p = true := by
  cases s with
  | nil => rw [containsSub]; exact h
  | cons c t => rw [containsSub, h]; rfl

theorem headrun_le (s : Str) (h3 : containsSub s ('\n' :: '\n' :: ['\n']) = false) :
    (s.takeWhile (fun c => c = '\n')).length ≤ 2 := by
  by_contra hgt
  push_neg at hgt
  have hall : ∀ x ∈ s.takeWhile (fun c => c = '\n'), x = '\n' := fun x hx => by
    have := List.mem_takeWhile_imp hx
    simpa using this
  have hrep : s.takeWhile (fun c => c = '\n') =
      List.replicate (s.takeWhile (fun c => c = '\n')).length '\n' :=
    List.eq_replicate_of_mem hall
  have hpre : (('\n' :: '\n' :: ['\n']) : Str) <+: s.takeWhile (fun c => c = '\n') := by
    rw [hrep]
    rw [show List.replicate (s.takeWhile (fun c => c = '\n')).length '\n' =
      List.replicate 3 '\n' ++
        List.replicate ((s.takeWhile (fun c => c = '\n')).length - 3) '\n' from by
      rw [← List.replicate_add]
      congr 1
      omega]
    rw [show List.replicate 3 '\n' = ('\n' :: '\n' :: ['\n'] : Str) from rfl]
    exact ⟨_, rfl⟩
  have hc := containsSub_of_prefix _ s
    (List.isPrefixOf_iff_prefix.mpr (hpre.trans (List.takeWhile_prefix _)))
  rw [h3] at hc
  exact absurd hc (by simp)

theorem collapseNlGo_id : ∀ (s : Str) (k : Nat),
    k + (s.takeWhile (fun c => c = '\n')).length ≤ 2 →
    containsSub s ('\n' :: '\n' :: ['\n']) = false →
    collapseNlGo k s = List.replicate k '\n' ++ s
  | [], k, hk, _ => by
    rw [collapseNlGo]
    unfold emitRun
    rw [if_neg (by omega)]
    simp
  | c :: t, k, hk, h3 => by
    rw [collapseNlGo]
    by_cases hc : c = '\n'
    · rw [if_pos hc]
      subst hc
      have htk : k + 1 + (t.takeWhile (fun c => c = '\n')).length ≤ 2 := by
        rw [List.takeWhile_cons, if_pos (by decide)] at hk
        simp only [List.length_cons] at hk
        omega
      rw [collapseNlGo_id t (k + 1) htk (containsSub_tail _ _ _ h3)]
      rw [show List.replicate (k + 1) '\n' = List.replicate k '\n' ++ ['\n'] from
        List.replicate_succ' k '\n']
      simp
    · rw [if_neg hc]
      have hk2 : k ≤ 2 := by
        rw [List.takeWhile_cons, if_neg (by simpa using hc)] at hk
        simpa using hk
      rw [collapseNlGo_id t 0
        (by simpa using headrun_le t (containsSub_tail _ _ _ h3))
        (containsSub_tail _ _ _ h3)]
      unfold emitRun
      rw [if_neg (by omega)]
      simp

theorem collapseNl_id (s : Str) (h3 : containsSub s ('\n' :: '\n' :: ['\n']) = false) :
    collapseNl s = s := by
  unfold collapseNl
  rw [collapseNlGo_id s 0 (by simpa using headrun_le s h3) h3]
  simp

/-! ## Whitespace facts for the trim transfer -/

theorem ws_not_word (c : Char) (h : isWsChar c = true) : isWordChar c = false := by
  rcases ws_cases c h with rfl | rfl | rfl | rfl | rfl | rfl <;> decide

theorem trim_full (s : Str) : ∃ u v, s = u ++ trimStr s ++ v ∧
    u.all isWsChar = true ∧ v.all isWsChar = true := by
  obtain ⟨v, hv, hva⟩ := trim_decomp s
  refine ⟨s.takeWhile isWsChar, v, ?_, List.all_takeWhile, hva⟩
  conv_lhs => rw [← List.takeWhile_append_dropWhile (p := isWsChar) (l := s)]
  rw [hv]
  simp

/-! ## Structure lemmas for the insertion scanners -/

theorem zoneBlockFor_decomp (name file : Str) :
    zoneBlockFor name file = "zone \x22".toList ++ (name ++ '\x22' :: zbTail file) := by
  unfold zoneBlockFor zbTail
  simp

theorem splitAtSub_some : ∀ (pat s b m : Str), splitAtSub pat s = some (b, m) →
    s = b ++ m ∧ pat.isPrefixOf m = true
  | pat, [], b, m, h => by
    rw [splitAtSub] at h
    by_cases hp : pat.isPrefixOf ([] : Str) = true
    · rw [if_pos hp] at h
      obtain ⟨rfl, rfl⟩ : b = [] ∧ m = [] := by
        have := Option.some.inj h
        exact ⟨(congrArg Prod.fst this).symm, (congrArg Prod.snd this).symm⟩
      exact ⟨rfl, hp⟩
    · rw [if_neg hp] at h
      exact absurd h (by simp)
  | pat, c :: t, b, m, h => by
    rw [splitAtSub] at h
    by_cases hp : pat.isPrefixOf (c :: t) = true
    · rw [if_pos hp] at h
      obtain ⟨rfl, rfl⟩ : b = [] ∧ m = c :: t := by
        have := Option.some.inj h
        exact ⟨(congrArg Prod.fst this).symm, (congrArg Prod.snd this).symm⟩
      exact ⟨rfl, hp⟩
    · rw [if_neg hp] at h
      cases hrec : splitAtSub pat t with
      | none => rw [hrec] at h; exact absurd h (by simp)
      | some p =>
        obtain ⟨b0, m0⟩ := p
        rw [hrec] at h
        dsimp only at h
        obtain ⟨rfl, rfl⟩ : b = c :: b0 ∧ m = m0 := by
          have := Option.some.inj h
          exact ⟨(congrArg Prod.fst this).symm, (congrArg Prod.snd this).symm⟩
        obtain ⟨ht, hpm⟩ := splitAtSub_some pat t b0 m hrec
        exact ⟨by rw [List.cons_append, ← ht], hpm⟩

theorem splitAtBrace_some : ∀ (m p a : Str), splitAtBrace m = some (p, a) →
    m = p ++ '\x7b' :: a ∧ '\x7b' ∉ p
  | [], p, a, h => by rw [splitAtBrace] at h; exact absurd h (by simp)
  | c :: t, p, a, h => by
    rw [splitAtBrace] at h
    by_cases hc : c = '\x7b'
    · rw [if_pos hc] at h
      obtain ⟨rfl, rfl⟩ : p = [] ∧ a = t := by
        have := Option.some.inj h
        exact ⟨(congrArg Prod.fst this).symm, (congrArg Prod.snd this).symm⟩
      subst hc
      exact ⟨rfl, by simp⟩
    · rw [if_neg hc] at h
      cases hrec : splitAtBrace t with
      | none => rw [hrec] at h; exact absurd h (by simp)
      | some q =>
        obtain ⟨p0, a0⟩ := q
        rw [hrec] at h
        dsimp only at h
        obtain ⟨rfl, rfl⟩ : p = c :: p0 ∧ a = a0 := by
          have := Option.some.inj h
          exact ⟨(congrArg Prod.fst this).symm, (congrArg Prod.snd this).symm⟩
        obtain ⟨ht, hnp⟩ := splitAtBrace_some t p0 a hrec
        refine ⟨by rw [List.cons_append, ← ht], ?_⟩
        intro hm
        rcases List.mem_cons.mp hm with h1 | h1
        · exact hc h1.symm
        · exact hnp h1

theorem splitAtBrace_app : ∀ (x y : Str), '\x7b' ∉ x →
    splitAtBrace (x ++ '\x7b' :: y) = some (x, y)
  | [], y, _ => by rw [List.nil_append, splitAtBrace, if_pos rfl]
  | c :: t, y, h => by
    rw [List.cons_append, splitAtBrace,
      if_neg (fun hc => h (by rw [hc]; simp)),
      splitAtBrace_app t y (fun hm => h (by simp [hm]))]

theorem depthRun_append (x : Str) (d e : Nat) (hx : depthRun x d = some e) (y : Str) :
    depthRun (x ++ y) d = depthRun y e := by
  induction x generalizing d with
  | nil =>
    rw [depthRun] at hx
    obtain rfl := Option.some.inj hx
    rfl
  | cons c t ih =>
    rw [depthRun] at hx
    rw [List.cons_append, depthRun]
    by_cases h1 : c = '\x7b'
    · rw [if_pos h1] at hx ⊢
      exact ih _ hx
    · rw [if_neg h1] at hx ⊢
      by_cases h2 : c = '\x7d'
      · rw [if_pos h2] at hx ⊢
        by_cases h3 : d = 1
        · rw [if_pos h3] at hx; exact absurd hx (by simp)
        · rw [if_neg h3] at hx ⊢
          exact ih _ hx
      · rw [if_neg h2] at hx ⊢
        exact ih _ hx

theorem depthRun_free (x : Str) (h1 : '\x7b' ∉ x) (h2 : '\x7d' ∉ x) (d : Nat) :
    depthRun x d = some d := by
  induction x with
  | nil => rfl
  | cons c t ih =>
    rw [depthRun, if_neg (fun hc => h1 (by rw [hc]; simp)),
      if_neg (fun hc => h2 (by rw [hc]; simp))]
    exact ih (fun hm => h1 (by simp [hm])) (fun hm => h2 (by simp [hm]))

theorem scanBody_after (x : Str) (d e : Nat) (hx : depthRun x d = some e) (y : Str) :
    scanBody (x ++ y) d = match scanBody y e with
      | none => none
      | some (b, r) => some (x ++ b, r) := by
  induction x generalizing d with
  | nil =>
    rw [depthRun] at hx
    obtain rfl := Option.some.inj hx
    rw [List.nil_append]
    cases scanBody y d with
    | none => rfl
    | some p => cases p with | mk b r => rfl
  | cons c t ih =>
    rw [depthRun] at hx
    rw [List.cons_append, scanBody]
    by_cases h1 : c = '\x7b'
    · rw [if_pos h1] at hx ⊢
      rw [ih _ hx]
      cases scanBody y e with
      | none => rfl
      | some p => cases p with | mk b r => rfl
    · rw [if_neg h1] at hx ⊢
      by_cases h2 : c = '\x7d'
      · rw [if_pos h2] at hx ⊢
        by_cases h3 : d = 1
        · rw [if_pos h3] at hx; exact absurd hx (by simp)
        · rw [if_neg h3] at hx ⊢
          rw [ih _ hx]
          cases scanBody y e with
          | none => rfl
          | some p => cases p with | mk b r => rfl
      · rw [if_neg h2] at hx ⊢
        rw [ih _ hx]
        cases scanBody y e with
        | none => rfl
        | some p => cases p with | mk b r => rfl

theorem scanBody_some : ∀ (ab : Str) (d : Nat) (bd r : Str),
    scanBody ab d = some (bd, r) → ab = bd ++ '\x7d' :: r ∧ depthRun bd d = some 1
  | [], d, bd, r, h => by rw [scanBody] at h; exact absurd h (by simp)
  | c :: t, d, bd, r, h => by
    rw [scanBody] at h
    by_cases h1 : c = '\x7b'
    · rw [if_pos h1] at h
      cases hrec : scanBody t (d + 1) with
      | none => rw [hrec] at h; exact absurd h (by simp)
      | some p =>
        obtain ⟨b0, r0⟩ := p
        rw [hrec] at h
        dsimp only at h
        obtain ⟨rfl, rfl⟩ : bd = c :: b0 ∧ r = r0 := by
          have := Option.some.inj h
          exact ⟨(congrArg Prod.fst this).symm, (congrArg Prod.snd this).symm⟩
        obtain ⟨ht, hd⟩ := scanBody_some t (d + 1) b0 r hrec
        refine ⟨by rw [List.cons_append, ← ht], ?_⟩
        rw [depthRun, if_pos h1]
        exact hd
    · rw [if_neg h1] at h
      by_cases h2 : c = '\x7d'
      · rw [if_pos h2] at h
        by_cases h3 : d = 1
        · rw [if_pos h3] at h
          obtain ⟨rfl, rfl⟩ : bd = [] ∧ r = t := by
            have := Option.some.inj h
            exact ⟨(congrArg Prod.fst this).symm, (congrArg Prod.snd this).symm⟩
          subst h2
          exact ⟨by simp, by rw [depthRun]; exact congrArg some h3⟩
        · rw [if_neg h3] at h
          cases hrec : scanBody t (d - 1) with
          | none => rw [hrec] at h; exact absurd h (by simp)
          | some p =>
            obtain ⟨b0, r0⟩ := p
            rw [hrec] at h
            dsimp only at h
            obtain ⟨rfl, rfl⟩ : bd = c :: b0 ∧ r = r0 := by
              have := Option.some.inj h
              exact ⟨(congrArg Prod.fst this).symm, (congrArg Prod.snd this).symm⟩
            obtain ⟨ht, hd⟩ := scanBody_some t (d - 1) b0 r hrec
            refine ⟨by rw [List.cons_append, ← ht], ?_⟩
            rw [depthRun, if_neg h1, if_pos h2, if_neg h3]
            exact hd
      · rw [if_neg h2] at h
        cases hrec : scanBody t d with
        | none => rw [hrec] at h; exact absurd h (by simp)
        | some p =>
          obtain ⟨b0, r0⟩ := p
          rw [hrec] at h
          dsimp only at h
          obtain ⟨rfl, rfl⟩ : bd = c :: b0 ∧ r = r0 := by
            have := Option.some.inj h
            exact ⟨(congrArg Prod.fst this).symm, (congrArg Prod.snd this).symm⟩
          obtain ⟨ht, hd⟩ := scanBody_some t d b0 r hrec
          refine ⟨by rw [List.cons_append, ← ht], ?_⟩
          rw [depthRun, if_neg h1, if_neg h2]
          exact hd

theorem matchName_self : ∀ (name rest : Str), matchName name (name ++ rest) = some rest
  | [], rest => rfl
  | p :: ps, rest => by
    rw [List.cons_append, matchName, if_pos ?_]
    · exact matchName_self ps rest
    · unfold nameCharMatch
      by_cases hp : p = '.'
      · subst hp
        simp
      · rw [Bool.or_eq_true]
        right
        simp

theorem matchZone_at_block (name rest : Str) :
    matchZoneCore name ("zone \x22".toList ++ (name ++ '\x22' :: rest)) = true := by
  unfold matchZoneCore
  rw [show ("zone \x22".toList ++ (name ++ '\x22' :: rest) : Str) =
    "zone".toList ++ (' ' :: ('\x22' :: (name ++ '\x22' :: rest))) from by simp]
  rw [eatCI_of_ciMatch "zone".toList "zone".toList _ (by decide)]
  dsimp only
  rw [if_pos (by decide)]
  rw [show List.dropWhile isWsChar ('\x22' :: (name ++ '\x22' :: rest)) =
    '\x22' :: (name ++ '\x22' :: rest) from by
    rw [List.dropWhile_cons, if_neg (by decide)]]
  dsimp only
  rw [if_pos rfl]
  rw [matchName_self name ('\x22' :: rest)]
  rfl

theorem findZone_build (name : Str) : ∀ (b : Str) (prev : Option Char) (t : Str),
    noMatchWithTail name prev b t = true →
    (boundaryOk (prevOf prev b) && matchZoneCore name t) = true → t ≠ [] →
    findZone name prev (b ++ t) = some (b, t)
  | [], prev, t, _, hm, htne => by
    cases t with
    | nil => exact absurd rfl htne
    | cons c t' =>
      have hm' : (boundaryOk prev && matchZoneCore name (c :: t')) = true := hm
      rw [List.nil_append, findZone, if_pos hm']
  | c :: b', prev, t, hnm, hm, htne => by
    rw [noMatchWithTail, Bool.and_eq_true] at hnm
    obtain ⟨hhead, hrest⟩ := hnm
    rw [List.cons_append, findZone]
    rw [if_neg ?_]
    · rw [findZone_build name b' (some c) t hrest (by rwa [prevOf_cons] at hm) htne]
    · intro hcontra
      rw [List.cons_append] at hhead
      rw [hcontra] at hhead
      exact absurd hhead (by simp)

theorem get?_mem_of (l : Str) (i : Nat) (c : Char) (h : l.get? i = some c) : c ∈ l := by
  induction l generalizing i with
  | nil => simp [List.get?] at h
  | cons a t ih =>
    cases i with
    | zero =>
      rw [show (a :: t : Str).get? 0 = some a from rfl] at h
      rw [← Option.some.inj h]
      simp
    | succ j =>
      rw [show (a :: t : Str).get? (j + 1) = t.get? j from rfl] at h
      exact List.mem_cons_of_mem a (ih j h)

/-- A brace-free pattern that is a prefix of `p ++ '\x7b' :: a` with brace-free
`p` is already a prefix of `p`. -/
theorem prefix_stop_brace (pat p a : Str) (hpre : pat.isPrefixOf (p ++ '\x7b' :: a) = true)
    (hbp : '\x7b' ∉ pat) : pat.isPrefixOf p = true := by
  obtain ⟨t, ht⟩ := List.isPrefixOf_iff_prefix.mp hpre
  rcases le_or_lt pat.length p.length with hle | hlt
  · refine List.isPrefixOf_iff_prefix.mpr ?_
    have htake : (p ++ '\x7b' :: a).take pat.length = p.take pat.length := by
      rw [List.take_append_eq_append_take,
        show pat.length - p.length = 0 from by omega]
      simp
    have hpat : pat = (p ++ '\x7b' :: a).take pat.length := by
      rw [← ht, List.take_append_eq_append_take, List.take_length,
        show pat.length - pat.length = 0 from by omega]
      simp
    rw [hpat, htake]
    exact List.take_prefix _ _
  · exfalso
    have hg1 : (p ++ '\x7b' :: a).get? p.length = some '\x7b' := get?_append_mid p '\x7b' a
    have hg2 : (pat ++ t).get? p.length = pat.get? p.length := get?_append_left _ _ _ hlt
    rw [ht, hg1] at hg2
    exact hbp (get?_mem_of pat p.length '\x7b' hg2.symm)

/-! ## Scanning the zone block template -/

theorem prevOf_sep (x : Str) : prevOf none (x ++ ('\n' :: "    ".toList)) = some ' ' := by
  unfold prevOf
  rw [show (x ++ ('\n' :: "    ".toList) : Str) = (x ++ ('\n' :: "   ".toList)) ++ [' ']
    from by
      rw [show ("    ".toList : Str) = "   ".toList ++ [' '] from rfl]
      simp]
  rw [List.getLast?_concat]

theorem zbTail_decomp (file : Str) : zbTail file =
    ' ' :: '\x7b' :: ("\n    type master;\n    file \x22".toList ++ (file ++
      ("\x22;\n    allow-update ".toList ++ ('\x7b' :: (" none; ".toList ++
        ('\x7d' :: (";\n".toList ++ ('\x7d' :: ";\n".toList)))))))) := by
  unfold zbTail
  rw [show (" \x7b\n    type master;\n    file \x22".toList : Str) =
    ' ' :: '\x7b' :: "\n    type master;\n    file \x22".toList from rfl]
  rw [show ("\x22;\n    allow-update \x7b none; \x7d;\n\x7d;\n".toList : Str) =
    "\x22;\n    allow-update ".toList ++ ('\x7b' :: (" none; ".toList ++
      ('\x7d' :: (";\n".toList ++ ('\x7d' :: ";\n".toList))))) from rfl]
  simp

theorem scanBody_zb_inner (file Y : Str) (hfb : '\x7b' ∉ file) (hfb2 : '\x7d' ∉ file) :
    scanBody ("\n    type master;\n    file \x22".toList ++ (file ++
      ("\x22;\n    allow-update ".toList ++ ('\x7b' :: (" none; ".toList ++
        ('\x7d' :: (";\n".toList ++ ('\x7d' :: (";\n".toList ++ Y))))))))) 1 =
    some ("\n    type master;\n    file \x22".toList ++ (file ++
      ("\x22;\n    allow-update ".toList ++ ('\x7b' :: (" none; ".toList ++
        ('\x7d' :: ";\n".toList))))), ";\n".toList ++ Y) := by
  have f1 : scanBody ('\x7d' :: (";\n".toList ++ Y)) 1 = some ([], ";\n".toList ++ Y) := by
    rw [scanBody, if_neg (by decide), if_pos rfl, if_pos rfl]
  have f2 : scanBody (";\n".toList ++ ('\x7d' :: (";\n".toList ++ Y))) 1 =
      some (";\n".toList, ";\n".toList ++ Y) := by
    rw [scanBody_after ";\n".toList 1 1 (depthRun_free _ (by decide) (by decide) 1), f1]
    try rfl
  have f3 : scanBody ('\x7d' :: (";\n".toList ++ ('\x7d' :: (";\n".toList ++ Y)))) 2 =
      some ('\x7d' :: ";\n".toList, ";\n".toList ++ Y) := by
    rw [scanBody, if_neg (by decide), if_pos rfl, if_neg (by decide),
      show (2 : Nat) - 1 = 1 from rfl, f2]
    try rfl
  have f4 : scanBody (" none; ".toList ++ ('\x7d' :: (";\n".toList ++
      ('\x7d' :: (";\n".toList ++ Y))))) 2 =
      some (" none; ".toList ++ ('\x7d' :: ";\n".toList), ";\n".toList ++ Y) := by
    rw [scanBody_after " none; ".toList 2 2 (depthRun_free _ (by decide) (by decide) 2), f3]
    try rfl
  have f5 : scanBody ('\x7b' :: (" none; ".toList ++ ('\x7d' :: (";\n".toList ++
      ('\x7d' :: (";\n".toList ++ Y)))))) 1 =
      some ('\x7b' :: (" none; ".toList ++ ('\x7d' :: ";\n".toList)),
        ";\n".toList ++ Y) := by
    rw [scanBody, if_pos rfl, f4]
    try rfl
  have f6 : scanBody ("\x22;\n    allow-update ".toList ++ ('\x7b' ::
      (" none; ".toList ++ ('\x7d' :: (";\n".toList ++
        ('\x7d' :: (";\n".toList ++ Y))))))) 1 =
      some ("\x22;\n    allow-update ".toList ++ ('\x7b' :: (" none; ".toList ++
        ('\x7d' :: ";\n".toList))), ";\n".toList ++ Y) := by
    rw [scanBody_after "\x22;\n    allow-update ".toList 1 1
      (depthRun_free _ (by decide) (by decide) 1), f5]
    try rfl
  have f7 : scanBody (file ++ ("\x22;\n    allow-update ".toList ++ ('\x7b' ::
      (" none; ".toList ++ ('\x7d' :: (";\n".toList ++
        ('\x7d' :: (";\n".toList ++ Y)))))))) 1 =
      some (file ++ ("\x22;\n    allow-update ".toList ++ ('\x7b' ::
        (" none; ".toList ++ ('\x7d' :: ";\n".toList)))), ";\n".toList ++ Y) := by
    rw [scanBody_after file 1 1 (depthRun_free file hfb hfb2 1), f6]
    try rfl
  rw [scanBody_after "\n    type master;\n    file \x22".toList 1 1
    (depthRun_free _ (by decide) (by decide) 1), f7]
  try rfl

theorem depthRun_zbTail_app (file Y : Str) (hfb : '\x7b' ∉ file)
    (hfb2 : '\x7d' ∉ file) : depthRun (zbTail file ++ Y) 1 = depthRun Y 1 := by
  have g1 : depthRun ('\x7d' :: ";\n".toList) 2 = some 1 := by
    rw [depthRun, if_neg (by decide), if_pos rfl, if_neg (by decide),
      show (2 : Nat) - 1 = 1 from rfl]
    exact depthRun_free _ (by decide) (by decide) 1
  have g2 : depthRun (";\n".toList ++ ('\x7d' :: ";\n".toList)) 2 = some 1 := by
    rw [depthRun_append ";\n".toList 2 2 (depthRun_free _ (by decide) (by decide) 2)]
    exact g1
  have g3 : depthRun ('\x7d' :: (";\n".toList ++ ('\x7d' :: ";\n".toList))) 3 = some 1 := by
    rw [depthRun, if_neg (by decide), if_pos rfl, if_neg (by decide),
      show (3 : Nat) - 1 = 2 from rfl]
    exact g2
  have g4 : depthRun (" none; ".toList ++ ('\x7d' :: (";\n".toList ++
      ('\x7d' :: ";\n".toList)))) 3 = some 1 := by
    rw [depthRun_append " none; ".toList 3 3 (depthRun_free _ (by decide) (by decide) 3)]
    exact g3
  have g5 : depthRun ('\x7b' :: (" none; ".toList ++ ('\x7d' :: (";\n".toList ++
      ('\x7d' :: ";\n".toList))))) 2 = some 1 := by
    rw [depthRun, if_pos rfl]
    exact g4
  have g6 : depthRun ("\x22;\n    allow-update ".toList ++ ('\x7b' ::
      (" none; ".toList ++ ('\x7d' :: (";\n".toList ++ ('\x7d' :: ";\n".toList)))))) 2 =
      some 1 := by
    rw [depthRun_append "\x22;\n    allow-update ".toList 2 2
      (depthRun_free _ (by decide) (by decide) 2)]
    exact g5
  have g7 : depthRun (file ++ ("\x22;\n    allow-update ".toList ++ ('\x7b' ::
      (" none; ".toList ++ ('\x7d' :: (";\n".toList ++ ('\x7d' :: ";\n".toList))))))) 2 =
      some 1 := by
    rw [depthRun_append file 2 2 (depthRun_free file hfb hfb2 2)]
    exact g6
  have g8 : depthRun ("\n    type master;\n    file \x22".toList ++ (file ++
      ("\x22;\n    allow-update ".toList ++ ('\x7b' :: (" none; ".toList ++
        ('\x7d' :: (";\n".toList ++ ('\x7d' :: ";\n".toList)))))))) 2 = some 1 := by
    rw [depthRun_append "\n    type master;\n    file \x22".toList 2 2
      (depthRun_free _ (by decide) (by decide) 2)]
    exact g7
  have g9 : depthRun (zbTail file) 1 = some 1 := by
    rw [zbTail_decomp]
    rw [depthRun, if_neg (by decide), if_neg (by decide)]
    rw [depthRun, if_pos rfl]
    exact g8
  rw [depthRun_append (zbTail file) 1 1 g9]

theorem depthRun_zb_app (name file Y : Str) (hnb : '\x7b' ∉ name) (hnb2 : '\x7d' ∉ name)
    (hfb : '\x7b' ∉ file) (hfb2 : '\x7d' ∉ file) :
    depthRun (zoneBlockFor name file ++ Y) 1 = depthRun Y 1 := by
  rw [zoneBlockFor_decomp]
  rw [show (("zone \x22".toList ++ (name ++ '\x22' :: zbTail file)) ++ Y : Str) =
    "zone \x22".toList ++ (name ++ ('\x22' :: (zbTail file ++ Y))) from by simp]
  rw [depthRun_append "zone \x22".toList 1 1 (depthRun_free _ (by decide) (by decide) 1)]
  rw [depthRun_append name 1 1 (depthRun_free name hnb hnb2 1)]
  rw [depthRun, if_neg (by decide), if_neg (by decide)]
  exact depthRun_zbTail_app file Y hfb hfb2


/-! ## Transfer of a failed zone search through the blank-line collapse -/

theorem lower_eq_nl (p : Char) (h : lowerChar p = '\n') : p = '\n' := by
  unfold lowerChar Char.toLower at h
  dsimp only at h
  by_cases hc : p.toNat ≥ 65 ∧ p.toNat ≤ 90
  · exfalso
    rw [if_pos hc] at h
    have hv : (p.toNat + 32).isValidChar := Or.inl (by omega)
    have ht : (Char.ofNat (p.toNat + 32)).toNat = p.toNat + 32 := by
      unfold Char.ofNat
      rw [dif_pos hv]
      rfl
    have h2 := congrArg Char.toNat h
    rw [ht] at h2
    have h3 : ('\n'.toNat : Nat) = 10 := rfl
    omega
  · rw [if_neg hc] at h
    exact h

theorem emitRun_mem (k : Nat) (c : Char) (h : c ∈ emitRun k) : c = '\n' := by
  unfold emitRun at h
  split at h
  · rcases List.mem_cons.mp h with h1 | h1
    · exact h1
    · simpa using h1
  · exact List.eq_of_mem_replicate h

theorem emitRun_pos (k : Nat) (hk : 1 ≤ k) : ∃ u, emitRun k = '\n' :: u := by
  unfold emitRun
  split
  · exact ⟨['\n'], rfl⟩
  · cases k with
    | zero => omega
    | succ j => exact ⟨List.replicate j '\n', by rw [List.replicate_succ]⟩

theorem headNl : ∀ (t : Str) (k : Nat), 1 ≤ k → ∃ u, collapseNlGo k t = '\n' :: u
  | [], k, hk => by
    rw [collapseNlGo]
    exact emitRun_pos k hk
  | c :: t, k, hk => by
    rw [collapseNlGo]
    by_cases hc : c = '\n'
    · rw [if_pos hc]
      exact headNl t (k + 1) (by omega)
    · rw [if_neg hc]
      obtain ⟨u, hu⟩ := emitRun_pos k hk
      exact ⟨u ++ c :: collapseNlGo 0 t, by rw [hu]; rfl⟩

theorem prevOf_append (p : Option Char) (u v : Str) :
    prevOf p (u ++ v) = prevOf (prevOf p u) v := by
  rcases List.eq_nil_or_concat v with rfl | ⟨v0, e, rfl⟩
  · rw [List.append_nil]
    rfl
  · rw [List.concat_eq_append]
    unfold prevOf
    rw [show u ++ (v0 ++ [e]) = (u ++ v0) ++ [e] from by simp, List.getLast?_concat,
      List.getLast?_concat]

theorem prevOf_none_eq (a : Str) : prevOf none a = a.getLast? := by
  unfold prevOf
  cases a.getLast? with
  | none => rfl
  | some c => rfl

theorem prevOf_congr (a b : Str) (h : prevOf none a = prevOf none b) (p : Option Char) :
    prevOf p a = prevOf p b := by
  rw [prevOf_none_eq, prevOf_none_eq] at h
  unfold prevOf
  rw [h]

theorem prevOf_emit_rep (k : Nat) :
    prevOf none (emitRun k) = prevOf none (List.replicate k '\n') := by
  unfold emitRun
  split
  · rename_i h3
    cases k with
    | zero => omega
    | succ j =>
      rw [List.replicate_succ' j '\n']
      show some '\n' = prevOf none (List.replicate j '\n' ++ ['\n'])
      unfold prevOf
      rw [List.getLast?_concat]
  · rfl

theorem replicate_nl_ws (k : Nat) : (List.replicate k '\n').all isWsChar = true := by
  rw [List.all_eq_true]
  intro x hx
  rw [List.eq_of_mem_replicate hx]
  decide

theorem collapse_pos : ∀ (s : Str) (k : Nat) (b' : Str) (c0 : Char) (rest' : Str),
    ¬(c0 = '\n') → collapseNlGo k s = b' ++ c0 :: rest' →
    ∃ b0 rest0, List.replicate k '\n' ++ s = b0 ++ c0 :: rest0 ∧
      collapseNlGo 0 rest0 = rest' ∧ prevOf none b' = prevOf none b0
  | [], k, b', c0, rest', hc, h => by
    rw [collapseNlGo] at h
    exact absurd (emitRun_mem k c0 (by rw [h]; simp)) hc
  | e :: t, k, b', c0, rest', hc, h => by
    rw [collapseNlGo] at h
    by_cases he : e = '\n'
    · rw [if_pos he] at h
      obtain ⟨b0, rest0, h1, h2, h3⟩ := collapse_pos t (k + 1) b' c0 rest' hc h
      refine ⟨b0, rest0, ?_, h2, h3⟩
      rw [show List.replicate k '\n' ++ e :: t = List.replicate (k + 1) '\n' ++ t from by
        rw [he, List.replicate_succ' k '\n']
        simp]
      exact h1
    · rw [if_neg he] at h
      rcases List.append_eq_append_iff.mp h with ⟨a', ha1, ha2⟩ | ⟨c', hc1, hc2⟩
      · cases a' with
        | nil =>
          simp only [List.nil_append] at ha2
          obtain ⟨rfl, hrest⟩ : e = c0 ∧ collapseNlGo 0 t = rest' :=
            ⟨List.head_eq_of_cons_eq ha2, List.tail_eq_of_cons_eq ha2⟩
          refine ⟨List.replicate k '\n', t, rfl, hrest, ?_⟩
          rw [ha1, List.append_nil]
          exact prevOf_emit_rep k
        | cons x a'' =>
          obtain ⟨rfl, hx2⟩ : e = x ∧ collapseNlGo 0 t = a'' ++ c0 :: rest' :=
            ⟨List.head_eq_of_cons_eq ha2, List.tail_eq_of_cons_eq ha2⟩
          obtain ⟨b0', rest0, h1, h2, h3⟩ := collapse_pos t 0 a'' c0 rest' hc hx2
          rw [show List.replicate 0 '\n' = ([] : Str) from rfl, List.nil_append] at h1
          refine ⟨List.replicate k '\n' ++ e :: b0', rest0, ?_, h2, ?_⟩
          · rw [h1]
            simp
          · rw [ha1, prevOf_append, prevOf_append, prevOf_cons, prevOf_cons]
            exact prevOf_congr a'' b0' h3 (some e)
      · cases c' with
        | nil =>
          rw [List.append_nil] at hc1
          simp only [List.nil_append] at hc2
          obtain ⟨rfl, hrest⟩ : c0 = e ∧ rest' = collapseNlGo 0 t :=
            ⟨List.head_eq_of_cons_eq hc2, List.tail_eq_of_cons_eq hc2⟩
          refine ⟨List.replicate k '\n', t, rfl, hrest.symm, ?_⟩
          rw [← hc1]
          exact prevOf_emit_rep k
        | cons x c'' =>
          exfalso
          have hx : x ∈ emitRun k := by rw [hc1]; simp
          exact hc ((List.head_eq_of_cons_eq hc2).trans (emitRun_mem k x hx))

theorem collapse_pfx : ∀ (zt : Str) (Y0 Y : Str), '\n' ∉ zt →
    collapseNlGo 0 Y0 = zt ++ Y → ∃ Y1, Y0 = zt ++ Y1 ∧ collapseNlGo 0 Y1 = Y
  | [], Y0, Y, _, h => ⟨Y0, rfl, by simpa using h⟩
  | d :: zt', Y0, Y, hn, h => by
    have hd : ¬(d = '\n') := fun hdd => hn (hdd ▸ List.mem_cons_self d zt')
    cases Y0 with
    | nil =>
      rw [collapseNlGo] at h
      simp [emitRun] at h
    | cons e t =>
      rw [collapseNlGo] at h
      by_cases he : e = '\n'
      · rw [if_pos he] at h
        obtain ⟨u, hu⟩ := headNl t 1 (by omega)
        rw [hu] at h
        exact absurd (List.head_eq_of_cons_eq h).symm hd
      · rw [if_neg he] at h
        rw [show emitRun 0 ++ e :: collapseNlGo 0 t = e :: collapseNlGo 0 t from rfl] at h
        rw [List.cons_append] at h
        obtain ⟨rfl, h2⟩ : e = d ∧ collapseNlGo 0 t = zt' ++ Y :=
          ⟨List.head_eq_of_cons_eq h, List.tail_eq_of_cons_eq h⟩
        obtain ⟨Y1, hy1, hy2⟩ :=
          collapse_pfx zt' t Y (fun hm => hn (List.mem_cons_of_mem e hm)) h2
        exact ⟨Y1, by rw [hy1, List.cons_append], hy2⟩

theorem collapse_ws_quote : ∀ (Y0 : Str) (k : Nat) (w Z : Str),
    w.all isWsChar = true → collapseNlGo k Y0 = w ++ '"' :: Z →
    ∃ w0 Z0, List.replicate k '\n' ++ Y0 = w0 ++ '"' :: Z0 ∧
      w0.all isWsChar = true ∧ collapseNlGo 0 Z0 = Z ∧ (w0 = [] → w = [])
  | [], k, w, Z, hw, h => by
    rw [collapseNlGo] at h
    exact absurd (emitRun_mem k '"' (by rw [h]; simp)) (by decide)
  | e :: t, k, w, Z, hw, h => by
    rw [collapseNlGo] at h
    by_cases he : e = '\n'
    · rw [if_pos he] at h
      obtain ⟨w0, Z0, h1, h2, h3, h4⟩ := collapse_ws_quote t (k + 1) w Z hw h
      refine ⟨w0, Z0, ?_, h2, h3, h4⟩
      rw [show List.replicate k '\n' ++ e :: t = List.replicate (k + 1) '\n' ++ t from by
        rw [he, List.replicate_succ' k '\n']
        simp]
      exact h1
    · rw [if_neg he] at h
      rcases List.append_eq_append_iff.mp h with ⟨a', ha1, ha2⟩ | ⟨c', hc1, hc2⟩
      · cases a' with
        | nil =>
          simp only [List.nil_append] at ha2
          obtain ⟨he2, hrest⟩ : e = '"' ∧ collapseNlGo 0 t = Z :=
            ⟨List.head_eq_of_cons_eq ha2, List.tail_eq_of_cons_eq ha2⟩
          refine ⟨List.replicate k '\n', t, by rw [he2], replicate_nl_ws k, hrest, ?_⟩
          intro hw0
          have hk : k = 0 := by
            have := (List.replicate_eq_nil_iff '\n').mp hw0
            omega
          rw [ha1, List.append_nil, hk]
          decide
        | cons x a'' =>
          obtain ⟨rfl, hx2⟩ : e = x ∧ collapseNlGo 0 t = a'' ++ '"' :: Z :=
            ⟨List.head_eq_of_cons_eq ha2, List.tail_eq_of_cons_eq ha2⟩
          rw [ha1] at hw
          simp only [List.all_append, List.all_cons, Bool.and_eq_true] at hw
          obtain ⟨w0', Z0, h1, h2, h3, _⟩ := collapse_ws_quote t 0 a'' Z hw.2.2 hx2
          rw [show List.replicate 0 '\n' = ([] : Str) from rfl, List.nil_append] at h1
          refine ⟨List.replicate k '\n' ++ e :: w0', Z0, ?_, ?_, h3, ?_⟩
          · rw [h1]
            simp
          · simp only [List.all_append, List.all_cons, Bool.and_eq_true]
            exact ⟨replicate_nl_ws k, hw.2.1, h2⟩
          · intro habs
            exact absurd habs (by simp)
      · cases c' with
        | nil =>
          rw [List.append_nil] at hc1
          simp only [List.nil_append] at hc2
          obtain ⟨he2, hrest⟩ : '"' = e ∧ Z = collapseNlGo 0 t :=
            ⟨List.head_eq_of_cons_eq hc2, List.tail_eq_of_cons_eq hc2⟩
          refine ⟨List.replicate k '\n', t, by rw [← he2], replicate_nl_ws k, hrest.symm, ?_⟩
          intro hw0
          have hk : k = 0 := by
            have := (List.replicate_eq_nil_iff '\n').mp hw0
            omega
          rw [← hc1, hk]
          decide
        | cons x c'' =>
          exfalso
          have hx : x ∈ emitRun k := by rw [hc1]; simp
          exact absurd ((List.head_eq_of_cons_eq hc2).trans (emitRun_mem k x hx)) (by decide)

theorem ciMatch_zone_no_nl (z : Str) (hz : ciMatch "zone".toList z = true) : '\n' ∉ z := by
  intro hm
  obtain ⟨x, y, hxy⟩ := List.append_of_mem hm
  obtain ⟨pc, hpc, hl⟩ := ciMatch_pointwise "zone".toList z x '\n' y hz hxy
  have hpc' : pc = 'z' ∨ pc = 'o' ∨ pc = 'n' ∨ pc = 'e' := by simpa using hpc
  rcases hpc' with rfl | rfl | rfl | rfl <;> exact absurd hl (by decide)

theorem matchName_no_nl : ∀ (name q r : Str), '\n' ∉ name →
    q.length = name.length → matchName name (q ++ r) = some r → '\n' ∉ q
  | _, [], _, _, _, _ => by simp
  | [], c :: q', r, hn, hlen, h => by simp at hlen
  | p :: ps, c :: q', r, hn, hlen, h => by
    rw [List.cons_append, matchName] at h
    by_cases hc : nameCharMatch p c = true
    · rw [if_pos hc] at h
      have hq' : '\n' ∉ q' := matchName_no_nl ps q' r
        (fun hm => hn (List.mem_cons_of_mem p hm)) (by simpa using hlen) h
      intro hm
      rcases List.mem_cons.mp hm with rfl | hm'
      · unfold nameCharMatch at hc
        rw [Bool.or_eq_true] at hc
        rcases hc with hc1 | hc2
        · rw [Bool.and_eq_true] at hc1
          exact absurd hc1.2 (by decide)
        · have hc2' : lowerChar '\n' = lowerChar p := by simpa using hc2
          have hp : p = '\n' := lower_eq_nl p (hc2'.symm.trans rfl)
          exact hn (hp ▸ List.mem_cons_self p ps)
      · exact hq' hm'
    · rw [if_neg hc] at h
      exact absurd h (by simp)

theorem collapse_no_new_match (name s : Str) (hn : '\n' ∉ name)
    (h : findZone name none s = none) :
    findZone name none (collapseNl s) = none := by
  rw [findZone_none_iff]
  intro b' m' hsplit'
  cases hX : boundaryOk (prevOf none b') && matchZoneCore name m' with
  | false => rfl
  | true =>
    exfalso
    rw [Bool.and_eq_true] at hX
    obtain ⟨hb, hm⟩ := hX
    obtain ⟨z, c, wt, q, rest, hdec, hz, hcw, hwta, hql, hmn⟩ :=
      matchZoneCore_some name m' hm
    cases z with
    | nil => exact absurd hz (by decide)
    | cons z0 ztail =>
    have hz0 : ¬(z0 = '\n') := fun h0 =>
      (ciMatch_zone_no_nl (z0 :: ztail) hz) (h0 ▸ List.mem_cons_self z0 ztail)
    have heq1 : collapseNlGo 0 s =
        b' ++ z0 :: (ztail ++ ((c :: wt) ++ ('"' :: (q ++ '"' :: rest)))) := by
      rw [show collapseNlGo 0 s = collapseNl s from rfl, hsplit', hdec]
      simp
    obtain ⟨b0, rest0, hs0, hcol0, hp0⟩ := collapse_pos s 0 b' z0 _ hz0 heq1
    rw [show List.replicate 0 '\n' = ([] : Str) from rfl, List.nil_append] at hs0
    have hzt : '\n' ∉ ztail := fun hm' =>
      (ciMatch_zone_no_nl (z0 :: ztail) hz) (List.mem_cons_of_mem z0 hm')
    obtain ⟨Y1, hy1, hy1c⟩ := collapse_pfx ztail rest0 _ hzt hcol0
    have hwall : ((c :: wt) : Str).all isWsChar = true := by
      rw [List.all_cons, hcw, hwta]
      rfl
    obtain ⟨w0, Z0, hw0eq, hw0ws, hZ0c, hw0ne⟩ :=
      collapse_ws_quote Y1 0 (c :: wt) _ hwall hy1c
    rw [show List.replicate 0 '\n' = ([] : Str) from rfl, List.nil_append] at hw0eq
    cases w0 with
    | nil => exact absurd (hw0ne rfl) (by simp)
    | cons c0 wt0 =>
    have hqn : '\n' ∉ q := matchName_no_nl name q ('"' :: rest) hn hql hmn
    obtain ⟨Z1, hz1, hz1c⟩ := collapse_pfx q Z0 _ hqn hZ0c
    obtain ⟨b1, rest1, hb1e, hr1c, hb1p⟩ := collapse_pos Z1 0 [] '"' rest (by decide)
      (by rw [List.nil_append]; exact hz1c)
    have hb1nil : b1 = [] := by
      rcases List.eq_nil_or_concat b1 with rfl | ⟨b10, e, rfl⟩
      · rfl
      · exfalso
        rw [List.concat_eq_append] at hb1p
        unfold prevOf at hb1p
        rw [List.getLast?_concat] at hb1p
        exact absurd hb1p (by simp)
    have hz1e : Z1 = '"' :: rest1 := by
      rw [hb1nil, List.nil_append] at hb1e
      simpa using hb1e
    have hsdec : s = b0 ++ ((z0 :: ztail) ++ ((c0 :: wt0) ++ ('"' :: (q ++ '"' :: rest1)))) := by
      rw [hs0, hy1, hw0eq, hz1, hz1e]
      simp
    rw [List.all_cons, Bool.and_eq_true] at hw0ws
    have hcore : matchZoneCore name
        ((z0 :: ztail) ++ ((c0 :: wt0) ++ ('"' :: (q ++ '"' :: rest1)))) = true :=
      matchZoneCore_build name (z0 :: ztail) q rest rest1 c0 wt0 hz hw0ws.1 hw0ws.2 hmn hql
    have hbnd : boundaryOk (prevOf none b0) = true := by
      rw [← hp0]
      exact hb
    have h4' := (findZone_none_iff name s none).mp h b0 _ hsdec
    rw [hbnd, hcore] at h4'
    exact absurd h4' (by simp)

/-- A zone-name text whose `trim` result extends to a zone match would
already contain a match: appending the final `'\n'` of
`removeZoneFromConfigContent` to a trimmed text with no zone match cannot
create one. -/
theorem trim_nl_no_match (name A : Str) (h4 : findZone name none A = none) :
    findZone name none (trimStr A ++ ['\n']) = none := by
  rw [findZone_none_iff]
  intro b' m' hsplit'
  cases hX : boundaryOk (prevOf none b') && matchZoneCore name m' with
  | false => rfl
  | true =>
    exfalso
    rw [Bool.and_eq_true] at hX
    obtain ⟨hb, hm⟩ := hX
    obtain ⟨z, c, wt, q, rr, hdec, hz, hcw, hwta, hql, hmn⟩ :=
      matchZoneCore_some name m' hm
    rcases List.eq_nil_or_concat rr with rfl | ⟨rr0, e, rfl⟩
    · have hwhole2 : (trimStr A ++ ['\n'] : Str) =
          (b' ++ (z ++ ((c :: wt) ++ ('"' :: q)))) ++ ['"'] := by
        rw [hsplit', hdec]
        simp
      have hlast : some '\n' = some '"' :=
        calc some '\n' = (trimStr A ++ ['\n']).getLast? := (List.getLast?_concat _).symm
          _ = ((b' ++ (z ++ ((c :: wt) ++ ('"' :: q)))) ++ ['"']).getLast? := by
              rw [hwhole2]
          _ = some '"' := List.getLast?_concat _
      exact absurd hlast (by simp)
    · have hw2 : (trimStr A ++ ['\n'] : Str) =
          (b' ++ (z ++ ((c :: wt) ++ ('"' :: (q ++ '"' :: rr0))))) ++ [e] := by
        rw [hsplit', hdec]
        simp
      have hs' : trimStr A = b' ++ (z ++ ((c :: wt) ++ ('"' :: (q ++ '"' :: rr0)))) := by
        have hdl := congrArg List.dropLast hw2
        rwa [List.dropLast_concat, List.dropLast_concat] at hdl
      obtain ⟨u, v, hA, hua, hva⟩ := trim_full A
      have hAdec : A =
          (u ++ b') ++ (z ++ ((c :: wt) ++ ('"' :: (q ++ '"' :: (rr0 ++ v))))) := by
        conv_lhs => rw [hA, hs']
        simp
      have h4' := (findZone_none_iff name A none).mp h4 (u ++ b') _ hAdec
      have hcore : matchZoneCore name
          (z ++ ((c :: wt) ++ ('"' :: (q ++ '"' :: (rr0 ++ v))))) = true :=
        matchZoneCore_build name z q (rr0.concat e) (rr0 ++ v) c wt hz hcw hwta hmn hql
      have hbnd : boundaryOk (prevOf none (u ++ b')) = true := by
        rcases List.eq_nil_or_concat b' with rfl | ⟨b0, e', rfl⟩
        · rw [List.append_nil]
          rcases List.eq_nil_or_concat u with rfl | ⟨u0, ue, rfl⟩
          · rfl
          · simp only [List.concat_eq_append] at hua ⊢
            have hpu : prevOf none (u0 ++ [ue]) = some ue := by
              unfold prevOf
              rw [List.getLast?_concat]
            rw [hpu]
            have hue : isWsChar ue = true := by
              have hx := List.all_eq_true.mp hua ue (by simp)
              simpa using hx
            show (!isWordChar ue) = true
            rw [ws_not_word ue hue]
            rfl
        · simp only [List.concat_eq_append] at hb ⊢
          have hp1 : prevOf none (u ++ (b0 ++ [e'])) = some e' := by
            unfold prevOf
            rw [show u ++ (b0 ++ [e']) = (u ++ b0) ++ [e'] from by simp,
              List.getLast?_concat]
          have hp2 : prevOf none (b0 ++ [e']) = some e' := by
            unfold prevOf
            rw [List.getLast?_concat]
          rw [hp1]
          rw [hp2] at hb
          exact hb
      rw [hbnd, hcore] at h4'
      exact absurd h4' (by simp)

/-- The position right after the `\n\n    ` separator written by the
view-creation branch is preceded by a space. -/
theorem prevOf_sp2 (x : Str) : prevOf none (x ++ "\n\n    ".toList) = some ' ' := by
  rw [prevOf_append]
  rfl

/-- C6: on a document whose zone block for the name is found and
brace-matched (`h1`-`h3`), where the removed occurrence is the only one — the
remainder before/after the block contains no further match (`h4`) — and whose
zone name contains no newline (`hn`, true of every BIND zone name), a re-scan
of the `removeZoneFromConfigContent` result finds nothing: neither the
blank-line collapse nor the trim-plus-`'\n'` rewrite can create a new
match. -/
theorem C6_remove_kills_rescan (content name b m pre ab body rest : Str)
    (h1 : findZone name none content = some (b, m))
    (h2 : splitAtBrace m = some (pre, ab))
    (h3 : scanBody ab 1 = some (body, rest))
    (h4 : findZone name none (b ++ rest.dropWhile wsOrSemi) = none)
    (hn : '\n' ∉ name) :
    findZone name none (removeZoneFromConfigContent content name) = none := by
  have hres : removeZoneFromConfigContent content name =
      trimStr (collapseNl (b ++ rest.dropWhile wsOrSemi)) ++ ['\n'] := by
    unfold removeZoneFromConfigContent
    rw [h1]
    dsimp only
    rw [h2]
    dsimp only
    rw [h3]
  rw [hres]
  exact trim_nl_no_match name _ (collapse_no_new_match name _ hn h4)

theorem C6_remove_kills_rescan_witness :
    findZone "a".toList none (removeZoneFromConfigContent
      "acl x;\n\n\n\nzone \x22a\x22 \x7b\n    type master;\n\x7d;\nzone \x22b\x22 \x7b\n\x7d;\n".toList
      "a".toList) = none :=
  C6_remove_kills_rescan
    "acl x;\n\n\n\nzone \x22a\x22 \x7b\n    type master;\n\x7d;\nzone \x22b\x22 \x7b\n\x7d;\n".toList
    "a".toList
    "acl x;\n\n\n\n".toList
    "zone \x22a\x22 \x7b\n    type master;\n\x7d;\nzone \x22b\x22 \x7b\n\x7d;\n".toList
    "zone \x22a\x22 ".toList
    "\n    type master;\n\x7d;\nzone \x22b\x22 \x7b\n\x7d;\n".toList
    "\n    type master;\n".toList
    ";\nzone \x22b\x22 \x7b\n\x7d;\n".toList
    (by decide) (by decide) (by decide) (by decide) (by decide)

/-- C5: calling `buildMoveZoneToViewContent` twice with identical arguments
succeeds and yields a document with exactly one `zone "<name>"` block — the
template copy — sitting inside the target view. The hypotheses pin down the
two passes: `hshape` fixes the first insertion point, covering both the
view-creation branch (the target view is absent from the cleaned text, and
the block lands in a freshly appended view carrying the ACL-derived
`match-clients` lines) and the existing-view branch (the view header is found
and its braces match); the zone name, file and view tokens are brace-free;
the text around the spliced block admits no further zone match on either
pass; and the second pass finds the target view again with matching
braces. -/
theorem C5_move_twice_unique_in_view
    (content name file view prefix1 R1x B2 M2 P2 AB2 BD2 R2 : Str) (acl : ViewAcl)
    (hnb : '\x7b' ∉ name) (hnb2 : '\x7d' ∉ name)
    (hfb : '\x7b' ∉ file) (hfb2 : '\x7d' ∉ file)
    (hvb : '\x7b' ∉ view)
    (hshape :
      (splitAtSub ("view \x22".toList ++ view ++ ['\x22'])
          (removeZoneFromConfigContent content name) = none ∧
        prefix1 = removeZoneFromConfigContent content name ++
          ("\nview \x22".toList ++ view ++ ("\x22 \x7b\n".toList ++
            (List.intercalate ['\n'] (aclLinesFor
              (normalizeList (acl.allow.getD ["any".toList]))
              (normalizeList (acl.deny.getD []))) ++ "\n\n    ".toList))) ∧
        R1x = "\n\x7d;\n".toList) ∨
      (∃ B1 M1 P1 AB1 BD1 R1,
        splitAtSub ("view \x22".toList ++ view ++ ['\x22'])
          (removeZoneFromConfigContent content name) = some (B1, M1) ∧
        splitAtBrace M1 = some (P1, AB1) ∧
        scanBody AB1 1 = some (BD1, R1) ∧
        prefix1 = (B1 ++ (P1 ++ '\x7b' :: BD1)) ++ ('\n' :: "    ".toList) ∧
        R1x = '\x7d' :: R1))
    (hnm1 : noMatchWithTail name none prefix1 (zoneBlockFor name file ++ R1x) = true)
    (hv2 : splitAtSub ("view \x22".toList ++ view ++ ['\x22'])
      (trimStr (collapseNl (prefix1 ++ R1x.dropWhile wsOrSemi)) ++ ['\n']) =
      some (B2, M2))
    (hb2 : splitAtBrace M2 = some (P2, AB2))
    (hs2 : scanBody AB2 1 = some (BD2, R2))
    (hnm2 : noMatchWithTail name none
      ((B2 ++ (P2 ++ '\x7b' :: BD2)) ++ ('\n' :: "    ".toList))
      (zoneBlockFor name file ++ '\x7d' :: R2) = true)
    (huniq : findZone name (some 'z')
      (("one \x22".toList ++ (name ++ '\x22' :: zbTail file)) ++ '\x7d' :: R2) = none) :
    ∃ d1 d2, buildMoveZoneToViewContent content name file view acl = some d1 ∧
      buildMoveZoneToViewContent d1 name file view acl = some d2 ∧
      zoneOnceInView d2 name file view := by
  have hzne1 : zoneBlockFor name file ++ R1x ≠ ([] : Str) := by
    rw [zoneBlockFor_decomp]
    simp
  have hzne2 : zoneBlockFor name file ++ '\x7d' :: R2 ≠ ([] : Str) := by
    rw [zoneBlockFor_decomp]
    simp
  have hmc1 : matchZoneCore name (zoneBlockFor name file ++ R1x) = true := by
    rw [show (zoneBlockFor name file ++ R1x : Str) =
      "zone \x22".toList ++ (name ++ '\x22' :: (zbTail file ++ R1x)) from by
        rw [zoneBlockFor_decomp]
        simp]
    exact matchZone_at_block name (zbTail file ++ R1x)
  have hmc2 : matchZoneCore name (zoneBlockFor name file ++ '\x7d' :: R2) = true := by
    rw [show (zoneBlockFor name file ++ '\x7d' :: R2 : Str) =
      "zone \x22".toList ++ (name ++ '\x22' :: (zbTail file ++ '\x7d' :: R2)) from by
        rw [zoneBlockFor_decomp]
        simp]
    exact matchZone_at_block name (zbTail file ++ '\x7d' :: R2)
  obtain ⟨hbuild1, hbound1⟩ :
      buildMoveZoneToViewContent content name file view acl =
        some (prefix1 ++ (zoneBlockFor name file ++ R1x)) ∧
      prevOf none prefix1 = some ' ' := by
    rcases hshape with ⟨hn1, hp1, hr1⟩ | ⟨B1, M1, P1, AB1, BD1, R1, hv1, hb1, hs1, hp1, hr1⟩
    · constructor
      · unfold buildMoveZoneToViewContent insertZoneIntoViewContent
        rw [hn1]
        dsimp only
        rw [hp1, hr1]
        unfold viewBlockFor
        congr 1
        simp
      · rw [hp1]
        rw [show (removeZoneFromConfigContent content name ++
            ("\nview \x22".toList ++ view ++ ("\x22 \x7b\n".toList ++
              (List.intercalate ['\n'] (aclLinesFor
                (normalizeList (acl.allow.getD ["any".toList]))
                (normalizeList (acl.deny.getD []))) ++ "\n\n    ".toList))) : Str) =
          (removeZoneFromConfigContent content name ++
            ("\nview \x22".toList ++ view ++ ("\x22 \x7b\n".toList ++
              List.intercalate ['\n'] (aclLinesFor
                (normalizeList (acl.allow.getD ["any".toList]))
                (normalizeList (acl.deny.getD [])))))) ++ "\n\n    ".toList from by simp]
        exact prevOf_sp2 _
    · constructor
      · unfold buildMoveZoneToViewContent insertZoneIntoViewContent
        rw [hv1]
        dsimp only
        rw [hb1]
        dsimp only
        rw [hs1]
        dsimp only
        rw [hp1, hr1]
        congr 1
        simp [List.append_assoc, List.takeWhile_append_dropWhile]
      · rw [hp1]
        exact prevOf_sep _
  have hfz1 : findZone name none (prefix1 ++ (zoneBlockFor name file ++ R1x)) =
      some (prefix1, zoneBlockFor name file ++ R1x) := by
    refine findZone_build name prefix1 none _ hnm1 ?_ hzne1
    rw [Bool.and_eq_true]
    refine ⟨?_, hmc1⟩
    rw [hbound1]
    decide
  have hbrfree : '\x7b' ∉ ("zone \x22".toList ++ (name ++ ['\x22', ' '])) := by
    intro hmem
    rcases List.mem_append.mp hmem with h | h
    · exact absurd h (by decide)
    rcases List.mem_append.mp h with h | h
    · exact hnb h
    · exact absurd h (by decide)
  have hsplitbr : splitAtBrace (zoneBlockFor name file ++ R1x) =
      some ("zone \x22".toList ++ (name ++ ['\x22', ' ']),
        "\n    type master;\n    file \x22".toList ++ (file ++
        ("\x22;\n    allow-update ".toList ++ ('\x7b' :: (" none; ".toList ++
          ('\x7d' :: (";\n".toList ++ ('\x7d' :: (";\n".toList ++ R1x))))))))) := by
    rw [show (zoneBlockFor name file ++ R1x : Str) =
      ("zone \x22".toList ++ (name ++ ['\x22', ' '])) ++ '\x7b' ::
        ("\n    type master;\n    file \x22".toList ++ (file ++
        ("\x22;\n    allow-update ".toList ++ ('\x7b' :: (" none; ".toList ++
          ('\x7d' :: (";\n".toList ++ ('\x7d' :: (";\n".toList ++ R1x))))))))) from by
        rw [zoneBlockFor_decomp, zbTail_decomp]
        simp]
    exact splitAtBrace_app _ _ hbrfree
  have hremove :
      removeZoneFromConfigContent (prefix1 ++ (zoneBlockFor name file ++ R1x)) name =
      trimStr (collapseNl (prefix1 ++ R1x.dropWhile wsOrSemi)) ++ ['\n'] := by
    unfold removeZoneFromConfigContent
    rw [hfz1]
    dsimp only
    rw [hsplitbr]
    dsimp only
    rw [scanBody_zb_inner file R1x hfb hfb2]
    dsimp only
    rw [dropWhile_all_pre ";\n".toList R1x (by decide)]
  have hbuild2 : buildMoveZoneToViewContent (prefix1 ++ (zoneBlockFor name file ++ R1x))
      name file view acl = some (B2 ++ ((P2 ++ '\x7b' :: BD2) ++
        (('\n' :: "    ".toList ++ zoneBlockFor name file) ++ '\x7d' :: R2))) := by
    unfold buildMoveZoneToViewContent insertZoneIntoViewContent
    rw [hremove, hv2]
    dsimp only
    rw [hb2]
    dsimp only
    rw [hs2]
    dsimp only
    congr 1
    simp [List.append_assoc, List.takeWhile_append_dropWhile]
  have hM2 := splitAtSub_some _ _ _ _ hv2
  have hP2 := splitAtBrace_some _ _ _ hb2
  have hvpre : ("view \x22".toList ++ view ++ ['\x22']).isPrefixOf P2 = true := by
    refine prefix_stop_brace _ P2 AB2 ?_ ?_
    · rw [← hP2.1]
      exact hM2.2
    · intro hmem
      rcases List.mem_append.mp hmem with h | h
      · rcases List.mem_append.mp h with h1 | h1
        · exact absurd h1 (by decide)
        · exact hvb h1
      · exact absurd h (by decide)
  have hfz2 : findZone name none (B2 ++ ((P2 ++ '\x7b' :: BD2) ++
      (('\n' :: "    ".toList ++ zoneBlockFor name file) ++ '\x7d' :: R2))) =
      some ((B2 ++ (P2 ++ '\x7b' :: BD2)) ++ ('\n' :: "    ".toList),
        zoneBlockFor name file ++ '\x7d' :: R2) := by
    rw [show (B2 ++ ((P2 ++ '\x7b' :: BD2) ++
      (('\n' :: "    ".toList ++ zoneBlockFor name file) ++ '\x7d' :: R2)) : Str) =
      ((B2 ++ (P2 ++ '\x7b' :: BD2)) ++ ('\n' :: "    ".toList)) ++
        (zoneBlockFor name file ++ '\x7d' :: R2) from by simp]
    refine findZone_build name _ none _ hnm2 ?_ hzne2
    rw [Bool.and_eq_true]
    refine ⟨?_, hmc2⟩
    rw [prevOf_sep]
    decide
  have hdzb1 : depthRun (zoneBlockFor name file) 1 = some 1 := by
    have hx := depthRun_zb_app name file [] hnb hnb2 hfb hfb2
    rwa [List.append_nil] at hx
  have hscanview : scanBody (BD2 ++ (('\n' :: "    ".toList ++ zoneBlockFor name file) ++
      '\x7d' :: R2)) 1 =
      some (BD2 ++ ('\n' :: "    ".toList ++ zoneBlockFor name file), R2) := by
    rw [scanBody_after BD2 1 1 (scanBody_some AB2 1 BD2 R2 hs2).2]
    rw [show (('\n' :: "    ".toList ++ zoneBlockFor name file) ++ '\x7d' :: R2 : Str) =
      ('\n' :: "    ".toList) ++ (zoneBlockFor name file ++ '\x7d' :: R2) from by simp]
    rw [scanBody_after ('\n' :: "    ".toList) 1 1
      (depthRun_free _ (by decide) (by decide) 1)]
    rw [scanBody_after (zoneBlockFor name file) 1 1 hdzb1]
    rw [show scanBody ('\x7d' :: R2) 1 = some ([], R2) from by
      rw [scanBody, if_neg (by decide), if_pos rfl, if_pos rfl]]
    simp
  exact ⟨_, _, hbuild1, hbuild2, B2, P2, BD2, R2, rfl, hvpre, hscanview, hfz2, huniq⟩

theorem C5_move_twice_unique_in_view_witness :
    ∃ d1 d2, buildMoveZoneToViewContent "acl x;\n".toList
        "a".toList "f".toList "v".toList ⟨none, none⟩ = some d1 ∧
      buildMoveZoneToViewContent d1 "a".toList "f".toList "v".toList ⟨none, none⟩ =
        some d2 ∧
      zoneOnceInView d2 "a".toList "f".toList "v".toList :=
  C5_move_twice_unique_in_view "acl x;\n".toList
    "a".toList "f".toList "v".toList
    "acl x;\n\nview \x22v\x22 \x7b\n    match-clients \x7b any; \x7d;\n\n    ".toList
    "\n\x7d;\n".toList
    "acl x;\n\n".toList
    "view \x22v\x22 \x7b\n    match-clients \x7b any; \x7d;\n\n    \x7d;\n".toList
    "view \x22v\x22 ".toList
    "\n    match-clients \x7b any; \x7d;\n\n    \x7d;\n".toList
    "\n    match-clients \x7b any; \x7d;\n\n    ".toList
    ";\n".toList
    ⟨none, none⟩
    (by decide) (by decide) (by decide) (by decide) (by decide)
    (Or.inl (by decide))
    (by decide) (by decide) (by decide) (by decide) (by decide) (by decide)


end NDash
